import Mathlib

/-!
# audio_clipper: the editor, the waveform projection, the player and the recorder

A shallow embedding of `AudioEditor::adjustVolume`, `AudioEditor::trimToRegion` and
`AudioEditor::removeRegion` (`src/audio_editor.cpp`), of the waveform downsampling and the
pixel/time mapping of `AudioClipper` (`src/audio_clipper.cpp`), of `AudioPlayer`
(`src/audio_player.cpp`) and of `AudioRecorder` (`src/audio_recorder.cpp`), and the
properties of their contracts.

Conventions of the embedding

* `std::vector<float>` is a `List`; `int` is `Int`; `size_t` is a `Nat` below `2 ^ 64`.
* A `float`/`double` value that is inspected (the samples of `adjustVolume`) is an `Fp`:
  NaN, one of the two infinities, or a finite value given by the rational it denotes.
  The rounding operations of the platform (`*`, `/`, `std::pow`, the narrowing cast) are
  not part of the repository and are taken as a parameter, `FloatOps`.
* A time in seconds (a finite `double`) is the rational it denotes. The `double` arithmetic
  on times is IEEE-754 binary64: every product and quotient is rounded to the nearest
  binary64 value, ties to even (`roundDouble`), and overflows to an infinity
  (`Fp.toDouble`, `doubleMul`, `doubleDiv`). An `int` converts to `double` exactly.
* `static_cast<size_t>` and `static_cast<int>` of a `double` discard the fraction. Out of
  range the C++ standard leaves them undefined; the embedding follows the x86-64 conversion
  instruction `cvttsd2si` as gcc emits it: a negative value converts to `size_t` modulo
  `2 ^ 64`, and an out-of-range conversion to `int` gives `INT_MIN`. At or above `2 ^ 64` the
  conversion to `size_t` depends on the instruction sequence the compiler chooses, and the
  embedding returns `none`, as for a division by zero and an access outside a buffer.
* `unsigned long` is 64 bits wide, like `size_t`; unsigned arithmetic is modulo `2 ^ 64`.
* The audio callbacks are atomic steps on the player and recorder state; the invocations of
  the callbacks registered by the caller are recorded in the state (`finishedCalls`,
  `delivered`).
-/

namespace AudioClipper

/-! ## Definitions -/

/-- An IEEE-754 value: not-a-number, minus infinity, a finite value, plus infinity. -/
inductive Fp where
  | nan : Fp
  | negInf : Fp
  | fin (q : ℚ) : Fp
  | posInf : Fp
  deriving DecidableEq

/-- IEEE-754 `<`: false as soon as one side is NaN. -/
def Fp.lt : Fp → Fp → Bool
  | .nan, _ => false
  | _, .nan => false
  | .negInf, .negInf => false
  | .negInf, _ => true
  | .fin _, .negInf => false
  | .fin a, .fin b => decide (a < b)
  | .fin _, .posInf => true
  | .posInf, _ => false

/-- `std::min(a, b)`: `(b < a) ? b : a`. -/
def stdMin (a b : Fp) : Fp := if Fp.lt b a then b else a

/-- `std::max(a, b)`: `(a < b) ? b : a`. -/
def stdMax (a b : Fp) : Fp := if Fp.lt a b then b else a

/-- The floating-point operations `adjustVolume` calls and the repository does not define:
`std::pow`, double division, float multiplication and `static_cast<float>`. -/
structure FloatOps where
  pow : Fp → Fp → Fp
  div : Fp → Fp → Fp
  mul : Fp → Fp → Fp
  toFloat : Fp → Fp

/-- `AudioEditor::adjustVolume` (audio_editor.cpp:137-148). -/
def adjustVolume (fp : FloatOps) (data : List Fp) (volumeDb : Fp) : List Fp :=
  let linearGain := fp.pow (Fp.fin 10) (fp.div volumeDb (Fp.fin 20))
  data.map fun sample =>
    let sample := fp.mul sample (fp.toFloat linearGain)
    stdMax (Fp.fin (-1)) (stdMin (Fp.fin 1) sample)

/-- The value is a finite number of the closed interval `[-1.0, 1.0]`. -/
def Fp.inUnit : Fp → Prop
  | .fin q => -1 ≤ q ∧ q ≤ 1
  | _ => False

/-- What IEEE-754 and the C library fix about the operations at unity gain: `0 / 20 = 0`,
`pow(10, 0) = 1`, `1.0` narrows to `1.0f`, and `x * 1 = x` for every `x`. -/
def FloatOps.UnityLaws (fp : FloatOps) : Prop :=
  fp.div (Fp.fin 0) (Fp.fin 20) = Fp.fin 0 ∧
  fp.pow (Fp.fin 10) (Fp.fin 0) = Fp.fin 1 ∧
  fp.toFloat (Fp.fin 1) = Fp.fin 1 ∧
  ∀ x, fp.mul x (Fp.fin 1) = x

/-- Exact multiplication with the IEEE-754 rules for NaN and the infinities. -/
def exactMul : Fp → Fp → Fp
  | .nan, _ => .nan
  | _, .nan => .nan
  | .fin a, .fin b => .fin (a * b)
  | .fin a, .posInf => if a = 0 then .nan else if 0 < a then .posInf else .negInf
  | .fin a, .negInf => if a = 0 then .nan else if 0 < a then .negInf else .posInf
  | .posInf, .fin b => if b = 0 then .nan else if 0 < b then .posInf else .negInf
  | .negInf, .fin b => if b = 0 then .nan else if 0 < b then .negInf else .posInf
  | .posInf, .posInf => .posInf
  | .posInf, .negInf => .negInf
  | .negInf, .posInf => .negInf
  | .negInf, .negInf => .posInf

/-- Exact division with the IEEE-754 rules for NaN, the infinities and a zero divisor. -/
def exactDiv : Fp → Fp → Fp
  | .nan, _ => .nan
  | _, .nan => .nan
  | .fin a, .fin b =>
      if b = 0 then (if a = 0 then .nan else if 0 < a then .posInf else .negInf)
      else .fin (a / b)
  | .fin _, .posInf => .fin 0
  | .fin _, .negInf => .fin 0
  | .posInf, .fin b => if 0 ≤ b then .posInf else .negInf
  | .negInf, .fin b => if 0 ≤ b then .negInf else .posInf
  | .posInf, .posInf => .nan
  | .posInf, .negInf => .nan
  | .negInf, .posInf => .nan
  | .negInf, .negInf => .nan

/-- Exact power, computed where the result is rational: a finite base and a whole exponent.
Every other case yields `nan` (it is not computed by this instance). -/
def exactPow : Fp → Fp → Fp
  | .fin b, .fin e =>
      if e.den = 1 then (if b = 0 ∧ e < 0 then .posInf else .fin (b ^ e.num)) else .nan
  | _, _ => .nan

/-- A reference instance of the platform operations, without rounding: it evaluates the
editor on inputs where floating-point arithmetic is exact. -/
def exactOps : FloatOps where
  pow := exactPow
  div := exactDiv
  mul := exactMul
  toFloat := id

/-- The number of halvings that bring `n` below 2, which is `⌊log₂ n⌋` for `n ≥ 1`; the first
argument bounds the recursion. -/
def log2Aux : Nat → Nat → Nat
  | 0, _ => 0
  | fuel + 1, n => if n < 2 then 0 else log2Aux fuel (n / 2) + 1

/-- The binary exponent of a non-zero rational, `⌊log₂ |x|⌋`: the difference of the exponents
of numerator and denominator, or one less. -/
def binade (x : ℚ) : Int :=
  let k : Int := (log2Aux x.num.natAbs x.num.natAbs : Int) - (log2Aux x.den x.den : Int)
  if (2 : ℚ) ^ k ≤ |x| then k else k - 1

/-- Rounding to the nearest integer, a tie going to the even neighbour. -/
def roundHalfEven (y : ℚ) : Int :=
  let f : Int := ⌊y⌋
  if y - f < 1/2 then f
  else if 1/2 < y - f then f + 1
  else if f % 2 = 0 then f else f + 1

/-- The spacing of the binary64 values around `x`: `2 ^ (e - 52)` for the exponent `e` of `x`,
which is taken at least -1022 (below `2 ^ -1022` the values are subnormal and `2 ^ -1074`
apart). -/
def ulp (x : ℚ) : ℚ := (2 : ℚ) ^ (max (binade x) (-1022) - 52)

/-- The binary64 value nearest to `x`, ties to even (the default rounding of IEEE-754), with
the exponent unbounded above; the overflow to an infinity is in `Fp.toDouble`. -/
def roundDouble (x : ℚ) : ℚ := (roundHalfEven (x / ulp x) : ℚ) * ulp x

/-- The `double` an exact result is rounded to: the nearest binary64 value, or an infinity
when that value reaches `2 ^ 1024` in magnitude. -/
def Fp.toDouble : Fp → Fp
  | .fin x =>
      let r := roundDouble x
      if 2 ^ 1024 ≤ r then .posInf else if r ≤ -(2 ^ 1024) then .negInf else .fin r
  | v => v

/-- The product `a * b` of two `double`s. -/
def doubleMul (a b : Fp) : Fp := (exactMul a b).toDouble

/-- The quotient `a / b` of two `double`s. -/
def doubleDiv (a b : Fp) : Fp := (exactDiv a b).toDouble

/-- The largest `size_t` (a 64-bit platform). -/
def SIZE_MAX : Nat := 2 ^ 64 - 1

/-- The largest size of a `std::vector<float>`, `PTRDIFF_MAX / sizeof(float)`. -/
def VECTOR_MAX : Nat := 2 ^ 61 - 1

/-- Truncation toward zero, the rounding of a floating-point to integer conversion. -/
def truncate (x : ℚ) : Int := if 0 ≤ x then ⌊x⌋ else ⌈x⌉

/-- `static_cast<size_t>(x)` for a `double` `x`: the fraction is discarded (truncation toward
zero). When the truncated value is not a `size_t` the C++ standard leaves the conversion
undefined; the x86-64 code of gcc (`cvttsd2si` on the value, or on the value less `2 ^ 63`)
converts a negative value modulo `2 ^ 64` (-2.0 gives `2 ^ 64 - 2`) and gives `2 ^ 63` below
`-(2 ^ 63)`, for minus infinity and for NaN. At or above `2 ^ 64`, and for plus infinity, the
result depends on the instruction sequence the compiler chooses (0 with the one above): there
the result is `none`. -/
def toSizeT : Fp → Option Nat
  | .nan => some (2 ^ 63)
  | .negInf => some (2 ^ 63)
  | .posInf => none
  | .fin x =>
      let z : Int := truncate x
      if z ≤ (SIZE_MAX : Int) then some ((max z (-(2 ^ 63))) % (2 ^ 64)).toNat else none

/-- `AudioEditor::trimToRegion` (audio_editor.cpp:150-166). -/
def trimToRegion {α : Type} (data : List α) (sampleRate channels : Int)
    (startTime endTime : ℚ) : Option (List α) :=
  if data.isEmpty ∨ sampleRate ≤ 0 ∨ channels ≤ 0 then
    some data
  else do
    let startSample ←
      toSizeT (doubleMul (doubleMul (.fin startTime) (.fin sampleRate)) (.fin channels))
    let endSample ←
      toSizeT (doubleMul (doubleMul (.fin endTime) (.fin sampleRate)) (.fin channels))
    let startSample := min startSample data.length
    let endSample := min endSample data.length
    if startSample ≥ endSample then
      some []
    else
      some ((data.take endSample).drop startSample)

/-- `AudioEditor::removeRegion` (audio_editor.cpp:168-189). -/
def removeRegion {α : Type} (data : List α) (sampleRate channels : Int)
    (startTime endTime : ℚ) : Option (List α) :=
  if data.isEmpty ∨ sampleRate ≤ 0 ∨ channels ≤ 0 then
    some data
  else do
    let startSample ←
      toSizeT (doubleMul (doubleMul (.fin startTime) (.fin sampleRate)) (.fin channels))
    let endSample ←
      toSizeT (doubleMul (doubleMul (.fin endTime) (.fin sampleRate)) (.fin channels))
    let startSample := min startSample data.length
    let endSample := min endSample data.length
    if startSample ≥ endSample then
      some data
    else
      let result : List α := []
      let result := result ++ data.take startSample
      let result := result ++ data.drop endSample
      some result

/-- The sample offset `trimToRegion` and `removeRegion` compute for a time `t` on a buffer of
`size` samples: the conversion of audio_editor.cpp:155 (again at 156, 173 and 174) followed
by the `std::min` of line 158 (again at 159, 176 and 177). -/
def regionOffset (size : Nat) (sampleRate channels : Int) (t : ℚ) : Option Nat := do
  let sample ← toSizeT (doubleMul (doubleMul (.fin t) (.fin sampleRate)) (.fin channels))
  some (min sample size)

/-- The value of the `double` product `t * sampleRate * channels`: each of the two
multiplications is rounded to binary64. The exponent is unbounded above: a magnitude of
`2 ^ 1024` or more stands for the infinity of that sign. -/
def sampleProduct (t : ℚ) (sampleRate channels : Int) : ℚ :=
  roundDouble (roundDouble (t * sampleRate) * channels)

/-- The duration of a buffer in the words of the specification (section 3): the frame count
`samples.length / channels` divided by `sampleRate`. -/
def specDuration (totalSamples : Nat) (sampleRate channels : Int) : ℚ :=
  ((totalSamples : ℚ) / (channels : ℚ)) / (sampleRate : ℚ)

/-- The time-to-index conversion in the words of the specification (section 4.3):
`index(t) = clamp(round(t * sampleRate) * channels, 0, totalSamples)`. -/
def specIndex (totalSamples : Nat) (sampleRate channels : Int) (t : ℚ) : Int :=
  max 0 (min (round (t * sampleRate) * channels) (totalSamples : Int))

/-- The largest `int` (32 bits). -/
def INT_MAX : Int := 2 ^ 31 - 1

/-- The smallest `int` (32 bits). -/
def INT_MIN : Int := -(2 ^ 31)

/-- `static_cast<int>(n)` for a `size_t` value `n`: the `int` congruent to `n` modulo `2 ^ 32`
(the conversion C++20 prescribes and earlier compilers implement). -/
def intOfSize (n : Nat) : Int := Int.bmod (n : Int) (2 ^ 32)

/-- The conversion of an `int` to `size_t` in mixed arithmetic: the value modulo `2 ^ 64`. -/
def sizeOfInt (c : Int) : Nat := (c % (2 ^ 64 : Int)).toNat

/-- `static_cast<int>(x)` for a `double` `x`: truncation toward zero. When the truncated
value is not an `int` the C++ standard leaves the conversion undefined; the x86-64
instruction `cvttsd2si` gives `INT_MIN` there, as for NaN and the infinities. -/
def toInt : Fp → Int
  | .fin x =>
      let z : Int := truncate x
      if INT_MIN ≤ z ∧ z ≤ INT_MAX then z else INT_MIN
  | _ => INT_MIN

/-- The stride of the waveform downsampling,
`std::max(1, static_cast<int>(data.size()) / maxSamples)` (audio_clipper.cpp:44, 535, 588,
614, 643); `maxSamples` is the constant 2000 there. -/
def downsampleFactor (maxSamples : Int) (size : Nat) : Int :=
  max 1 (Int.tdiv (intOfSize size) maxSamples)

/-- The loop `for (size_t i = 0; i < data.size(); i += downsampleFactor)
waveformSamples.push_back(data[i])` (audio_clipper.cpp:47-49), started at index `i`; the
first argument bounds the number of iterations (`none` when it is used up). -/
def downsampleLoop {α : Type} (data : List α) (downsampleFactor : Int) :
    Nat → Nat → List α → Option (List α)
  | 0, _, _ => none
  | fuel + 1, i, waveformSamples =>
    if h : i < data.length then
      downsampleLoop data downsampleFactor fuel
        ((i + sizeOfInt downsampleFactor) % (SIZE_MAX + 1)) (waveformSamples ++ [data[i]])
    else
      some waveformSamples

/-- The waveform projection: the downsampling block that fills `waveformSamples` after a
recording, a load and every edit (audio_clipper.cpp:43-49, 534-540, 587-593, 613-619,
642-648), with the constant `maxSamples` as a parameter. -/
def downsampleWaveform {α : Type} (maxSamples : Int) (data : List α) : Option (List α) :=
  let factor := downsampleFactor maxSamples data.length
  let waveformSamples : List α := []
  downsampleLoop data factor (data.length + 1) 0 waveformSamples

/-- `AudioClipper::pixelToTime` (audio_clipper.cpp:664-667), the fields `waveformWidth` and
`audioDuration` being the second and third argument. -/
def pixelToTime (x : Int) (waveformWidth : Int) (audioDuration : ℚ) : Fp :=
  if waveformWidth ≤ 0 ∨ audioDuration ≤ 0 then .fin 0
  else doubleMul (doubleDiv (.fin x) (.fin waveformWidth)) (.fin audioDuration)

/-- `AudioClipper::timeToPixel` (audio_clipper.cpp:669-672), the fields `waveformWidth` and
`audioDuration` being the second and third argument. -/
def timeToPixel (time : ℚ) (waveformWidth : Int) (audioDuration : ℚ) : Int :=
  if audioDuration ≤ 0 then 0
  else toInt (doubleMul (doubleDiv (.fin time) (.fin audioDuration)) (.fin waveformWidth))

/-- The value of the `double` expression `(time / audioDuration) * waveformWidth` of
`timeToPixel`: the quotient and the product are each rounded to binary64. The exponent is
unbounded above: a magnitude of `2 ^ 1024` or more stands for an infinity. -/
def pixelPosition (time : ℚ) (waveformWidth : Int) (audioDuration : ℚ) : ℚ :=
  roundDouble (roundDouble (time / audioDuration) * waveformWidth)

/-- The pixel of a time in the words of the specification (section 4.4):
`0` if `duration <= 0`, else `round((t / duration) * width)`. -/
def specTimeToPixel (t : ℚ) (width : Int) (duration : ℚ) : Int :=
  if duration ≤ 0 then 0 else round ((t / duration) * (width : ℚ))

/-- What the PortAudio calls of `AudioPlayer::play` answer: whether a default output device
exists, whether `Pa_OpenStream` succeeds, whether `Pa_StartStream` succeeds. -/
structure PortAudio where
  deviceAvailable : Bool
  openOk : Bool
  startOk : Bool

/-- The return value of a stream callback. -/
inductive PaStreamCallbackResult where
  | paContinue : PaStreamCallbackResult
  | paComplete : PaStreamCallbackResult
  deriving DecidableEq

/-- The fields of `AudioPlayer` (audio_player.h:39-49): `stream` is true when the pointer is
not null, `positionUpdateThread` when the thread is joinable, `finishedCallback` when a
callback is registered; `finishedCalls` counts the invocations of the finished callback. -/
structure AudioPlayer where
  stream : Bool
  playing : Bool
  paused : Bool
  audioData : List Fp
  currentFrame : Nat
  currentSampleRate : Int
  currentChannels : Int
  positionUpdateThread : Bool
  finishedCallback : Bool
  finishedCalls : Nat
  deriving DecidableEq

/-- `AudioPlayer::AudioPlayer` (audio_player.cpp:6-14): the state after construction, with no
callback registered. -/
def AudioPlayer.init : AudioPlayer where
  stream := false
  playing := false
  paused := false
  audioData := []
  currentFrame := 0
  currentSampleRate := 44100
  currentChannels := 1
  positionUpdateThread := false
  finishedCallback := false
  finishedCalls := 0

/-- `AudioPlayer::setFinishedCallback` (audio_player.h:26-28); `callback` tells whether the
function object given is callable. -/
def AudioPlayer.setFinishedCallback (p : AudioPlayer) (callback : Bool) : AudioPlayer :=
  { p with finishedCallback := callback }

/-- A buffer of `n` samples whose sample at offset `k` has the value `k`. -/
def rampBuffer (n : Nat) : List Fp := (List.range n).map fun (k : Nat) => Fp.fin (k : ℚ)

/-- A session in the playing state: it holds `data`, the stream is open, the position thread
runs and the cursor is at frame `cursor`. -/
def AudioPlayer.sessionAt (data : List Fp) (sampleRate channels : Int) (cursor : Nat) :
    AudioPlayer where
  stream := true
  playing := true
  paused := false
  audioData := data
  currentFrame := cursor
  currentSampleRate := sampleRate
  currentChannels := channels
  positionUpdateThread := true
  finishedCallback := false
  finishedCalls := 0

/-- `AudioPlayer::isPlaying` (audio_player.h:19). -/
def AudioPlayer.isPlaying (p : AudioPlayer) : Bool := p.playing && !p.paused

/-- `AudioPlayer::stop` (audio_player.cpp:92-110). -/
def AudioPlayer.stop (p : AudioPlayer) : AudioPlayer :=
  let p := { p with playing := false }
  let p := { p with paused := false }
  let p := if p.stream then { p with stream := false } else p
  let p := if p.positionUpdateThread then { p with positionUpdateThread := false } else p
  let p := { p with currentFrame := 0 }
  if p.finishedCallback then { p with finishedCalls := p.finishedCalls + 1 } else p

/-- The quotient `a / c` of a `size_t` by an `int`, as in `audioData.size() / channels`: the
divisor is converted to `size_t`; a zero divisor is undefined (`none`). -/
def sizeDivInt (a : Nat) (c : Int) : Option Nat :=
  if sizeOfInt c = 0 then none else some (a / sizeOfInt c)

/-- `AudioPlayer::play` (audio_player.cpp:21-79): the return value and the state after. -/
def AudioPlayer.play (p : AudioPlayer) (pa : PortAudio) (data : List Fp)
    (sampleRate channels : Int) (startPosition : ℚ) : Option (Bool × AudioPlayer) :=
  let p := p.stop
  if data.isEmpty then
    some (false, p)
  else do
    let p := { p with audioData := data }
    let p := { p with currentSampleRate := sampleRate }
    let p := { p with currentChannels := channels }
    let startFrame ← toSizeT (doubleMul (.fin startPosition) (.fin sampleRate))
    let totalFrames ← sizeDivInt p.audioData.length channels
    let p := { p with currentFrame := min startFrame totalFrames }
    let p := { p with playing := true }
    let p := { p with paused := false }
    if !pa.deviceAvailable then
      some (false, { p with playing := false })
    else if !pa.openOk then
      some (false, { p with playing := false })
    else
      let p := { p with stream := true }
      if !pa.startOk then
        some (false, { p with stream := false, playing := false })
      else
        some (true, { p with positionUpdateThread := true })

/-- `std::copy(src.begin() + start, src.begin() + start + count, output)`: undefined (`none`)
when the source range or the destination range leaves its buffer. -/
def copyToOutput (src : List Fp) (start count : Nat) (output : List Fp) : Option (List Fp) :=
  if start + count ≤ src.length ∧ count ≤ output.length then
    some ((src.drop start).take count ++ output.drop count)
  else none

/-- `std::fill(output + first, output + last, 0.0f)`: undefined (`none`) when the range is not
a range of the output block. -/
def fillZero (output : List Fp) (first last : Nat) : Option (List Fp) :=
  if first ≤ last ∧ last ≤ output.length then
    some (output.take first ++ List.replicate (last - first) (Fp.fin 0) ++ output.drop last)
  else none

/-- `AudioPlayer::playCallback` (audio_player.cpp:119-170) on the output block `output` with a
request of `framesPerBuffer` frames: the return value, the output block and the state
after. The `size_t` arithmetic is modulo `2 ^ 64`. -/
def AudioPlayer.playCallback (p : AudioPlayer) (output : List Fp) (framesPerBuffer : Nat) :
    Option (PaStreamCallbackResult × List Fp × AudioPlayer) :=
  if !p.playing || p.paused then
    some (.paComplete, output, p)
  else do
    let framesToWrite := framesPerBuffer
    let currentFrame := p.currentFrame
    let totalFrames ← sizeDivInt p.audioData.length p.currentChannels
    let framesAvailable := (totalFrames + (SIZE_MAX + 1) - currentFrame) % (SIZE_MAX + 1)
    let framesToWrite := min framesToWrite framesAvailable
    if framesToWrite = 0 then
      some (.paComplete, output, { p with playing := false })
    else do
      let samplesToWrite := (framesToWrite * sizeOfInt p.currentChannels) % (SIZE_MAX + 1)
      let startSample := (currentFrame * sizeOfInt p.currentChannels) % (SIZE_MAX + 1)
      let output ← copyToOutput p.audioData startSample samplesToWrite output
      let output ←
        if framesToWrite < framesPerBuffer then
          fillZero output samplesToWrite
            ((framesPerBuffer * sizeOfInt p.currentChannels) % (SIZE_MAX + 1))
        else some output
      some (.paContinue, output,
        { p with currentFrame := (currentFrame + framesToWrite) % (SIZE_MAX + 1) })

/-- A run of playback callbacks, one per request (an output block and a frame count); the
output blocks are dropped. -/
def AudioPlayer.runCallbacks (p : AudioPlayer) : List (List Fp × Nat) → Option AudioPlayer
  | [] => some p
  | (output, framesPerBuffer) :: rest =>
    match p.playCallback output framesPerBuffer with
    | none => none
    | some (_, _, q) => q.runCallbacks rest

/-- The total frame count of the held buffer, `audioData.size() / currentChannels`
(audio_player.cpp:137). -/
def AudioPlayer.totalFrames (p : AudioPlayer) : Option Nat :=
  sizeDivInt p.audioData.length p.currentChannels

/-- The start cursor in the words of the specification (section 4.2): `startPosition` is
clamped to `[0, duration]`, converted with `floor(startPosition * sampleRate)` and clamped to
the total frame count, with `duration = totalFrames / sampleRate`. -/
def specStartFrame (totalFrames : Nat) (sampleRate : Int) (startPosition : ℚ) : Int :=
  let duration : ℚ := (totalFrames : ℚ) / (sampleRate : ℚ)
  let clamped : ℚ := max 0 (min startPosition duration)
  min ⌊clamped * (sampleRate : ℚ)⌋ (totalFrames : Int)

/-- `AudioPlayer::pause` (audio_player.cpp:81-90); `Pa_StopStream` leaves the stream pointer
as it is. -/
def AudioPlayer.pause (p : AudioPlayer) : AudioPlayer :=
  if !p.playing then
    p
  else
    let p := { p with paused := true }
    if p.stream then p else p

/-- `AudioPlayer::getCurrentPosition` (audio_player.cpp:112-117): the cursor is converted to
`double` (rounded above `2 ^ 53`) and divided by the sample rate; with a cursor below
`2 ^ 64` and a rate of at least 1 the quotient is finite. -/
def AudioPlayer.getCurrentPosition (p : AudioPlayer) : ℚ :=
  if p.currentSampleRate ≤ 0 then 0
  else roundDouble (roundDouble (p.currentFrame : ℚ) / (p.currentSampleRate : ℚ))

/-- The stream driving the playback callback: the callback is called on the output block
`output`, with `framesPerBuffer` frames requested, again and again until it returns
`paComplete`. The result is the list of the blocks of the callbacks that returned
`paContinue`, the block left by the completing callback, and the state after; the first
argument bounds the number of calls (`none` when it is used up). -/
def AudioPlayer.playToCompletion (p : AudioPlayer) (output : List Fp) (framesPerBuffer : Nat) :
    Nat → Option (List (List Fp) × List Fp × AudioPlayer)
  | 0 => none
  | fuel + 1 =>
    match p.playCallback output framesPerBuffer with
    | none => none
    | some (.paComplete, out, q) => some ([], out, q)
    | some (.paContinue, out, q) =>
      match q.playToCompletion output framesPerBuffer fuel with
      | none => none
      | some (blocks, last, q') => some (out :: blocks, last, q')

/-- The fields of `AudioRecorder` (audio_recorder.h:32-38): `stream` is true when the pointer
is not null, `callback` when a completion callback is registered; `delivered` lists the
arguments of the invocations of the completion callback so far. -/
structure AudioRecorder where
  stream : Bool
  recording : Bool
  recordedData : List Fp
  currentSampleRate : Int
  currentChannels : Int
  callback : Bool
  delivered : List (List Fp × Int × Int)
  deriving DecidableEq

/-- `AudioRecorder::AudioRecorder` (audio_recorder.cpp:5-11): the state after construction,
with no callback registered. -/
def AudioRecorder.init : AudioRecorder where
  stream := false
  recording := false
  recordedData := []
  currentSampleRate := 44100
  currentChannels := 1
  callback := false
  delivered := []

/-- `AudioRecorder::setCallback` (audio_recorder.h:20-22); `callback` tells whether the
function object given is callable. -/
def AudioRecorder.setCallback (r : AudioRecorder) (callback : Bool) : AudioRecorder :=
  { r with callback := callback }

/-- `AudioRecorder::stopRecording` (audio_recorder.cpp:69-87). -/
def AudioRecorder.stopRecording (r : AudioRecorder) : AudioRecorder :=
  if !r.recording then
    r
  else
    let r := { r with recording := false }
    let r := if r.stream then { r with stream := false } else r
    if !r.recordedData.isEmpty && r.callback then
      { r with delivered :=
          r.delivered ++ [(r.recordedData, r.currentSampleRate, r.currentChannels)] }
    else r

/-- `AudioRecorder::startRecording` (audio_recorder.cpp:18-67): the return value and the state
after; `pa.deviceAvailable` tells here whether a default input device exists. -/
def AudioRecorder.startRecording (r : AudioRecorder) (pa : PortAudio)
    (sampleRate channels : Int) : Bool × AudioRecorder :=
  if r.recording then
    (false, r)
  else
    let r := r.stopRecording
    let r := { r with currentSampleRate := sampleRate }
    let r := { r with currentChannels := channels }
    let r := { r with recordedData := [] }
    let r := { r with recording := true }
    if !pa.deviceAvailable then
      (false, { r with recording := false })
    else if !pa.openOk then
      (false, { r with recording := false })
    else
      let r := { r with stream := true }
      if !pa.startOk then
        (false, { r with stream := false, recording := false })
      else
        (true, r)

/-- `AudioRecorder::recordCallback` (audio_recorder.cpp:89-115) on the input block `input`
with `framesPerBuffer` frames delivered; undefined (`none`) when the block is shorter than
`framesPerBuffer * currentChannels`. -/
def AudioRecorder.recordCallback (r : AudioRecorder) (input : List Fp)
    (framesPerBuffer : Nat) : Option (PaStreamCallbackResult × AudioRecorder) :=
  if !r.recording then
    some (.paComplete, r)
  else
    let numSamples := (framesPerBuffer * sizeOfInt r.currentChannels) % (SIZE_MAX + 1)
    if numSamples ≤ input.length then
      some (.paContinue, { r with recordedData := r.recordedData ++ input.take numSamples })
    else none

/-- The source range of the copy in `playCallback`: `startSample` and `samplesToWrite` as the
callback computes them for a request of `framesPerBuffer` frames
(audio_player.cpp:135-150). -/
def AudioPlayer.copyRange (p : AudioPlayer) (framesPerBuffer : Nat) : Option (Nat × Nat) := do
  let framesToWrite := framesPerBuffer
  let currentFrame := p.currentFrame
  let totalFrames ← sizeDivInt p.audioData.length p.currentChannels
  let framesAvailable := (totalFrames + (SIZE_MAX + 1) - currentFrame) % (SIZE_MAX + 1)
  let framesToWrite := min framesToWrite framesAvailable
  let samplesToWrite := (framesToWrite * sizeOfInt p.currentChannels) % (SIZE_MAX + 1)
  let startSample := (currentFrame * sizeOfInt p.currentChannels) % (SIZE_MAX + 1)
  some (startSample, samplesToWrite)

/-! ## Theorems -/

theorem truncate_nonneg {x : ℚ} (h : -1 < x) : 0 ≤ truncate x := by
  unfold truncate
  by_cases hx : 0 ≤ x
  · simp only [hx, if_true]
    exact Int.floor_nonneg.mpr hx
  · simp only [hx, if_false]
    have h1 : (-1 : Int) < ⌈x⌉ := Int.lt_ceil.mpr (by push_cast; exact h)
    omega

theorem truncate_le_max {x : ℚ} (h : x < 2 ^ 64) : truncate x ≤ (SIZE_MAX : Int) := by
  unfold truncate
  by_cases hx : 0 ≤ x
  · simp only [hx, if_true]
    have h1 : ⌊x⌋ < (2 ^ 64 : Int) := Int.floor_lt.mpr (by push_cast; exact h)
    simp only [SIZE_MAX]
    omega
  · simp only [hx, if_false]
    have h1 : ⌈x⌉ ≤ 0 := Int.ceil_le.mpr (by push_cast; exact le_of_lt (not_le.mp hx))
    simp only [SIZE_MAX]
    omega


theorem truncate_of_nonneg {x : ℚ} (h : 0 ≤ x) : truncate x = ⌊x⌋ := by
  simp [truncate, h]

theorem truncate_of_neg {x : ℚ} (h : x < 0) : truncate x = ⌈x⌉ := by
  simp [truncate, not_le.mpr h]

theorem truncate_eq_max_floor {x : ℚ} (h : -1 < x) : truncate x = max 0 ⌊x⌋ := by
  unfold truncate
  by_cases hx : 0 ≤ x
  · simp only [hx, if_true]
    have := Int.floor_nonneg.mpr hx
    omega
  · simp only [hx, if_false]
    have hx' : x < 0 := not_le.mp hx
    have h1 : (-1 : Int) < ⌈x⌉ := Int.lt_ceil.mpr (by push_cast; exact h)
    have h2 : ⌈x⌉ ≤ 0 := Int.ceil_le.mpr (by push_cast; exact le_of_lt hx')
    have h3 : ⌊x⌋ < 0 := Int.floor_lt.mpr (by push_cast; exact hx')
    omega


theorem log2Aux_spec (fuel : Nat) : ∀ n : Nat, n ≤ fuel → 0 < n →
    2 ^ log2Aux fuel n ≤ n ∧ n < 2 ^ (log2Aux fuel n + 1) := by
  induction fuel with
  | zero => intro n h1 h2; omega
  | succ fuel ih =>
    intro n h1 h2
    unfold log2Aux
    by_cases hn : n < 2
    · simp only [hn, if_true]
      constructor <;> norm_num <;> omega
    · simp only [hn, if_false]
      have h3 := ih (n / 2) (by omega) (by omega)
      obtain ⟨h4, h5⟩ := h3
      rw [pow_succ, pow_succ]
      constructor <;> omega

theorem binade_spec {x : ℚ} (hx : x ≠ 0) :
    (2 : ℚ) ^ binade x ≤ |x| ∧ |x| < (2 : ℚ) ^ (binade x + 1) := by
  have hnum : x.num ≠ 0 := Rat.num_ne_zero.mpr hx
  have hn0 : 0 < x.num.natAbs := Int.natAbs_pos.mpr hnum
  have hd0 : 0 < x.den := x.den_pos
  obtain ⟨ha1, ha2⟩ := log2Aux_spec _ _ (le_refl x.num.natAbs) hn0
  obtain ⟨hb1, hb2⟩ := log2Aux_spec _ _ (le_refl x.den) hd0
  generalize ha : log2Aux x.num.natAbs x.num.natAbs = a at ha1 ha2
  generalize hb : log2Aux x.den x.den = b at hb1 hb2
  have habs : |x| = (x.num.natAbs : ℚ) / (x.den : ℚ) := by
    conv_lhs => rw [← Rat.num_div_den x]
    rw [abs_div, Nat.abs_cast, Nat.cast_natAbs, Int.cast_abs]
  have hdq : (0 : ℚ) < (x.den : ℚ) := by exact_mod_cast hd0
  have ha1q : (2 : ℚ) ^ a ≤ (x.num.natAbs : ℚ) := by exact_mod_cast ha1
  have ha2q : (x.num.natAbs : ℚ) < (2 : ℚ) ^ (a + 1) := by exact_mod_cast ha2
  have hb1q : (2 : ℚ) ^ b ≤ (x.den : ℚ) := by exact_mod_cast hb1
  have hb2q : (x.den : ℚ) < (2 : ℚ) ^ (b + 1) := by exact_mod_cast hb2
  have h2 : (0 : ℚ) < 2 := by norm_num
  have hlow : (2 : ℚ) ^ ((a : Int) - (b : Int) - 1) ≤ |x| := by
    rw [habs, le_div_iff₀ hdq]
    have : (2 : ℚ) ^ ((a : Int) - (b : Int) - 1) * (2 : ℚ) ^ (b + 1) = (2 : ℚ) ^ a := by
      rw [← zpow_natCast (2 : ℚ) (b + 1), ← zpow_add₀ (by norm_num : (2 : ℚ) ≠ 0),
        ← zpow_natCast (2 : ℚ) a]
      congr 1
      push_cast
      ring
    calc (2 : ℚ) ^ ((a : Int) - (b : Int) - 1) * (x.den : ℚ)
        ≤ (2 : ℚ) ^ ((a : Int) - (b : Int) - 1) * (2 : ℚ) ^ (b + 1) :=
          mul_le_mul_of_nonneg_left (le_of_lt hb2q) (le_of_lt (zpow_pos h2 _))
      _ = (2 : ℚ) ^ a := this
      _ ≤ _ := ha1q
  have hhigh : |x| < (2 : ℚ) ^ ((a : Int) - (b : Int) + 1) := by
    rw [habs, div_lt_iff₀ hdq]
    have : (2 : ℚ) ^ ((a : Int) - (b : Int) + 1) * (2 : ℚ) ^ b = (2 : ℚ) ^ (a + 1) := by
      rw [← zpow_natCast (2 : ℚ) b, ← zpow_add₀ (by norm_num : (2 : ℚ) ≠ 0),
        ← zpow_natCast (2 : ℚ) (a + 1)]
      congr 1
      push_cast
      ring
    calc (x.num.natAbs : ℚ) < (2 : ℚ) ^ (a + 1) := ha2q
      _ = (2 : ℚ) ^ ((a : Int) - (b : Int) + 1) * (2 : ℚ) ^ b := this.symm
      _ ≤ (2 : ℚ) ^ ((a : Int) - (b : Int) + 1) * (x.den : ℚ) :=
          mul_le_mul_of_nonneg_left hb1q (le_of_lt (zpow_pos h2 _))
  unfold binade
  simp only [ha, hb]
  by_cases hk : (2 : ℚ) ^ ((a : Int) - (b : Int)) ≤ |x|
  · rw [if_pos hk]
    exact ⟨hk, hhigh⟩
  · rw [if_neg hk]
    refine ⟨hlow, ?_⟩
    rw [sub_add_cancel]
    exact not_le.mp hk

theorem roundHalfEven_cases (y : ℚ) :
    (roundHalfEven y = ⌊y⌋ ∧ y - ⌊y⌋ ≤ 1/2) ∨ (roundHalfEven y = ⌊y⌋ + 1 ∧ 1/2 ≤ y - ⌊y⌋) := by
  unfold roundHalfEven
  simp only
  by_cases h1 : y - ⌊y⌋ < 1/2
  · left; rw [if_pos h1]; exact ⟨rfl, le_of_lt h1⟩
  · rw [if_neg h1]
    by_cases h2 : 1/2 < y - ⌊y⌋
    · right; rw [if_pos h2]; exact ⟨rfl, le_of_lt h2⟩
    · rw [if_neg h2]
      have h3 : y - ⌊y⌋ = 1/2 := le_antisymm (not_lt.mp h2) (not_lt.mp h1)
      by_cases h4 : ⌊y⌋ % 2 = 0
      · left; rw [if_pos h4]; exact ⟨rfl, le_of_eq h3⟩
      · right; rw [if_neg h4]; exact ⟨rfl, le_of_eq h3.symm⟩

theorem roundHalfEven_le (y : ℚ) : (roundHalfEven y : ℚ) ≤ y + 1/2 := by
  have h1 := Int.floor_le y
  rcases roundHalfEven_cases y with ⟨h, _⟩ | ⟨h, h2⟩
  · rw [h]; linarith
  · rw [h]; push_cast; linarith

theorem roundHalfEven_ge (y : ℚ) : y - 1/2 ≤ (roundHalfEven y : ℚ) := by
  have h1 := Int.lt_floor_add_one y
  rcases roundHalfEven_cases y with ⟨h, h2⟩ | ⟨h, _⟩
  · rw [h]; linarith
  · rw [h]; push_cast; linarith

theorem roundHalfEven_intCast (n : Int) : roundHalfEven (n : ℚ) = n := by
  unfold roundHalfEven
  simp

theorem roundHalfEven_mono {x y : ℚ} (h : x ≤ y) : roundHalfEven x ≤ roundHalfEven y := by
  have hf : ⌊x⌋ ≤ ⌊y⌋ := Int.floor_mono h
  by_cases hlt : ⌊x⌋ < ⌊y⌋
  · have h1 : roundHalfEven x ≤ ⌊x⌋ + 1 := by
      rcases roundHalfEven_cases x with ⟨h, _⟩ | ⟨h, _⟩ <;> omega
    have h2 : ⌊y⌋ ≤ roundHalfEven y := by
      rcases roundHalfEven_cases y with ⟨h, _⟩ | ⟨h, _⟩ <;> omega
    omega
  · have heq : ⌊x⌋ = ⌊y⌋ := le_antisymm hf (not_lt.mp hlt)
    unfold roundHalfEven
    simp only [heq]
    have hfr : x - ⌊y⌋ ≤ y - ⌊y⌋ := by linarith
    by_cases h1 : y - ⌊y⌋ < 1/2
    · have h1x : x - ⌊y⌋ < 1/2 := lt_of_le_of_lt hfr h1
      rw [if_pos h1, if_pos h1x]
    · rw [if_neg h1]
      by_cases h2 : 1/2 < y - ⌊y⌋
      · rw [if_pos h2]
        split_ifs <;> omega
      · rw [if_neg h2]
        have h3 : y - ⌊y⌋ = 1/2 := le_antisymm (not_lt.mp h2) (not_lt.mp h1)
        by_cases h1x : x - ⌊y⌋ < 1/2
        · rw [if_pos h1x]
          split_ifs <;> omega
        · rw [if_neg h1x]
          have h2x : ¬ (1/2 < x - ⌊y⌋) := by
            intro h'
            linarith
          rw [if_neg h2x]

theorem roundHalfEven_neg (y : ℚ) : roundHalfEven (-y) = -roundHalfEven y := by
  by_cases hint : (⌊y⌋ : ℚ) = y
  · rw [← hint, ← Int.cast_neg, roundHalfEven_intCast, roundHalfEven_intCast]
  · have hlt : (⌊y⌋ : ℚ) < y := lt_of_le_of_ne (Int.floor_le y) hint
    have hfl : ⌊-y⌋ = -⌊y⌋ - 1 := by
      rw [Int.floor_eq_iff]
      have := Int.lt_floor_add_one y
      push_cast
      constructor <;> linarith
    unfold roundHalfEven
    simp only [hfl]
    push_cast
    by_cases h1 : y - ⌊y⌋ < 1/2
    · have a1 : ¬ (-y - (-(⌊y⌋ : ℚ) - 1) < 1/2) := by intro h; linarith
      have a2 : 1/2 < -y - (-(⌊y⌋ : ℚ) - 1) := by linarith
      rw [if_pos h1, if_neg a1, if_pos a2]
      ring
    · by_cases h2 : 1/2 < y - ⌊y⌋
      · have a1 : -y - (-(⌊y⌋ : ℚ) - 1) < 1/2 := by linarith
        rw [if_neg h1, if_pos h2, if_pos a1]
        ring
      · have a1 : ¬ (-y - (-(⌊y⌋ : ℚ) - 1) < 1/2) := by intro h; linarith
        have a2 : ¬ (1/2 < -y - (-(⌊y⌋ : ℚ) - 1)) := by intro h; linarith
        rw [if_neg h1, if_neg h2, if_neg a1, if_neg a2]
        split_ifs <;> omega

theorem ulp_pos (x : ℚ) : 0 < ulp x := zpow_pos (by norm_num) _

theorem binade_neg (x : ℚ) : binade (-x) = binade x := by
  unfold binade
  simp only [Rat.neg_num, Rat.neg_den, Int.natAbs_neg, abs_neg]

theorem ulp_neg (x : ℚ) : ulp (-x) = ulp x := by
  unfold ulp
  rw [binade_neg]

theorem roundDouble_neg (x : ℚ) : roundDouble (-x) = -roundDouble x := by
  unfold roundDouble
  rw [ulp_neg, neg_div, roundHalfEven_neg]
  push_cast
  ring

theorem roundDouble_zero : roundDouble 0 = 0 := by
  unfold roundDouble
  rw [zero_div]
  have : roundHalfEven 0 = 0 := by
    have := roundHalfEven_intCast 0
    simpa using this
  rw [this]
  simp

theorem roundDouble_error (x : ℚ) : |roundDouble x - x| ≤ ulp x / 2 := by
  have hu := ulp_pos x
  have h1 := roundHalfEven_le (x / ulp x)
  have h2 := roundHalfEven_ge (x / ulp x)
  have hx : x / ulp x * ulp x = x := div_mul_cancel₀ x (ne_of_gt hu)
  unfold roundDouble
  rw [abs_le]
  constructor
  · have : (x / ulp x - 1/2) * ulp x ≤ (roundHalfEven (x / ulp x) : ℚ) * ulp x :=
      mul_le_mul_of_nonneg_right h2 (le_of_lt hu)
    rw [sub_mul, hx] at this
    linarith
  · have : (roundHalfEven (x / ulp x) : ℚ) * ulp x ≤ (x / ulp x + 1/2) * ulp x :=
      mul_le_mul_of_nonneg_right h1 (le_of_lt hu)
    rw [add_mul, hx] at this
    linarith

theorem ulp_le {x : ℚ} (hx : x ≠ 0) :
    ulp x ≤ |x| * (2 : ℚ) ^ (-52 : Int) + (2 : ℚ) ^ (-1074 : Int) := by
  unfold ulp
  by_cases hb : -1022 ≤ binade x
  · rw [max_eq_left hb]
    have h1 := (binade_spec hx).1
    have h2 : (2 : ℚ) ^ (binade x - 52) = (2 : ℚ) ^ binade x * (2 : ℚ) ^ (-52 : Int) := by
      rw [← zpow_add₀ (by norm_num : (2 : ℚ) ≠ 0)]
      rfl
    rw [h2]
    have h3 : (2 : ℚ) ^ binade x * (2 : ℚ) ^ (-52 : Int) ≤ |x| * (2 : ℚ) ^ (-52 : Int) :=
      mul_le_mul_of_nonneg_right h1 (le_of_lt (zpow_pos (by norm_num) _))
    have h4 : (0 : ℚ) < (2 : ℚ) ^ (-1074 : Int) := zpow_pos (by norm_num) _
    linarith
  · rw [max_eq_right (le_of_lt (not_le.mp hb))]
    have h3 : 0 ≤ |x| * (2 : ℚ) ^ (-52 : Int) :=
      mul_nonneg (abs_nonneg x) (le_of_lt (zpow_pos (by norm_num) _))
    have : ((-1022 : Int) - 52) = -1074 := by norm_num
    rw [this]
    linarith

theorem roundDouble_rel_error (x : ℚ) :
    |roundDouble x - x| ≤ |x| * (2 : ℚ) ^ (-53 : Int) + (2 : ℚ) ^ (-1075 : Int) := by
  by_cases hx : x = 0
  · subst hx
    rw [roundDouble_zero, sub_zero, abs_zero, zero_mul, zero_add]
    exact le_of_lt (zpow_pos (by norm_num) _)
  · have h1 := roundDouble_error x
    have h2 := ulp_le hx
    have h3 : (2 : ℚ) ^ (-52 : Int) = 2 * (2 : ℚ) ^ (-53 : Int) := by
      rw [show (-52 : Int) = 1 + (-53) from rfl, zpow_add₀ (by norm_num : (2 : ℚ) ≠ 0), zpow_one]
    have h4 : (2 : ℚ) ^ (-1074 : Int) = 2 * (2 : ℚ) ^ (-1075 : Int) := by
      rw [show (-1074 : Int) = 1 + (-1075) from rfl, zpow_add₀ (by norm_num : (2 : ℚ) ≠ 0),
        zpow_one]
    rw [h3, h4] at h2
    linarith

theorem roundDouble_of_repr {x : ℚ} (m k : Int) (hx : x = (m : ℚ) * (2 : ℚ) ^ k)
    (hm : |m| < 2 ^ 53) (hk : -1074 ≤ k) : roundDouble x = x := by
  by_cases hx0 : x = 0
  · rw [hx0, roundDouble_zero]
  · have h2 : (2 : ℚ) ≠ 0 := by norm_num
    have hb : binade x < k + 53 := by
      have h1 := (binade_spec hx0).1
      have h3 : |x| < (2 : ℚ) ^ (k + 53) := by
        rw [hx, abs_mul, abs_of_pos (zpow_pos (by norm_num : (0 : ℚ) < 2) k), zpow_add₀ h2,
          mul_comm ((2 : ℚ) ^ k)]
        apply mul_lt_mul_of_pos_right _ (zpow_pos (by norm_num) k)
        have : ((|m| : Int) : ℚ) < ((2 ^ 53 : Int) : ℚ) := by exact_mod_cast hm
        rw [Int.cast_abs] at this
        rw [show ((53 : Int)) = ((53 : Nat) : Int) from rfl, zpow_natCast]
        exact_mod_cast this
      have h4 := lt_of_le_of_lt h1 h3
      exact (zpow_lt_zpow_iff_right₀ (by norm_num : (1 : ℚ) < 2)).mp h4
    have he : max (binade x) (-1022) - 52 ≤ k := by
      rcases max_cases (binade x) (-1022) with ⟨h, _⟩ | ⟨h, _⟩ <;> rw [h] <;> omega
    obtain ⟨n, hn⟩ : ∃ n : Nat, k - (max (binade x) (-1022) - 52) = (n : Int) :=
      Int.eq_ofNat_of_zero_le (by omega)
    have hdiv : x / ulp x = ((m * 2 ^ n : Int) : ℚ) := by
      unfold ulp
      generalize max (binade x) (-1022) - 52 = e at hn
      have hk2 : k = e + (n : Int) := by omega
      rw [div_eq_iff (ne_of_gt (zpow_pos (by norm_num : (0 : ℚ) < 2) e)), hx, hk2,
        zpow_add₀ h2, zpow_natCast]
      push_cast
      ring
    unfold roundDouble
    rw [hdiv, roundHalfEven_intCast, ← hdiv, div_mul_cancel₀ x (ne_of_gt (ulp_pos x))]

theorem roundDouble_intCast (n : Int) (h : |n| < 2 ^ 53) : roundDouble (n : ℚ) = (n : ℚ) :=
  roundDouble_of_repr n 0 (by simp) h (by norm_num)

theorem roundDouble_two_zpow (k : Int) (hk : -1074 ≤ k) :
    roundDouble ((2 : ℚ) ^ k) = (2 : ℚ) ^ k :=
  roundDouble_of_repr 1 k (by simp) (by norm_num) hk

theorem roundDouble_nonneg {x : ℚ} (h : 0 ≤ x) : 0 ≤ roundDouble x := by
  unfold roundDouble
  apply mul_nonneg _ (le_of_lt (ulp_pos x))
  have h1 : (0 : ℚ) ≤ x / ulp x := div_nonneg h (le_of_lt (ulp_pos x))
  have h2 := roundHalfEven_mono h1
  have h3 : roundHalfEven 0 = 0 := by simpa using roundHalfEven_intCast 0
  rw [h3] at h2
  exact_mod_cast h2

theorem binade_mono {x y : ℚ} (hx : x ≠ 0) (h : |x| ≤ |y|) : binade x ≤ binade y := by
  have hy : y ≠ 0 := by
    intro h0
    rw [h0, abs_zero] at h
    exact hx (abs_eq_zero.mp (le_antisymm h (abs_nonneg x)))
  have h1 := (binade_spec hx).1
  have h2 := (binade_spec hy).2
  have h3 := lt_of_le_of_lt (le_trans h1 h) h2
  have h4 := (zpow_lt_zpow_iff_right₀ (by norm_num : (1 : ℚ) < 2)).mp h3
  omega

theorem roundDouble_le_pow {x : ℚ} (hx : 0 < x) :
    roundDouble x ≤ (2 : ℚ) ^ (max (binade x) (-1022) + 1) := by
  have h2 : (2 : ℚ) ≠ 0 := by norm_num
  have hu := ulp_pos x
  have h1 : x < (2 : ℚ) ^ (max (binade x) (-1022) + 1) := by
    have h3 := (binade_spec (ne_of_gt hx)).2
    rw [abs_of_pos hx] at h3
    refine lt_of_lt_of_le h3 ?_
    exact (zpow_le_zpow_iff_right₀ (by norm_num : (1 : ℚ) < 2)).mpr
      (by have := le_max_left (binade x) (-1022); omega)
  have c53 : (((2 : Int) ^ 53 : Int) : ℚ) = (2 : ℚ) ^ (53 : Int) := by norm_num
  have hsum : (2 : ℚ) ^ (53 : Int) * ulp x = (2 : ℚ) ^ (max (binade x) (-1022) + 1) := by
    unfold ulp
    rw [← zpow_add₀ h2]
    congr 1
    ring
  have h4 : x / ulp x ≤ (((2 : Int) ^ 53 : Int) : ℚ) := by
    rw [div_le_iff₀ hu, c53, hsum]
    exact le_of_lt h1
  have h5 := roundHalfEven_mono h4
  rw [roundHalfEven_intCast] at h5
  unfold roundDouble
  have h6 : (roundHalfEven (x / ulp x) : ℚ) ≤ (((2 : Int) ^ 53 : Int) : ℚ) := by exact_mod_cast h5
  have h7 := mul_le_mul_of_nonneg_right h6 (le_of_lt hu)
  refine le_trans h7 (le_of_eq ?_)
  rw [c53, hsum]

theorem pow_le_roundDouble {x : ℚ} (hx : 0 < x) (hb : -1022 ≤ binade x) :
    (2 : ℚ) ^ binade x ≤ roundDouble x := by
  have h2 : (2 : ℚ) ≠ 0 := by norm_num
  have hu := ulp_pos x
  have hue : ulp x = (2 : ℚ) ^ (binade x - 52) := by
    unfold ulp
    rw [max_eq_left hb]
  have h1 : (2 : ℚ) ^ binade x ≤ x := by
    have h3 := (binade_spec (ne_of_gt hx)).1
    rwa [abs_of_pos hx] at h3
  have c52 : (((2 : Int) ^ 52 : Int) : ℚ) = (2 : ℚ) ^ (52 : Int) := by norm_num
  have hsum : (2 : ℚ) ^ (52 : Int) * ulp x = (2 : ℚ) ^ binade x := by
    rw [hue, ← zpow_add₀ h2]
    congr 1
    ring
  have h4 : (((2 : Int) ^ 52 : Int) : ℚ) ≤ x / ulp x := by
    rw [le_div_iff₀ hu, c52, hsum]
    exact h1
  have h5 := roundHalfEven_mono h4
  rw [roundHalfEven_intCast] at h5
  unfold roundDouble
  have h6 : (((2 : Int) ^ 52 : Int) : ℚ) ≤ (roundHalfEven (x / ulp x) : ℚ) := by exact_mod_cast h5
  have h7 := mul_le_mul_of_nonneg_right h6 (le_of_lt hu)
  refine le_trans (le_of_eq ?_) h7
  rw [c52, hsum]

theorem roundDouble_mono_pos {x y : ℚ} (hx : 0 < x) (h : x ≤ y) :
    roundDouble x ≤ roundDouble y := by
  have hy : 0 < y := lt_of_lt_of_le hx h
  have hb : binade x ≤ binade y :=
    binade_mono (ne_of_gt hx) (by rw [abs_of_pos hx, abs_of_pos hy]; exact h)
  by_cases he : max (binade x) (-1022) = max (binade y) (-1022)
  · have hu : ulp x = ulp y := by unfold ulp; rw [he]
    unfold roundDouble
    rw [hu]
    apply mul_le_mul_of_nonneg_right _ (le_of_lt (ulp_pos y))
    have := roundHalfEven_mono (div_le_div_of_nonneg_right h (le_of_lt (ulp_pos y)))
    exact_mod_cast this
  · have hlt : max (binade x) (-1022) < binade y := by
      rcases max_cases (binade x) (-1022) with ⟨h1, _⟩ | ⟨h1, _⟩ <;>
        rcases max_cases (binade y) (-1022) with ⟨h2, _⟩ | ⟨h2, _⟩ <;>
        rw [h1, h2] at he <;> rw [h1] <;> omega
    have hby : -1022 ≤ binade y := by
      have := le_max_right (binade x) (-1022); omega
    refine le_trans (roundDouble_le_pow hx) (le_trans ?_ (pow_le_roundDouble hy hby))
    exact (zpow_le_zpow_iff_right₀ (by norm_num : (1 : ℚ) < 2)).mpr (by omega)

theorem roundDouble_mono {x y : ℚ} (h : x ≤ y) : roundDouble x ≤ roundDouble y := by
  rcases lt_trichotomy 0 x with hx | hx | hx
  · exact roundDouble_mono_pos hx h
  · rw [← hx, roundDouble_zero]
    exact roundDouble_nonneg (by rw [hx]; exact h)
  · rcases lt_or_le y 0 with hy | hy
    · have h1 : roundDouble (-y) ≤ roundDouble (-x) :=
        roundDouble_mono_pos (by linarith) (by linarith)
      rw [roundDouble_neg, roundDouble_neg] at h1
      linarith
    · have h1 : 0 ≤ roundDouble (-x) := roundDouble_nonneg (by linarith)
      rw [roundDouble_neg] at h1
      have h2 := roundDouble_nonneg hy
      linarith


theorem roundDouble_two_pow (n : Nat) : roundDouble ((2 : ℚ) ^ n) = (2 : ℚ) ^ n := by
  have h := roundDouble_two_zpow (n : Int) (by omega)
  rwa [zpow_natCast] at h

theorem roundDouble_one : roundDouble 1 = 1 := by
  have h := roundDouble_two_pow 0
  simpa using h

theorem toSizeT_fin_of_range {x : ℚ} (hlo : -1 < x) (hhi : x < 2 ^ 64) :
    toSizeT (.fin x) = some (truncate x).toNat := by
  have h1 := truncate_nonneg hlo
  have h2 := truncate_le_max hhi
  have h3 : max (truncate x) (-(2 ^ 63)) % 2 ^ 64 = truncate x := by
    simp only [SIZE_MAX] at h2
    omega
  simp only [toSizeT, h2, if_true, h3]

theorem toSizeT_fin_of_le_neg_one {x : ℚ} (h : x ≤ -1) :
    ∃ k, toSizeT (.fin x) = some k ∧ 2 ^ 63 ≤ k := by
  have hneg : ¬ (0 : ℚ) ≤ x := by intro h0; linarith
  have hz : truncate x ≤ -1 := by
    simp only [truncate, hneg, if_false]
    exact Int.ceil_le.mpr (by push_cast; exact h)
  have h2 : truncate x ≤ (SIZE_MAX : Int) := by
    simp only [SIZE_MAX]
    omega
  refine ⟨((max (truncate x) (-(2 ^ 63))) % (2 ^ 64)).toNat, ?_, ?_⟩
  · simp only [toSizeT, h2, if_true]
  · omega

theorem toSizeT_fin_none {x : ℚ} (h : 2 ^ 64 ≤ x) : toSizeT (.fin x) = none := by
  have hpos : (0 : ℚ) ≤ x := le_trans (by norm_num) h
  have hz : (2 : Int) ^ 64 ≤ truncate x := by
    simp only [truncate, hpos, if_true]
    exact Int.le_floor.mpr (by push_cast; exact h)
  have h2 : ¬ truncate x ≤ (SIZE_MAX : Int) := by
    simp only [SIZE_MAX]
    omega
  simp only [toSizeT, h2, if_false]

theorem toSizeT_fin_small {x : ℚ} (h : x ≤ -(2 ^ 1024)) : toSizeT (.fin x) = some (2 ^ 63) := by
  have hneg : ¬ (0 : ℚ) ≤ x := by
    intro h0
    have : (0 : ℚ) < 2 ^ 1024 := by positivity
    linarith
  have hz : truncate x ≤ -(2 ^ 63) := by
    simp only [truncate, hneg, if_false]
    refine Int.ceil_le.mpr (le_trans h ?_)
    push_cast
    norm_num
  have h2 : truncate x ≤ (SIZE_MAX : Int) := by
    simp only [SIZE_MAX]
    omega
  have h3 : (max (truncate x) (-(2 ^ 63)) % 2 ^ 64).toNat = 2 ^ 63 := by omega
  simp only [toSizeT, h2, if_true, h3]

theorem toSizeT_toDouble (x : ℚ) :
    toSizeT (Fp.fin x).toDouble = toSizeT (.fin (roundDouble x)) := by
  unfold Fp.toDouble
  simp only
  by_cases h1 : (2 : ℚ) ^ 1024 ≤ roundDouble x
  · rw [if_pos h1, toSizeT_fin_none (le_trans (by norm_num) h1)]
    rfl
  · rw [if_neg h1]
    by_cases h2 : roundDouble x ≤ -(2 ^ 1024)
    · rw [if_pos h2, toSizeT_fin_small h2]
      rfl
    · rw [if_neg h2]

theorem toSizeT_sampleProduct (t : ℚ) (sampleRate : Int) {channels : Int} (hch : 0 < channels) :
    toSizeT (doubleMul (doubleMul (.fin t) (.fin sampleRate)) (.fin channels))
      = toSizeT (.fin (sampleProduct t sampleRate channels)) := by
  have hchq : (1 : ℚ) ≤ (channels : ℚ) := by exact_mod_cast hch
  have hch0 : (0 : ℚ) < (channels : ℚ) := by linarith
  have hbig : (0 : ℚ) < 2 ^ 1024 := by positivity
  unfold sampleProduct
  have hinner : doubleMul (.fin t) (.fin (sampleRate : ℚ)) = (Fp.fin (t * sampleRate)).toDouble :=
    rfl
  rw [hinner]
  unfold Fp.toDouble
  simp only
  by_cases h1 : (2 : ℚ) ^ 1024 ≤ roundDouble (t * sampleRate)
  · rw [if_pos h1]
    have h3 : (2 : ℚ) ^ 1024 ≤ roundDouble (t * sampleRate) * channels := by nlinarith
    have h4 := roundDouble_mono h3
    rw [roundDouble_two_pow] at h4
    rw [toSizeT_fin_none (le_trans (by norm_num) h4)]
    simp [doubleMul, exactMul, hch0, ne_of_gt hch0, Fp.toDouble, toSizeT]
  · rw [if_neg h1]
    by_cases h2 : roundDouble (t * sampleRate) ≤ -(2 ^ 1024)
    · rw [if_pos h2]
      have h3 : roundDouble (t * sampleRate) * channels ≤ -(2 ^ 1024) := by nlinarith
      have h4 := roundDouble_mono h3
      rw [roundDouble_neg, roundDouble_two_pow] at h4
      rw [toSizeT_fin_small h4]
      simp [doubleMul, exactMul, hch0, ne_of_gt hch0, Fp.toDouble, toSizeT]
    · rw [if_neg h2]
      exact toSizeT_toDouble _

theorem toInt_fin_of_range {x : ℚ} (hlo : (INT_MIN : ℚ) - 1 < x) (hhi : x < (INT_MAX : ℚ) + 1) :
    toInt (.fin x) = truncate x := by
  have h1 : INT_MIN ≤ truncate x := by
    by_cases hx : 0 ≤ x
    · rw [truncate_of_nonneg hx]
      exact le_trans (by decide) (Int.floor_nonneg.mpr hx)
    · rw [truncate_of_neg (not_le.mp hx)]
      have : INT_MIN - 1 < ⌈x⌉ := Int.lt_ceil.mpr (by push_cast; exact hlo)
      omega
  have h2 : truncate x ≤ INT_MAX := by
    by_cases hx : 0 ≤ x
    · rw [truncate_of_nonneg hx]
      have : ⌊x⌋ < INT_MAX + 1 := Int.floor_lt.mpr (by push_cast; exact hhi)
      omega
    · rw [truncate_of_neg (not_le.mp hx)]
      have h3 : ⌈x⌉ ≤ 0 := Int.ceil_le.mpr (by push_cast; exact le_of_lt (not_le.mp hx))
      exact le_trans h3 (by decide)
  simp [toInt, h1, h2]

theorem toInt_fin_of_large {x : ℚ} (h : 2 ^ 1024 ≤ |x|) : toInt (.fin x) = INT_MIN := by
  unfold toInt
  simp only
  split_ifs with hr
  · exfalso
    obtain ⟨hr1, hr2⟩ := hr
    simp only [INT_MIN, INT_MAX] at hr1 hr2
    by_cases hx : 0 ≤ x
    · rw [truncate_of_nonneg hx] at hr2
      rw [abs_of_nonneg hx] at h
      have : (2 : Int) ^ 64 ≤ ⌊x⌋ := Int.le_floor.mpr (by push_cast; exact le_trans (by norm_num) h)
      omega
    · rw [truncate_of_neg (not_le.mp hx)] at hr1
      rw [abs_of_neg (not_le.mp hx)] at h
      have : ⌈x⌉ ≤ -(2 : Int) ^ 64 :=
        Int.ceil_le.mpr (by push_cast; have : (2 : ℚ) ^ 64 ≤ 2 ^ 1024 := by norm_num
                            linarith)
      omega
  · rfl

theorem toInt_toDouble (x : ℚ) :
    toInt (Fp.fin x).toDouble = toInt (.fin (roundDouble x)) := by
  unfold Fp.toDouble
  simp only
  by_cases h1 : (2 : ℚ) ^ 1024 ≤ roundDouble x
  · rw [if_pos h1, toInt_fin_of_large (le_trans h1 (le_abs_self _))]
    rfl
  · rw [if_neg h1]
    by_cases h2 : roundDouble x ≤ -(2 ^ 1024)
    · have hbig : (0 : ℚ) < 2 ^ 1024 := by positivity
      have habs : (2 : ℚ) ^ 1024 ≤ |roundDouble x| := by
        rw [abs_of_neg (by linarith)]
        linarith
      rw [if_pos h2, toInt_fin_of_large habs]
      rfl
    · rw [if_neg h2]

theorem toDouble_fin_of_lt {x : ℚ} (h : |roundDouble x| < 2 ^ 1024) :
    (Fp.fin x).toDouble = .fin (roundDouble x) := by
  obtain ⟨h1, h2⟩ := abs_lt.mp h
  unfold Fp.toDouble
  simp only
  rw [if_neg (not_le.mpr h2), if_neg (not_le.mpr h1)]

theorem stdMin_one_cases (s : Fp) :
    stdMin (Fp.fin 1) s = Fp.negInf ∨ ∃ q, stdMin (Fp.fin 1) s = Fp.fin q ∧ q ≤ 1 := by
  cases s with
  | nan => right; exact ⟨1, by simp [stdMin, Fp.lt], le_refl _⟩
  | negInf => left; simp [stdMin, Fp.lt]
  | posInf => right; exact ⟨1, by simp [stdMin, Fp.lt], le_refl _⟩
  | fin q =>
    right
    by_cases h : q < 1
    · exact ⟨q, by simp [stdMin, Fp.lt, h], le_of_lt h⟩
    · exact ⟨1, by simp [stdMin, Fp.lt, h], le_refl _⟩

theorem clamp_inUnit (s : Fp) : (stdMax (Fp.fin (-1)) (stdMin (Fp.fin 1) s)).inUnit := by
  rcases stdMin_one_cases s with h | ⟨q, h, hq⟩
  · rw [h]; simp [stdMax, Fp.lt, Fp.inUnit]
  · rw [h]
    by_cases h1 : -1 < q
    · simp [stdMax, Fp.lt, h1, Fp.inUnit, hq, le_of_lt h1]
    · simp [stdMax, Fp.lt, h1, Fp.inUnit]

theorem clamp_of_inUnit (s : Fp) (h : s.inUnit) :
    stdMax (Fp.fin (-1)) (stdMin (Fp.fin 1) s) = s := by
  cases s with
  | nan => exact absurd h (by simp [Fp.inUnit])
  | negInf => exact absurd h (by simp [Fp.inUnit])
  | posInf => exact absurd h (by simp [Fp.inUnit])
  | fin q =>
    obtain ⟨hlo, hhi⟩ := h
    rcases eq_or_lt_of_le hhi with h1 | h1
    · subst h1; simp [stdMax, stdMin, Fp.lt]
    · rcases eq_or_lt_of_le hlo with h2 | h2
      · subst h2; simp [stdMax, stdMin, Fp.lt]
      · simp [stdMax, stdMin, Fp.lt, h1, h2]

theorem exactOps_unityLaws : exactOps.UnityLaws := by
  refine ⟨?_, ?_, ?_, ?_⟩
  · simp [exactOps, exactDiv]
  · simp [exactOps, exactPow]
  · rfl
  · intro x
    cases x <;> simp [exactOps, exactMul]

/-- C1: for every buffer and every gain in dB (whatever the platform's rounding), the buffer
returned by `adjustVolume` has the length of the input, an empty input gives an empty output,
and every returned sample is a finite value of `[-1.0, 1.0]` (also for NaN and infinite
products). -/
theorem adjustVolume_samples_clamped (fp : FloatOps) (data : List Fp) (volumeDb : Fp) :
    (adjustVolume fp data volumeDb).length = data.length ∧
    adjustVolume fp [] volumeDb = [] ∧
    ∀ s ∈ adjustVolume fp data volumeDb, s.inUnit := by
  refine ⟨by simp [adjustVolume], by simp [adjustVolume], ?_⟩
  intro s hs
  simp only [adjustVolume, List.mem_map] at hs
  obtain ⟨x, -, rfl⟩ := hs
  exact clamp_inUnit _

/-- C2 (counterexample): at 0 dB the one-sample buffer `[2.0]` is returned as `[1.0]`: the gain
is `pow(10, 0) = 1`, the product is `2.0`, and the clamp cuts it to `1.0`. -/
theorem adjustVolume_zero_dB_not_identity :
    adjustVolume exactOps [Fp.fin 2] (Fp.fin 0) = [Fp.fin 1] ∧
    adjustVolume exactOps [Fp.fin 2] (Fp.fin 0) ≠ [Fp.fin 2] := by
  have h : adjustVolume exactOps [Fp.fin 2] (Fp.fin 0) = [Fp.fin 1] := by
    simp [adjustVolume, exactOps, exactDiv, exactPow, exactMul, stdMin, stdMax, Fp.lt]
  refine ⟨h, ?_⟩
  rw [h]
  decide

/-- C2 (amended): on a platform whose operations obey the unity laws, `adjustVolume(buffer, 0)`
equals `buffer` for every buffer whose samples all lie in `[-1.0, 1.0]`. -/
theorem adjustVolume_zero_dB_identity_in_range (fp : FloatOps) (data : List Fp)
    (hfp : fp.UnityLaws) (hdata : ∀ s ∈ data, s.inUnit) :
    adjustVolume fp data (Fp.fin 0) = data := by
  obtain ⟨hdiv, hpow, hcast, hmul⟩ := hfp
  simp only [adjustVolume, hdiv, hpow, hcast, hmul]
  calc data.map (fun sample => stdMax (Fp.fin (-1)) (stdMin (Fp.fin 1) sample))
      = data.map id := List.map_congr_left (fun s hs => clamp_of_inUnit s (hdata s hs))
    _ = data := List.map_id _

/-- C2 (witness): the reference operations obey the unity laws, and the in-range buffer
`[0.5, -1.0, 1.0, 0.0]` is returned unchanged at 0 dB. -/
theorem adjustVolume_zero_dB_identity_in_range_witness :
    exactOps.UnityLaws ∧
    (∀ s ∈ [Fp.fin (1/2), Fp.fin (-1), Fp.fin 1, Fp.fin 0], s.inUnit) ∧
    adjustVolume exactOps [Fp.fin (1/2), Fp.fin (-1), Fp.fin 1, Fp.fin 0] (Fp.fin 0)
      = [Fp.fin (1/2), Fp.fin (-1), Fp.fin 1, Fp.fin 0] :=
  have hr : ∀ s ∈ [Fp.fin (1/2), Fp.fin (-1), Fp.fin 1, Fp.fin 0], s.inUnit := by
    intro s hs
    simp only [List.mem_cons, List.mem_singleton, List.not_mem_nil, or_false] at hs
    rcases hs with rfl | rfl | rfl | rfl <;> norm_num [Fp.inUnit]
  ⟨exactOps_unityLaws, hr,
    adjustVolume_zero_dB_identity_in_range exactOps _ exactOps_unityLaws hr⟩

theorem regionOffset_eq_some {size : Nat} {sampleRate channels : Int} {t : ℚ} {i : Nat}
    (h : regionOffset size sampleRate channels t = some i) :
    ∃ a, toSizeT (doubleMul (doubleMul (.fin t) (.fin sampleRate)) (.fin channels)) = some a ∧
      i = min a size := by
  unfold regionOffset at h
  cases ha : toSizeT (doubleMul (doubleMul (.fin t) (.fin sampleRate)) (.fin channels)) with
  | none => simp [ha] at h
  | some a =>
    simp only [ha, Option.bind_eq_bind, Option.some_bind, Option.some.injEq] at h
    exact ⟨a, rfl, h.symm⟩

theorem regionOffset_le_size {size : Nat} {sampleRate channels : Int} {t : ℚ} {i : Nat}
    (h : regionOffset size sampleRate channels t = some i) : i ≤ size := by
  obtain ⟨a, -, rfl⟩ := regionOffset_eq_some h
  exact Nat.min_le_right _ _

theorem regionOffset_of_range (size : Nat) (sampleRate : Int) {channels : Int} {t : ℚ}
    (hch : 0 < channels) (hlo : -1 < sampleProduct t sampleRate channels)
    (hhi : sampleProduct t sampleRate channels < 2 ^ 64) :
    regionOffset size sampleRate channels t
      = some (min (truncate (sampleProduct t sampleRate channels)).toNat size) := by
  simp [regionOffset, toSizeT_sampleProduct t sampleRate hch, toSizeT_fin_of_range hlo hhi]

theorem regionOffset_of_le_neg_one {size : Nat} (sampleRate : Int) {channels : Int} {t : ℚ}
    (hsize : size ≤ VECTOR_MAX) (hch : 0 < channels)
    (h : sampleProduct t sampleRate channels ≤ -1) :
    regionOffset size sampleRate channels t = some size := by
  obtain ⟨k, hk, hk2⟩ := toSizeT_fin_of_le_neg_one h
  have hmin : min k size = size := by
    simp only [VECTOR_MAX] at hsize
    omega
  simp [regionOffset, toSizeT_sampleProduct t sampleRate hch, hk, hmin]

theorem regionOffset_of_ge {size : Nat} (sampleRate : Int) {channels : Int} {t : ℚ}
    (hch : 0 < channels) (h : 2 ^ 64 ≤ sampleProduct t sampleRate channels) :
    regionOffset size sampleRate channels t = none := by
  simp [regionOffset, toSizeT_sampleProduct t sampleRate hch, toSizeT_fin_none h]

theorem sampleProduct_mono {sampleRate channels : Int} {s e : ℚ}
    (hsr : 0 < sampleRate) (hch : 0 < channels) (h : s ≤ e) :
    sampleProduct s sampleRate channels ≤ sampleProduct e sampleRate channels := by
  have hsr2 : (0 : ℚ) ≤ (sampleRate : ℚ) := by exact_mod_cast le_of_lt hsr
  have hch2 : (0 : ℚ) ≤ (channels : ℚ) := by exact_mod_cast le_of_lt hch
  unfold sampleProduct
  exact roundDouble_mono (mul_le_mul_of_nonneg_right
    (roundDouble_mono (mul_le_mul_of_nonneg_right h hsr2)) hch2)

theorem sampleProduct_nonneg {sampleRate channels : Int} {t : ℚ}
    (hsr : 0 < sampleRate) (hch : 0 < channels) (h : 0 ≤ t) :
    0 ≤ sampleProduct t sampleRate channels := by
  have hsr2 : (0 : ℚ) ≤ (sampleRate : ℚ) := by exact_mod_cast le_of_lt hsr
  have hch2 : (0 : ℚ) ≤ (channels : ℚ) := by exact_mod_cast le_of_lt hch
  unfold sampleProduct
  exact roundDouble_nonneg (mul_nonneg (roundDouble_nonneg (mul_nonneg h hsr2)) hch2)

theorem regionOffset_cases {size : Nat} {sampleRate channels : Int} {t : ℚ} {k : Nat}
    (hsize : size ≤ VECTOR_MAX) (hch : 0 < channels)
    (h : regionOffset size sampleRate channels t = some k) :
    sampleProduct t sampleRate channels < 2 ^ 64 ∧
    (-1 < sampleProduct t sampleRate channels →
      k = min (truncate (sampleProduct t sampleRate channels)).toNat size) ∧
    (sampleProduct t sampleRate channels ≤ -1 → k = size) := by
  have hhi : sampleProduct t sampleRate channels < 2 ^ 64 := by
    by_contra hge
    rw [regionOffset_of_ge sampleRate hch (not_lt.mp hge)] at h
    exact absurd h (by simp)
  refine ⟨hhi, ?_, ?_⟩
  · intro hlo
    rw [regionOffset_of_range size sampleRate hch hlo hhi] at h
    exact (Option.some.inj h).symm
  · intro hneg
    rw [regionOffset_of_le_neg_one sampleRate hsize hch hneg] at h
    exact (Option.some.inj h).symm

theorem guard_false {α : Type} {data : List α} {sampleRate channels : Int}
    (hne : data ≠ []) (hsr : 0 < sampleRate) (hch : 0 < channels) :
    ¬ (data.isEmpty = true ∨ sampleRate ≤ 0 ∨ channels ≤ 0) := by
  intro h
  rcases h with h | h | h
  · exact hne (List.isEmpty_iff.mp h)
  · omega
  · omega

theorem trimToRegion_of_offsets {α : Type} {data : List α} {sampleRate channels : Int}
    {s e : ℚ} {i j : Nat} (hne : data ≠ []) (hsr : 0 < sampleRate) (hch : 0 < channels)
    (hi : regionOffset data.length sampleRate channels s = some i)
    (hj : regionOffset data.length sampleRate channels e = some j) :
    trimToRegion data sampleRate channels s e
      = some (if i ≥ j then [] else (data.take j).drop i) := by
  obtain ⟨a, ha, rfl⟩ := regionOffset_eq_some hi
  obtain ⟨b, hb, rfl⟩ := regionOffset_eq_some hj
  unfold trimToRegion
  rw [if_neg (guard_false hne hsr hch)]
  simp only [ha, hb, Option.bind_eq_bind, Option.some_bind]
  split <;> rfl

theorem removeRegion_of_offsets {α : Type} {data : List α} {sampleRate channels : Int}
    {s e : ℚ} {i j : Nat} (hne : data ≠ []) (hsr : 0 < sampleRate) (hch : 0 < channels)
    (hi : regionOffset data.length sampleRate channels s = some i)
    (hj : regionOffset data.length sampleRate channels e = some j) :
    removeRegion data sampleRate channels s e
      = some (if i ≥ j then data else data.take i ++ data.drop j) := by
  obtain ⟨a, ha, rfl⟩ := regionOffset_eq_some hi
  obtain ⟨b, hb, rfl⟩ := regionOffset_eq_some hj
  unfold removeRegion
  rw [if_neg (guard_false hne hsr hch)]
  simp only [ha, hb, Option.bind_eq_bind, Option.some_bind, List.nil_append]
  split <;> rfl

theorem regionOffset_defined (size : Nat) (sampleRate : Int) {channels : Int} {t : ℚ}
    (hsize : size ≤ VECTOR_MAX) (hch : 0 < channels)
    (hhi : sampleProduct t sampleRate channels < 2 ^ 64) :
    ∃ k, regionOffset size sampleRate channels t = some k := by
  by_cases hlo : -1 < sampleProduct t sampleRate channels
  · exact ⟨_, regionOffset_of_range size sampleRate hch hlo hhi⟩
  · exact ⟨_, regionOffset_of_le_neg_one sampleRate hsize hch (not_lt.mp hlo)⟩

/-- C3 (counterexample): at 2 Hz mono on 4 samples the time 0.375 s (0.75 frames) is
truncated to offset 0 where the rounded index is 1, so the region [0.375 s, 2 s] is the whole
buffer for both operations, not its last three samples; and the time -1 s has offset 4 (the
product -2.0 converts to `2 ^ 64 - 2`, clamped from above to the size) where the index of the
specification is clamped to 0, so the trim of [-1 s, 2 s] is empty, not the whole buffer. -/
theorem region_offset_not_rounded :
    regionOffset 4 2 1 (3/8) = some 0 ∧ specIndex 4 2 1 (3/8) = 1 ∧ specIndex 4 2 1 2 = 4 ∧
    trimToRegion [10, 20, 30, 40] 2 1 (3/8) 2 = some [10, 20, 30, 40] ∧
    removeRegion [10, 20, 30, 40] 2 1 (3/8) 2 = some [] ∧
    regionOffset 4 2 1 (-1) = some 4 ∧ specIndex 4 2 1 (-1) = 0 ∧
    trimToRegion [10, 20, 30, 40] 2 1 (-1) 2 = some [] := by
  refine ⟨?_, ?_, ?_, ?_, ?_, ?_, ?_, ?_⟩ <;> decide!

/-- C3 (amended): for every non-empty buffer with positive sampleRate and channels and all
times whose `double` product `t * sampleRate * channels` is below 2^64, `trimToRegion` and
`removeRegion` cut at the same two offsets `i = index(start)` and `j = index(end)`; and the
offset of every time `t` is at most `totalSamples` and is the `double` product truncated
toward zero and clamped from above, `min(trunc(t * sampleRate * channels), totalSamples)`,
when that product is above -1 (its floor when `t >= 0`): seconds are not rounded to a frame
first, and nothing is rounded to nearest. When the product is -1 or less the offset is
`totalSamples`, not 0: the conversion wraps and there is no clamp from below. -/
theorem region_offset_truncated {α : Type} (data : List α) (sampleRate channels : Int)
    (startTime endTime : ℚ) (hne : data ≠ []) (hsize : data.length ≤ VECTOR_MAX)
    (hsr : 0 < sampleRate) (hch : 0 < channels)
    (hs : sampleProduct startTime sampleRate channels < 2 ^ 64)
    (he : sampleProduct endTime sampleRate channels < 2 ^ 64) :
    ∃ i j,
      regionOffset data.length sampleRate channels startTime = some i ∧
      regionOffset data.length sampleRate channels endTime = some j ∧
      trimToRegion data sampleRate channels startTime endTime
        = some (if i ≥ j then [] else (data.take j).drop i) ∧
      removeRegion data sampleRate channels startTime endTime
        = some (if i ≥ j then data else data.take i ++ data.drop j) ∧
      ∀ (t : ℚ) (k : Nat), regionOffset data.length sampleRate channels t = some k →
        k ≤ data.length ∧
        (-1 < sampleProduct t sampleRate channels →
          k = min (truncate (sampleProduct t sampleRate channels)).toNat data.length) ∧
        (0 ≤ t →
          (k : Int) = min ⌊sampleProduct t sampleRate channels⌋ (data.length : Int)) ∧
        (sampleProduct t sampleRate channels ≤ -1 → k = data.length) := by
  obtain ⟨i, hi⟩ := regionOffset_defined data.length sampleRate hsize hch hs
  obtain ⟨j, hj⟩ := regionOffset_defined data.length sampleRate hsize hch he
  refine ⟨i, j, hi, hj, trimToRegion_of_offsets hne hsr hch hi hj,
    removeRegion_of_offsets hne hsr hch hi hj, ?_⟩
  intro t k hk
  obtain ⟨-, h1, h2⟩ := regionOffset_cases hsize hch hk
  refine ⟨regionOffset_le_size hk, h1, ?_, h2⟩
  intro ht
  have hP := sampleProduct_nonneg hsr hch ht
  have hk2 := h1 (lt_of_lt_of_le (by norm_num) hP)
  rw [truncate_of_nonneg hP] at hk2
  have hfl : 0 ≤ ⌊sampleProduct t sampleRate channels⌋ := Int.floor_nonneg.mpr hP
  omega

/-- C3 (witness): at 10 Hz mono on 5 samples, the `double` nearest to 0.3 times 10 is the
`double` 3.0, so the region from 0 s to there is the first three samples for the trim and the
last two for the removal. -/
theorem region_offset_truncated_witness :
    sampleProduct (roundDouble (3/10)) 10 1 = 3 ∧
    trimToRegion [10, 20, 30, 40, 50] 10 1 0 (roundDouble (3/10)) = some [10, 20, 30] ∧
    removeRegion [10, 20, 30, 40, 50] 10 1 0 (roundDouble (3/10)) = some [40, 50] ∧
    ∃ i j,
      regionOffset ([10, 20, 30, 40, 50] : List Nat).length 10 1 0 = some i ∧
      regionOffset ([10, 20, 30, 40, 50] : List Nat).length 10 1 (roundDouble (3/10)) = some j ∧
      trimToRegion [10, 20, 30, 40, 50] 10 1 0 (roundDouble (3/10))
        = some (if i ≥ j then [] else (([10, 20, 30, 40, 50] : List Nat).take j).drop i) ∧
      removeRegion [10, 20, 30, 40, 50] 10 1 0 (roundDouble (3/10))
        = some (if i ≥ j then [10, 20, 30, 40, 50]
            else ([10, 20, 30, 40, 50] : List Nat).take i
              ++ ([10, 20, 30, 40, 50] : List Nat).drop j) ∧
      ∀ (t : ℚ) (k : Nat),
        regionOffset ([10, 20, 30, 40, 50] : List Nat).length 10 1 t = some k →
        k ≤ ([10, 20, 30, 40, 50] : List Nat).length ∧
        (-1 < sampleProduct t 10 1 →
          k = min (truncate (sampleProduct t 10 1)).toNat
            ([10, 20, 30, 40, 50] : List Nat).length) ∧
        (0 ≤ t →
          (k : Int) = min ⌊sampleProduct t 10 1⌋
            ((([10, 20, 30, 40, 50] : List Nat).length : Nat) : Int)) ∧
        (sampleProduct t 10 1 ≤ -1 → k = ([10, 20, 30, 40, 50] : List Nat).length) :=
  ⟨by decide!, by decide!, by decide!,
    region_offset_truncated [10, 20, 30, 40, 50] 10 1 0 (roundDouble (3/10)) (by decide)
      (by decide) (by decide) (by decide) (by decide!) (by decide!)⟩

theorem sampleProduct_le_of_duration {size : Nat} {sampleRate channels : Int} {t : ℚ}
    (hsize : size ≤ VECTOR_MAX) (hsr : 0 < sampleRate) (hch : 0 < channels)
    (hchmax : channels ≤ INT_MAX) (h0 : 0 ≤ t)
    (hdur : t ≤ specDuration size sampleRate channels) :
    sampleProduct t sampleRate channels ≤ 2 ^ 63 := by
  have hsrq : (0 : ℚ) < (sampleRate : ℚ) := by exact_mod_cast hsr
  have hchq : (0 : ℚ) < (channels : ℚ) := by exact_mod_cast hch
  have hchm : (channels : ℚ) ≤ 2 ^ 31 := by
    have : channels ≤ 2 ^ 31 := by simp only [INT_MAX] at hchmax; omega
    exact_mod_cast this
  have hsz : (size : ℚ) ≤ 2 ^ 61 := by
    have : size ≤ 2 ^ 61 := by simp only [VECTOR_MAX] at hsize; omega
    exact_mod_cast this
  have hy0 : 0 ≤ t * sampleRate := mul_nonneg h0 (le_of_lt hsrq)
  have hyc : t * sampleRate * channels ≤ (size : ℚ) := by
    unfold specDuration at hdur
    rw [le_div_iff₀ hsrq, le_div_iff₀ hchq] at hdur
    exact hdur
  have herr := roundDouble_rel_error (t * sampleRate)
  rw [abs_of_nonneg hy0] at herr
  have hup : roundDouble (t * sampleRate)
      ≤ t * sampleRate + t * sampleRate * (2 : ℚ) ^ (-53 : Int) + (2 : ℚ) ^ (-1075 : Int) := by
    have := (abs_le.mp herr).2
    linarith
  have hu : (2 : ℚ) ^ (-53 : Int) ≤ 1 := by norm_num
  have heta : (2 : ℚ) ^ (-1075 : Int) * 2 ^ 31 ≤ 1 := by
    rw [show (2 : ℚ) ^ 31 = (2 : ℚ) ^ (31 : Int) from by norm_num,
      ← zpow_add₀ (by norm_num : (2 : ℚ) ≠ 0)]
    exact zpow_le_one_of_nonpos₀ (by norm_num) (by norm_num)
  have heta0 : (0 : ℚ) < (2 : ℚ) ^ (-1075 : Int) := zpow_pos (by norm_num) _
  have hprod : roundDouble (t * sampleRate) * channels ≤ 2 ^ 63 := by
    have h1 : roundDouble (t * sampleRate) * channels
        ≤ (t * sampleRate + t * sampleRate * (2 : ℚ) ^ (-53 : Int) + (2 : ℚ) ^ (-1075 : Int))
          * channels := mul_le_mul_of_nonneg_right hup (le_of_lt hchq)
    have h2 : t * sampleRate * (2 : ℚ) ^ (-53 : Int) * channels ≤ t * sampleRate * channels := by
      have : t * sampleRate * channels * (2 : ℚ) ^ (-53 : Int) ≤ t * sampleRate * channels * 1 :=
        mul_le_mul_of_nonneg_left hu (mul_nonneg hy0 (le_of_lt hchq))
      linarith
    have h3 : (2 : ℚ) ^ (-1075 : Int) * channels ≤ 1 :=
      le_trans (mul_le_mul_of_nonneg_left hchm (le_of_lt heta0)) heta
    have h4 : (2 : ℚ) ^ 61 + 2 ^ 61 + 1 ≤ 2 ^ 63 := by norm_num
    linarith
  have h5 := roundDouble_mono hprod
  rw [roundDouble_two_pow] at h5
  exact h5

/-- C4 (counterexample): 4 mono samples at 2 Hz (duration 2 s), region [0.375 s, 2 s]: the
indices of the specification are 1 and 4, a span of 3 samples, but `trimToRegion` returns all
4 samples and `removeRegion` returns none (the claim gives 3 and 1). -/
theorem region_counts_not_from_rounded_index :
    (0 : ℚ) ≤ 3/8 ∧ (3/8 : ℚ) < 2 ∧ (2 : ℚ) ≤ specDuration 4 2 1 ∧
    specIndex 4 2 1 2 - specIndex 4 2 1 (3/8) = 3 ∧
    (trimToRegion [10, 20, 30, 40] 2 1 (3/8) 2).map List.length = some 4 ∧
    (removeRegion [10, 20, 30, 40] 2 1 (3/8) 2).map List.length = some 0 := by
  refine ⟨?_, ?_, ?_, ?_, ?_, ?_⟩ <;> decide!

/-- C4 (amended): for every non-empty buffer with positive sampleRate and channels and every
`0 <= start < end <= duration`, both operations return, and with `i`, `j` the sample offsets
they compute for `start` and `end` (the floor of the `double` product
`t * sampleRate * channels`, clamped to `totalSamples`; `i <= j <= totalSamples`),
`trimToRegion` returns `j - i` samples (so `(j - i) / channels` frames) and `removeRegion`
returns `totalSamples - (j - i)` samples. -/
theorem region_sample_counts {α : Type} (data : List α) (sampleRate channels : Int)
    (startTime endTime : ℚ) (hne : data ≠ []) (hsize : data.length ≤ VECTOR_MAX)
    (hsr : 0 < sampleRate) (hch : 0 < channels) (hchmax : channels ≤ INT_MAX)
    (h0 : 0 ≤ startTime) (hlt : startTime < endTime)
    (hdur : endTime ≤ specDuration data.length sampleRate channels) :
    ∃ i j, regionOffset data.length sampleRate channels startTime = some i ∧
      regionOffset data.length sampleRate channels endTime = some j ∧
      (i : Int) = min ⌊sampleProduct startTime sampleRate channels⌋ (data.length : Int) ∧
      (j : Int) = min ⌊sampleProduct endTime sampleRate channels⌋ (data.length : Int) ∧
      i ≤ j ∧ j ≤ data.length ∧
      (∃ r, trimToRegion data sampleRate channels startTime endTime = some r ∧
        r.length = j - i ∧ r.length / channels.toNat = (j - i) / channels.toNat) ∧
      (∃ r, removeRegion data sampleRate channels startTime endTime = some r ∧
        r.length = data.length - (j - i)) := by
  have he0 : 0 ≤ endTime := le_trans h0 (le_of_lt hlt)
  have hPs := sampleProduct_nonneg hsr hch h0
  have hPe := sampleProduct_nonneg hsr hch he0
  have hPse := sampleProduct_mono hsr hch (le_of_lt hlt)
  have hPe_hi : sampleProduct endTime sampleRate channels < 2 ^ 64 :=
    lt_of_le_of_lt (sampleProduct_le_of_duration hsize hsr hch hchmax he0 hdur) (by norm_num)
  have hPs_hi : sampleProduct startTime sampleRate channels < 2 ^ 64 :=
    lt_of_le_of_lt hPse hPe_hi
  have hi := regionOffset_of_range data.length sampleRate hch
    (lt_of_lt_of_le (by norm_num) hPs) hPs_hi
  have hj := regionOffset_of_range data.length sampleRate hch
    (lt_of_lt_of_le (by norm_num) hPe) hPe_hi
  rw [truncate_of_nonneg hPs] at hi
  rw [truncate_of_nonneg hPe] at hj
  have hfs : 0 ≤ ⌊sampleProduct startTime sampleRate channels⌋ := Int.floor_nonneg.mpr hPs
  have hfe : 0 ≤ ⌊sampleProduct endTime sampleRate channels⌋ := Int.floor_nonneg.mpr hPe
  have hfse : ⌊sampleProduct startTime sampleRate channels⌋
      ≤ ⌊sampleProduct endTime sampleRate channels⌋ := Int.floor_mono hPse
  generalize ⌊sampleProduct startTime sampleRate channels⌋ = a at hi hfs hfse
  generalize ⌊sampleProduct endTime sampleRate channels⌋ = b at hj hfe hfse
  refine ⟨_, _, hi, hj, by omega, by omega, by omega, by omega, ?_, ?_⟩
  · refine ⟨_, trimToRegion_of_offsets hne hsr hch hi hj, ?_⟩
    have hlen : (if min a.toNat data.length ≥ min b.toNat data.length then ([] : List α)
        else (data.take (min b.toNat data.length)).drop (min a.toNat data.length)).length
        = min b.toNat data.length - min a.toNat data.length := by
      split
      · simp only [List.length_nil]; omega
      · simp only [List.length_drop, List.length_take]; omega
    exact ⟨hlen, by rw [hlen]⟩
  · refine ⟨_, removeRegion_of_offsets hne hsr hch hi hj, ?_⟩
    split
    · omega
    · simp only [List.length_append, List.length_drop, List.length_take]; omega

/-- C4 (witness): 44100 samples at 44100 Hz, one channel, region [0.25 s, 0.75 s]: the trim
returns 22050 samples and the removal returns 22050 samples. -/
theorem region_sample_counts_witness :
    (0 : ℚ) ≤ 1/4 ∧ (1/4 : ℚ) < 3/4 ∧ (3/4 : ℚ) ≤ specDuration 44100 44100 1 ∧
    (trimToRegion (List.replicate 44100 (0 : ℚ)) 44100 1 (1/4) (3/4)).map List.length
      = some 22050 ∧
    (removeRegion (List.replicate 44100 (0 : ℚ)) 44100 1 (1/4) (3/4)).map List.length
      = some 22050 := by
  have hd : (3/4 : ℚ) ≤ specDuration 44100 44100 1 := by decide!
  have hlen : (List.replicate 44100 (0 : ℚ)).length = 44100 := List.length_replicate _ _
  have hne : List.replicate 44100 (0 : ℚ) ≠ [] := by
    intro h
    rw [h] at hlen
    exact absurd hlen (by decide)
  obtain ⟨i, j, hi, hj, -, -, -, -, ⟨r, hr, hrl, -⟩, ⟨r', hr', hrl'⟩⟩ :=
    region_sample_counts (List.replicate 44100 (0 : ℚ)) 44100 1 (1/4) (3/4) hne
      (by rw [hlen]; decide) (by decide) (by decide) (by decide) (by norm_num) (by norm_num)
      (by rw [hlen]; exact hd)
  rw [hlen] at hi hj hrl'
  have hi' : regionOffset 44100 44100 1 (1/4) = some 11025 := by decide!
  have hj' : regionOffset 44100 44100 1 (3/4) = some 33075 := by decide!
  have hi2 : i = 11025 := Option.some.inj (hi.symm.trans hi')
  have hj2 : j = 33075 := Option.some.inj (hj.symm.trans hj')
  subst hi2 hj2
  refine ⟨by norm_num, by norm_num, hd, ?_, ?_⟩
  · rw [hr, Option.map_some', hrl]
  · rw [hr', Option.map_some', hrl']

/-- C5 (counterexample): 4 mono samples at 2 Hz, region [0.375 s, 0.875 s]: the indices of
the specification are 1 and 2, so the claim gives the run `[20]`; `trimToRegion` cuts at the
truncated offsets 0 and 1 and returns `[10]`. -/
theorem trimToRegion_not_at_rounded_index :
    specIndex 4 2 1 (3/8) = 1 ∧ specIndex 4 2 1 (7/8) = 2 ∧
    (([10, 20, 30, 40] : List Nat).take 2).drop 1 = [20] ∧
    trimToRegion [10, 20, 30, 40] 2 1 (3/8) (7/8) = some [10] := by
  refine ⟨?_, ?_, ?_, ?_⟩ <;> decide!

/-- C5 (amended): for every non-empty buffer with positive sampleRate and channels and every
start, end whose offsets as the code computes them (the truncated `double` product, clamped
to the size), `i` for start and `j` for end, satisfy `i < j`, `trimToRegion` returns exactly
the run of input samples at offsets `i` up to but excluding `j`: it has `j - i` samples and
its `k`-th sample is the input sample at offset `i + k`. -/
theorem trimToRegion_keeps_region {α : Type} (data : List α) (sampleRate channels : Int)
    (startTime endTime : ℚ) (i j : Nat) (hne : data ≠ [])
    (hsr : 0 < sampleRate) (hch : 0 < channels)
    (hi : regionOffset data.length sampleRate channels startTime = some i)
    (hj : regionOffset data.length sampleRate channels endTime = some j) (hij : i < j) :
    ∃ r, trimToRegion data sampleRate channels startTime endTime = some r ∧
      r.length = j - i ∧
      ∀ k, k < j - i → i + k < data.length ∧ r[k]? = data[i + k]? := by
  have hjl := regionOffset_le_size hj
  refine ⟨_, trimToRegion_of_offsets hne hsr hch hi hj, ?_, ?_⟩
  · rw [if_neg (by omega)]
    simp only [List.length_drop, List.length_take]
    omega
  · intro k hk
    refine ⟨by omega, ?_⟩
    rw [if_neg (by omega), List.getElem?_drop, List.getElem?_take_of_lt (by omega)]

/-- C5 (witness): 8 samples at 4 Hz mono, region [0.5 s, 1.5 s]: offsets 2 and 6, and the
result is the four samples at offsets 2, 3, 4, 5. -/
theorem trimToRegion_keeps_region_witness :
    regionOffset 8 4 1 (1/2) = some 2 ∧ regionOffset 8 4 1 (3/2) = some 6 ∧
    trimToRegion [10, 20, 30, 40, 50, 60, 70, 80] 4 1 (1/2) (3/2) = some [30, 40, 50, 60] ∧
    ∃ r, trimToRegion [10, 20, 30, 40, 50, 60, 70, 80] 4 1 (1/2) (3/2) = some r ∧
      r.length = 6 - 2 ∧
      ∀ k, k < 6 - 2 → 2 + k < [10, 20, 30, 40, 50, 60, 70, 80].length ∧
        r[k]? = [10, 20, 30, 40, 50, 60, 70, 80][2 + k]? :=
  ⟨by decide!, by decide!, by decide!,
    trimToRegion_keeps_region [10, 20, 30, 40, 50, 60, 70, 80] 4 1 (1/2) (3/2) 2 6
      (by decide) (by decide) (by decide) (by decide!) (by decide!) (by decide)⟩

/-- C6 (counterexample): 4 mono samples at 2 Hz, region [0.375 s, 0.875 s]: the indices of
the specification are 1 and 2, so the claim gives `[10, 30, 40]`; `removeRegion` cuts at the
truncated offsets 0 and 1 and returns `[20, 30, 40]`. -/
theorem removeRegion_not_at_rounded_index :
    specIndex 4 2 1 (3/8) = 1 ∧ specIndex 4 2 1 (7/8) = 2 ∧
    ([10, 20, 30, 40] : List Nat).take 1 ++ ([10, 20, 30, 40] : List Nat).drop 2 = [10, 30, 40] ∧
    removeRegion [10, 20, 30, 40] 2 1 (3/8) (7/8) = some [20, 30, 40] := by
  refine ⟨?_, ?_, ?_, ?_⟩ <;> decide!

/-- C6 (amended): for every non-empty buffer with positive sampleRate and channels and every
start, end whose offsets as the code computes them (the truncated `double` product, clamped
to the size), `i` for start and `j` for end, satisfy `i < j`, `removeRegion` returns the
first `i` input samples followed by the input samples from offset `j` to the end, in their
original order: below `i` the result agrees with the input, and from `i` on it is the input
shifted by `j - i`. -/
theorem removeRegion_keeps_outside {α : Type} (data : List α) (sampleRate channels : Int)
    (startTime endTime : ℚ) (i j : Nat) (hne : data ≠ [])
    (hsr : 0 < sampleRate) (hch : 0 < channels)
    (hi : regionOffset data.length sampleRate channels startTime = some i)
    (hj : regionOffset data.length sampleRate channels endTime = some j) (hij : i < j) :
    ∃ r, removeRegion data sampleRate channels startTime endTime = some r ∧
      r = data.take i ++ data.drop j ∧
      r.length = data.length - (j - i) ∧
      (∀ k, k < i → r[k]? = data[k]?) ∧
      (∀ k, i ≤ k → r[k]? = data[k + (j - i)]?) := by
  have hjl : j ≤ data.length := regionOffset_le_size hj
  have htake : (data.take i).length = i := by
    rw [List.length_take]
    omega
  refine ⟨_, removeRegion_of_offsets hne hsr hch hi hj, ?_, ?_, ?_, ?_⟩
  · rw [if_neg (by omega)]
  · rw [if_neg (by omega)]
    simp only [List.length_append, List.length_drop, List.length_take]
    omega
  · intro k hk
    rw [if_neg (by omega), List.getElem?_append_left (by omega),
      List.getElem?_take_of_lt hk]
  · intro k hk
    rw [if_neg (by omega), List.getElem?_append_right (by omega), htake,
      List.getElem?_drop]
    congr 1
    omega

/-- C6 (witness): 44100 samples (numbered 0 to 44099) at 44100 Hz mono, region
[0.25 s, 0.75 s]: offsets 11025 and 33075, and the result is the first 11025 samples
followed by the last 11025 samples. -/
theorem removeRegion_keeps_outside_witness :
    regionOffset 44100 44100 1 (1/4) = some 11025 ∧
    regionOffset 44100 44100 1 (3/4) = some 33075 ∧
    ∃ r, removeRegion (List.range 44100) 44100 1 (1/4) (3/4) = some r ∧
      r = (List.range 44100).take 11025 ++ (List.range 44100).drop (44100 - 11025) ∧
      r.length = 22050 := by
  have hlen : (List.range 44100).length = 44100 := List.length_range _
  have hne : List.range 44100 ≠ [] := by
    intro h
    rw [h] at hlen
    exact absurd hlen (by decide)
  have hi : regionOffset 44100 44100 1 (1/4) = some 11025 := by decide!
  have hj : regionOffset 44100 44100 1 (3/4) = some 33075 := by decide!
  obtain ⟨r, hr, hrr, hrl, -, -⟩ :=
    removeRegion_keeps_outside (List.range 44100) 44100 1 (1/4) (3/4) 11025 33075 hne
      (by decide) (by decide) (by rw [hlen]; exact hi) (by rw [hlen]; exact hj) (by decide)
  rw [hlen] at hrl
  exact ⟨hi, hj, r, hr, hrr, hrl⟩

/-- C9: for every start and end, `trimToRegion` and `removeRegion` return (they do not fail:
the result is `some`) their input buffer unchanged whenever the buffer is empty,
`sampleRate <= 0` or `channels <= 0`. -/
theorem region_edits_ignore_invalid_input {α : Type} (data : List α)
    (sampleRate channels : Int) (startTime endTime : ℚ)
    (h : data = [] ∨ sampleRate ≤ 0 ∨ channels ≤ 0) :
    trimToRegion data sampleRate channels startTime endTime = some data ∧
    removeRegion data sampleRate channels startTime endTime = some data := by
  have hg : data.isEmpty = true ∨ sampleRate ≤ 0 ∨ channels ≤ 0 := by
    rcases h with h | h | h
    · exact Or.inl (List.isEmpty_iff.mpr h)
    · exact Or.inr (Or.inl h)
    · exact Or.inr (Or.inr h)
  constructor
  · unfold trimToRegion
    rw [if_pos hg]
  · unfold removeRegion
    rw [if_pos hg]

/-- C9 (witness): with `channels = 0` the buffer comes back unchanged, here even for a
negative start time. -/
theorem region_edits_ignore_invalid_input_witness :
    (([10, 20, 30, 40] : List Nat) = [] ∨ (2 : Int) ≤ 0 ∨ (0 : Int) ≤ 0) ∧
    trimToRegion [10, 20, 30, 40] 2 0 (-1) (3/2) = some [10, 20, 30, 40] ∧
    removeRegion [10, 20, 30, 40] 2 0 (-1) (3/2) = some [10, 20, 30, 40] :=
  ⟨Or.inr (Or.inr (le_refl _)),
    region_edits_ignore_invalid_input [10, 20, 30, 40] 2 0 (-1) (3/2)
      (Or.inr (Or.inr (le_refl _)))⟩

/-- C10 (the code at the failing inputs): four stereo frames (8 samples) at 4 Hz, region
[0 s, 0.375 s]: `0.375 * 4 * 2 = 3`, so `trimToRegion` returns 3 samples and `removeRegion`
5 samples, neither a whole number of 2-channel frames. Likewise one second of stereo audio at
44100 Hz (88200 samples) trimmed to [0 s, 0.50002 s] has 44101 samples. -/
theorem region_edits_split_frames :
    2 ∣ ([10, 20, 30, 40, 50, 60, 70, 80] : List Nat).length ∧
    trimToRegion [10, 20, 30, 40, 50, 60, 70, 80] 4 2 0 (3/8) = some [10, 20, 30] ∧
    ¬ 2 ∣ ([10, 20, 30] : List Nat).length ∧
    removeRegion [10, 20, 30, 40, 50, 60, 70, 80] 4 2 0 (3/8) = some [40, 50, 60, 70, 80] ∧
    ¬ 2 ∣ ([40, 50, 60, 70, 80] : List Nat).length ∧
    2 ∣ (List.replicate 88200 (0 : ℚ)).length ∧
    (trimToRegion (List.replicate 88200 (0 : ℚ)) 44100 2 0 (25001/50000)).map List.length
      = some 44101 ∧
    ¬ 2 ∣ 44101 := by
  have hlen : (List.replicate 88200 (0 : ℚ)).length = 88200 := List.length_replicate _ _
  have hne : List.replicate 88200 (0 : ℚ) ≠ [] := by
    intro h
    rw [h] at hlen
    exact absurd hlen (by decide)
  have hi : regionOffset 88200 44100 2 0 = some 0 := by decide!
  have hj : regionOffset 88200 44100 2 (25001/50000) = some 44101 := by decide!
  have hsr : (0 : Int) < 44100 := by decide
  have hch : (0 : Int) < 2 := by decide
  have hbig : trimToRegion (List.replicate 88200 (0 : ℚ)) 44100 2 0 (25001/50000)
      = some (if 0 ≥ 44101 then [] else ((List.replicate 88200 (0 : ℚ)).take 44101).drop 0) :=
    trimToRegion_of_offsets hne hsr hch (by rw [hlen]; exact hi) (by rw [hlen]; exact hj)
  refine ⟨by decide, by decide!, by decide, by decide!, by decide, ?_, ?_, by decide⟩
  · rw [hlen]
    decide
  · rw [hbig, if_neg (by decide), Option.map_some', List.drop_zero, List.length_take, hlen]
    rfl

theorem intOfSize_of_le {n : Nat} (h : (n : Int) ≤ INT_MAX) : intOfSize n = (n : Int) := by
  simp only [INT_MAX] at h
  simp only [intOfSize, Int.bmod]
  omega

theorem sizeOfInt_of_range {c : Int} (h0 : 0 ≤ c) (h1 : c ≤ INT_MAX) :
    sizeOfInt c = c.toNat := by
  simp only [INT_MAX] at h1
  simp only [sizeOfInt]
  omega

theorem downsampleFactor_of_le {maxSamples : Int} {size : Nat} (hN : 0 < maxSamples)
    (h : (size : Int) ≤ INT_MAX) :
    downsampleFactor maxSamples size = max 1 ((size : Int) / maxSamples) := by
  rw [downsampleFactor, intOfSize_of_le h,
    Int.tdiv_eq_ediv (Int.ofNat_nonneg size) (le_of_lt hN)]

theorem downsampleFactor_bounds {maxSamples : Int} {size : Nat} (hN : 0 < maxSamples)
    (h : (size : Int) ≤ INT_MAX) :
    1 ≤ downsampleFactor maxSamples size ∧ downsampleFactor maxSamples size ≤ INT_MAX := by
  rw [downsampleFactor_of_le hN h]
  have h1 : (size : Int) / maxSamples ≤ (size : Int) :=
    Int.ediv_le_self _ (Int.ofNat_nonneg size)
  have h2 : (1 : Int) ≤ INT_MAX := by decide
  constructor
  · exact le_max_left _ _
  · exact max_le h2 (le_trans h1 h)

theorem downsampleLoop_spec {α : Type} (data : List α) (factor : Int) (s : Nat)
    (hs : sizeOfInt factor = s) (hs0 : 0 < s) (hwrap : data.length + s ≤ SIZE_MAX + 1) :
    ∀ (fuel i : Nat) (out : List α), data.length - i < fuel →
      ∃ r, downsampleLoop data factor fuel i out = some (out ++ r) ∧
        (∀ k, k < r.length ↔ i + k * s < data.length) ∧
        (∀ k, k < r.length → r[k]? = data[i + k * s]?) := by
  intro fuel
  induction fuel with
  | zero => intro i out h; omega
  | succ fuel ih =>
    intro i out hfuel
    by_cases hi : i < data.length
    · have hmod : (i + s) % (SIZE_MAX + 1) = i + s := Nat.mod_eq_of_lt (by omega)
      obtain ⟨r, hr, hlen, hget⟩ := ih (i + s) (out ++ [data[i]]) (by omega)
      refine ⟨data[i] :: r, ?_, ?_, ?_⟩
      · rw [downsampleLoop, dif_pos hi, hs, hmod, hr]
        simp
      · intro k
        cases k with
        | zero => simp [hi]
        | succ k =>
          have := hlen k
          rw [Nat.succ_mul]
          simp only [List.length_cons]
          omega
      · intro k hk
        cases k with
        | zero => simp [List.getElem?_eq_getElem hi]
        | succ k =>
          simp only [List.length_cons] at hk
          have := hget k (by omega)
          rw [Nat.succ_mul, List.getElem?_cons_succ, this]
          congr 1
          omega
    · refine ⟨[], ?_, ?_, ?_⟩
      · rw [downsampleLoop, dif_neg hi]
        simp
      · intro k
        simp only [List.length_nil]
        constructor
        · intro h; omega
        · intro h
          have : i ≤ i + k * s := Nat.le_add_right _ _
          omega
      · intro k hk
        simp at hk

theorem downsampleWaveform_spec {α : Type} (maxSamples : Int) (data : List α) (s : Nat)
    (hs : sizeOfInt (downsampleFactor maxSamples data.length) = s) (hs0 : 0 < s)
    (hwrap : data.length + s ≤ SIZE_MAX + 1) :
    ∃ r, downsampleWaveform maxSamples data = some r ∧
      (∀ k, k < r.length ↔ k * s < data.length) ∧
      (∀ k, k < r.length → r[k]? = data[k * s]?) := by
  obtain ⟨r, hr, hlen, hget⟩ :=
    downsampleLoop_spec data (downsampleFactor maxSamples data.length) s hs hs0 hwrap
      (data.length + 1) 0 [] (by omega)
  refine ⟨r, ?_, ?_, ?_⟩
  · rw [downsampleWaveform, hr]
    simp
  · intro k
    simpa using hlen k
  · intro k hk
    simpa using hget k hk

theorem downsampleWaveform_stride_one {α : Type} (maxSamples : Int) (data : List α)
    (hs : downsampleFactor maxSamples data.length = 1) (hsize : data.length ≤ SIZE_MAX) :
    downsampleWaveform maxSamples data = some data := by
  have hs1 : sizeOfInt (downsampleFactor maxSamples data.length) = 1 := by
    rw [hs]
    decide
  obtain ⟨r, hr, hlen, hget⟩ :=
    downsampleWaveform_spec maxSamples data 1 hs1 (by decide) (by omega)
  have hl : r.length = data.length := by
    have h1 := hlen
    simp only [Nat.mul_one] at h1
    by_contra hne
    rcases Nat.lt_or_gt_of_ne hne with h | h
    · have := (h1 r.length).mpr h
      omega
    · have := (h1 data.length).mp h
      omega
  have hrd : r = data := by
    apply List.ext_getElem? 
    intro k
    by_cases hk : k < r.length
    · simpa using hget k hk
    · rw [List.getElem?_eq_none (by omega), List.getElem?_eq_none (by omega)]
  rw [hr, hrd]

/-- C11 (the code at the failing inputs): with `maxSamples = 2000`, a buffer of 2001 samples
has stride `max(1, 2001 / 2000) = 1` and the projection keeps all 2001 samples; a buffer of
3999 samples keeps all 3999. Both are longer than 2000. -/
theorem downsampleWaveform_exceeds_maxSamples :
    downsampleFactor 2000 2001 = 1 ∧
    downsampleWaveform 2000 (List.range 2001) = some (List.range 2001) ∧
    (List.range 2001).length = 2001 ∧ ¬ (2001 ≤ 2000) ∧
    downsampleWaveform 2000 (List.range 3999) = some (List.range 3999) ∧
    (List.range 3999).length = 3999 ∧ ¬ (3999 ≤ 2000) := by
  have h1 : downsampleFactor 2000 (List.range 2001).length = 1 := by
    rw [List.length_range]
    decide!
  have h2 : downsampleFactor 2000 (List.range 3999).length = 1 := by
    rw [List.length_range]
    decide!
  refine ⟨by decide!, downsampleWaveform_stride_one 2000 _ h1 ?_, List.length_range _,
    by decide, downsampleWaveform_stride_one 2000 _ h2 ?_, List.length_range _, by decide⟩
  · rw [List.length_range]
    decide
  · rw [List.length_range]
    decide

/-- C12 (counterexample): two stereo frames `[10, 20, 30, 40]` (frame count 2, at most 2000)
are projected to all 4 samples: the projection strides over interleaved samples, not over
frames. -/
theorem downsampleWaveform_counts_samples :
    ([10, 20, 30, 40] : List Nat).length / 2 = 2 ∧
    downsampleWaveform 2000 [10, 20, 30, 40] = some [10, 20, 30, 40] ∧
    (downsampleWaveform 2000 [10, 20, 30, 40]).map List.length ≠ some 2 := by
  refine ⟨by decide, by decide!, by decide!⟩

/-- C12 (amended): for every buffer whose sample count is at most `N` (a positive `int`), the
projection returns every sample, so its length is the sample count; that is the total frame
count when there is one channel. -/
theorem downsampleWaveform_keeps_short_buffer {α : Type} (N : Int) (data : List α)
    (hN0 : 0 < N) (hN : N ≤ INT_MAX) (hsize : (data.length : Int) ≤ N) :
    ∃ r, downsampleWaveform N data = some r ∧ r = data ∧ r.length = data.length ∧
      ∀ channels : Nat, channels = 1 → r.length = data.length / channels := by
  have hle : (data.length : Int) ≤ INT_MAX := le_trans hsize hN
  have hdiv : (data.length : Int) / N ≤ 1 :=
    Int.ediv_le_of_le_mul hN0 (by rw [one_mul]; exact hsize)
  have hf : downsampleFactor N data.length = 1 := by
    rw [downsampleFactor_of_le hN0 hle]
    exact max_eq_left hdiv
  have hmax : data.length ≤ SIZE_MAX := by
    simp only [INT_MAX] at hle
    simp only [SIZE_MAX]
    omega
  refine ⟨data, downsampleWaveform_stride_one N data hf hmax, rfl, rfl, ?_⟩
  intro channels hc
  rw [hc, Nat.div_one]

/-- C12 (witness): the three mono samples `[10, 20, 30]` are projected unchanged with
`maxSamples = 2000`. -/
theorem downsampleWaveform_keeps_short_buffer_witness :
    ((([10, 20, 30] : List Nat).length : Int) ≤ 2000) ∧
    ∃ r, downsampleWaveform 2000 ([10, 20, 30] : List Nat) = some r ∧ r = [10, 20, 30] ∧
      r.length = ([10, 20, 30] : List Nat).length ∧
      ∀ channels : Nat, channels = 1 → r.length = ([10, 20, 30] : List Nat).length / channels :=
  ⟨by decide, downsampleWaveform_keeps_short_buffer 2000 [10, 20, 30] (by decide) (by decide)
    (by decide)⟩

/-- C13 (counterexample): for a buffer of `2 ^ 31` samples (numbered from 0) the size does not
fit an `int`: `static_cast<int>` gives `-2 ^ 31`, the stride is `max(1, -1073741) = 1` and not
`max(1, floor(2 ^ 31 / 2000)) = 1073741`, so the value at index 1 of the projection is the
sample at offset 1, not the sample at offset 1073741. -/
theorem downsampleWaveform_stride_wraps :
    intOfSize (2 ^ 31) = -(2 ^ 31) ∧
    downsampleFactor 2000 (2 ^ 31) = 1 ∧
    max 1 ((2 : Nat) ^ 31 / 2000) = 1073741 ∧
    ∃ r, downsampleWaveform 2000 (List.range (2 ^ 31)) = some r ∧
      r[1]? = some 1 ∧ (List.range (2 ^ 31))[1 * 1073741]? = some 1073741 := by
  have hf : downsampleFactor 2000 (List.range (2 ^ 31)).length = 1 := by
    rw [List.length_range]
    decide!
  have hsz : (List.range (2 ^ 31)).length ≤ SIZE_MAX := by
    rw [List.length_range]
    decide
  refine ⟨by decide!, by decide!, by decide, List.range (2 ^ 31),
    downsampleWaveform_stride_one 2000 _ hf hsz, ?_, ?_⟩
  · rw [List.getElem?_range (by decide)]
  · rw [List.getElem?_range (by decide)]

/-- C13 (amended): for every buffer of at most `INT_MAX` samples and every `N > 0`, with
`stride = max(1, floor(sampleCount / N))`, the projection returns, its `k`-th value exists
exactly when `k * stride < sampleCount`, and it is the input sample at offset `k * stride`;
the result is a function of `N` and the buffer alone. -/
theorem downsampleWaveform_strided {α : Type} (N : Int) (data : List α)
    (hN0 : 0 < N) (hsize : (data.length : Int) ≤ INT_MAX) :
    ∃ r, downsampleWaveform N data = some r ∧
      (∀ k, k < r.length ↔ k * (max 1 ((data.length : Int) / N)).toNat < data.length) ∧
      (∀ k, k * (max 1 ((data.length : Int) / N)).toNat < data.length →
        r[k]? = data[k * (max 1 ((data.length : Int) / N)).toNat]?) := by
  obtain ⟨hf1, hf2⟩ := downsampleFactor_bounds hN0 hsize
  have hs : sizeOfInt (downsampleFactor N data.length)
      = (max 1 ((data.length : Int) / N)).toNat := by
    rw [sizeOfInt_of_range (by omega) hf2, downsampleFactor_of_le hN0 hsize]
  rw [downsampleFactor_of_le hN0 hsize] at hf1 hf2
  have hs0 : 0 < (max 1 ((data.length : Int) / N)).toNat := by omega
  have hwrap : data.length + (max 1 ((data.length : Int) / N)).toNat ≤ SIZE_MAX + 1 := by
    simp only [INT_MAX] at hsize hf2
    simp only [SIZE_MAX]
    omega
  obtain ⟨r, hr, hlen, hget⟩ := downsampleWaveform_spec N data _ hs hs0 hwrap
  exact ⟨r, hr, hlen, fun k hk => hget k ((hlen k).mpr hk)⟩

/-- C13 (witness): ten samples numbered 0 to 9 with `N = 3`: the stride is 3 and the
projection is `[0, 3, 6, 9]`. -/
theorem downsampleWaveform_strided_witness :
    (((List.range 10).length : Int) ≤ INT_MAX) ∧
    downsampleWaveform 3 (List.range 10) = some [0, 3, 6, 9] ∧
    ∃ r, downsampleWaveform 3 (List.range 10) = some r ∧
      (∀ k, k < r.length ↔
        k * (max 1 (((List.range 10).length : Int) / 3)).toNat < (List.range 10).length) ∧
      (∀ k, k * (max 1 (((List.range 10).length : Int) / 3)).toNat < (List.range 10).length →
        r[k]? = (List.range 10)[k * (max 1 (((List.range 10).length : Int) / 3)).toNat]?) :=
  ⟨by decide, by decide!,
    downsampleWaveform_strided 3 (List.range 10) (by decide) (by decide)⟩

theorem roundDouble_abs_ge {x : ℚ} (h : 2 ^ 1024 ≤ |x|) : 2 ^ 1024 ≤ |roundDouble x| := by
  rcases le_or_lt 0 x with hx | hx
  · rw [abs_of_nonneg hx] at h
    have h1 := roundDouble_mono h
    rw [roundDouble_two_pow] at h1
    exact le_trans h1 (le_abs_self _)
  · rw [abs_of_neg hx] at h
    have h1 : x ≤ -(2 ^ 1024) := by linarith
    have h2 := roundDouble_mono h1
    rw [roundDouble_neg, roundDouble_two_pow] at h2
    have h3 : (2 : ℚ) ^ 1024 ≤ -roundDouble x := by linarith
    exact le_trans h3 (neg_le_abs _)

theorem toInt_special (v : Fp) (h : ∀ q, v ≠ Fp.fin q) : toInt v.toDouble = INT_MIN := by
  cases v with
  | fin q => exact absurd rfl (h q)
  | nan => rfl
  | negInf => rfl
  | posInf => rfl

theorem timeToPixel_eq (t : ℚ) (width : Int) {duration : ℚ} (hd : 0 < duration)
    (h : |roundDouble (t / duration)| < 2 ^ 1024 ∨ width ≠ 0) :
    timeToPixel t width duration = toInt (.fin (pixelPosition t width duration)) := by
  have hdne : duration ≠ 0 := ne_of_gt hd
  have hq : doubleDiv (.fin t) (.fin duration) = (Fp.fin (t / duration)).toDouble := by
    simp [doubleDiv, exactDiv, hdne]
  unfold timeToPixel pixelPosition
  rw [if_neg (not_le.mpr hd), hq]
  by_cases hfin : |roundDouble (t / duration)| < 2 ^ 1024
  · rw [toDouble_fin_of_lt hfin]
    exact toInt_toDouble _
  · have hw : width ≠ 0 := by
      rcases h with h | h
      · exact absurd h hfin
      · exact h
    have hwq : (1 : ℚ) ≤ |(width : ℚ)| := by
      have : 1 ≤ |width| := Int.one_le_abs hw
      exact_mod_cast this
    have hbig : (2 : ℚ) ^ 1024 ≤ |roundDouble (t / duration) * width| := by
      rw [abs_mul]
      have h0 : (0 : ℚ) < 2 ^ 1024 := by positivity
      nlinarith [not_lt.mp hfin, abs_nonneg (roundDouble (t / duration))]
    rw [toInt_fin_of_large (roundDouble_abs_ge hbig)]
    have hspec : ∀ q, exactMul (Fp.fin (t / duration)).toDouble (.fin (width : ℚ)) ≠ Fp.fin q := by
      intro q
      have hwq0 : (width : ℚ) ≠ 0 := by exact_mod_cast hw
      unfold Fp.toDouble
      simp only
      obtain hle := not_lt.mp hfin
      by_cases h1 : (2 : ℚ) ^ 1024 ≤ roundDouble (t / duration)
      · rw [if_pos h1]
        simp only [exactMul, hwq0, if_false]
        split_ifs <;> simp
      · rw [if_neg h1]
        have h2 : roundDouble (t / duration) ≤ -(2 ^ 1024) := by
          rcases abs_cases (roundDouble (t / duration)) with ⟨ha, _⟩ | ⟨ha, _⟩
          · rw [ha] at hle
            exact absurd hle h1
          · rw [ha] at hle
            linarith
        rw [if_pos h2]
        simp only [exactMul, hwq0, if_false]
        split_ifs <;> simp
    exact toInt_special _ hspec

theorem pixelToTime_eq (x : Int) {w : Int} {d : ℚ} (hw : 0 < w) (hd : 0 < d)
    (h1 : |roundDouble ((x : ℚ) / (w : ℚ))| < 2 ^ 1024)
    (h2 : |roundDouble (roundDouble ((x : ℚ) / (w : ℚ)) * d)| < 2 ^ 1024) :
    pixelToTime x w d = Fp.fin (roundDouble (roundDouble ((x : ℚ) / (w : ℚ)) * d)) := by
  have hwne : (w : ℚ) ≠ 0 := by
    have : w ≠ 0 := by omega
    exact_mod_cast this
  have hg : ¬ (w ≤ 0 ∨ d ≤ 0) := by
    intro h
    rcases h with h | h
    · omega
    · exact absurd h (not_le.mpr hd)
  have hq : doubleDiv (.fin (x : ℚ)) (.fin (w : ℚ)) = (Fp.fin ((x : ℚ) / (w : ℚ))).toDouble := by
    simp [doubleDiv, exactDiv, hwne]
  unfold pixelToTime
  rw [if_neg hg, hq, toDouble_fin_of_lt h1]
  exact toDouble_fin_of_lt h2

/-- C14 (counterexample): with a width of 960 pixels and a duration of 2 s, the time
1.001953125 s lies at pixel position 480.9375 (computed exactly in `double`): `timeToPixel`
returns 480, the nearest pixel is 481. Likewise 0.375 s at width 2 and duration 1 s
(position 0.75) gives 0, not 1. -/
theorem timeToPixel_not_nearest :
    pixelPosition (513/512) 960 2 = 7695/16 ∧
    timeToPixel (513/512) 960 2 = 480 ∧ specTimeToPixel (513/512) 960 2 = 481 ∧
    timeToPixel (3/8) 2 1 = 0 ∧ specTimeToPixel (3/8) 2 1 = 1 := by
  refine ⟨?_, ?_, ?_, ?_, ?_⟩ <;> decide!

/-- C14 (amended): `timeToPixel` returns 0 when `duration <= 0`; otherwise, when the pixel
position `(t / duration) * width` as computed in `double` (quotient and product each rounded
to binary64, the quotient finite or the width non-zero) is within the range of `int`, it
returns that position truncated toward zero: its floor when it is non-negative, its ceiling
when it is negative. -/
theorem timeToPixel_truncates (t : ℚ) (width : Int) (duration : ℚ) :
    (duration ≤ 0 → timeToPixel t width duration = 0) ∧
    (0 < duration → (|roundDouble (t / duration)| < 2 ^ 1024 ∨ width ≠ 0) →
      (INT_MIN : ℚ) - 1 < pixelPosition t width duration →
      pixelPosition t width duration < (INT_MAX : ℚ) + 1 →
      timeToPixel t width duration = truncate (pixelPosition t width duration) ∧
      (0 ≤ pixelPosition t width duration →
        timeToPixel t width duration = ⌊pixelPosition t width duration⌋) ∧
      (pixelPosition t width duration < 0 →
        timeToPixel t width duration = ⌈pixelPosition t width duration⌉)) := by
  constructor
  · intro hd
    simp [timeToPixel, hd]
  · intro hd hq hlo hhi
    have h := timeToPixel_eq t width hd hq
    rw [toInt_fin_of_range hlo hhi] at h
    refine ⟨h, ?_, ?_⟩
    · intro hx
      rw [h, truncate_of_nonneg hx]
    · intro hx
      rw [h, truncate_of_neg hx]

/-- C14 (witness): the `double` nearest to 0.7 s in a 2 s recording shown 960 pixels wide:
the position computed in `double` is exactly 336 (the exact product is just below), and
`timeToPixel` returns 336. -/
theorem timeToPixel_truncates_witness :
    pixelPosition (roundDouble (7/10)) 960 2 = 336 ∧
    (roundDouble (7/10) / 2) * 960 < 336 ∧
    timeToPixel (roundDouble (7/10)) 960 2 = 336 ∧
    timeToPixel (roundDouble (7/10)) 960 2
      = truncate (pixelPosition (roundDouble (7/10)) 960 2) :=
  ⟨by decide!, by decide!, by decide!,
    ((timeToPixel_truncates (roundDouble (7/10)) 960 2).2 (by norm_num)
      (Or.inr (by decide)) (by decide!) (by decide!)).1⟩

theorem round_trip_arith {t d w u η a P x b y : ℚ}
    (hd : 0 < d) (ht0 : 0 ≤ t) (htd : t ≤ d) (hw : 1 ≤ w) (hu : 0 ≤ u) (hη : 0 ≤ η)
    (ha1 : a ≤ 1) (ha : |a - t / d| ≤ t / d * u + η)
    (hP : |P - a * w| ≤ a * w * u + η)
    (hx1 : P - 1 < x) (hx2 : x ≤ P) (hx0 : 0 ≤ x) (hxw : x ≤ w)
    (hb1 : b ≤ 1) (hb : |b - x / w| ≤ x / w * u + η)
    (hy : |y - b * d| ≤ b * d * u + η) :
    |y - t| ≤ d / w + d * (4 * u + 3 * η) + η := by
  have hw0 : 0 < w := by linarith
  have hr0 : 0 ≤ t / d := div_nonneg ht0 (le_of_lt hd)
  have hr1 : t / d ≤ 1 := (div_le_one hd).mpr htd
  have hrd : t / d * d = t := div_mul_cancel₀ t (ne_of_gt hd)
  have hc0 : 0 ≤ x / w := div_nonneg hx0 (le_of_lt hw0)
  have hc1 : x / w ≤ 1 := (div_le_one hw0).mpr hxw
  have hv1 : 1 / w ≤ 1 := by rw [div_le_one hw0]; exact hw
  have hv0 : 0 < 1 / w := by positivity
  -- absolute forms of the four rounding errors
  have e1 : |a - t / d| ≤ u + η := by
    have : t / d * u ≤ 1 * u := mul_le_mul_of_nonneg_right hr1 hu
    linarith
  have ha0 : 0 ≤ a * w * u + η := le_trans (abs_nonneg _) hP
  have e2 : |P / w - a| ≤ u + η := by
    have h1 : P / w - a = (P - a * w) / w := by
      rw [sub_div, mul_div_cancel_right₀ _ (ne_of_gt hw0)]
    rw [h1, abs_div, abs_of_pos hw0, div_le_iff₀ hw0]
    have h2 : a * w * u ≤ w * u := by
      have : a * (w * u) ≤ 1 * (w * u) :=
        mul_le_mul_of_nonneg_right ha1 (mul_nonneg (le_of_lt hw0) hu)
      linarith
    have h3 : η ≤ η * w := by nlinarith
    have h4 : (u + η) * w = w * u + η * w := by ring
    linarith
  have e3 : |b - x / w| ≤ u + η := by
    have : x / w * u ≤ 1 * u := mul_le_mul_of_nonneg_right hc1 hu
    linarith
  have e4 : |y - b * d| ≤ d * u + η := by
    have : b * (d * u) ≤ 1 * (d * u) :=
      mul_le_mul_of_nonneg_right hb1 (mul_nonneg (le_of_lt hd) hu)
    linarith
  have hxP1 : x / w ≤ P / w := div_le_div_of_nonneg_right hx2 (le_of_lt hw0)
  have hxP2 : P / w - 1 / w < x / w := by
    have : (P - 1) / w < x / w := div_lt_div_of_pos_right hx1 hw0
    rw [sub_div] at this
    exact this
  obtain ⟨e1l, e1u⟩ := abs_le.mp e1
  obtain ⟨e2l, e2u⟩ := abs_le.mp e2
  obtain ⟨e3l, e3u⟩ := abs_le.mp e3
  obtain ⟨e4l, e4u⟩ := abs_le.mp e4
  have hbu : b - t / d ≤ 3 * (u + η) := by linarith
  have hbl : -(1 / w) - 3 * (u + η) ≤ b - t / d := by linarith
  have hbd : (b - t / d) * d = b * d - t := by rw [sub_mul, hrd]
  have hbdu : b * d - t ≤ 3 * (u + η) * d := by
    have := mul_le_mul_of_nonneg_right hbu (le_of_lt hd)
    rwa [hbd] at this
  have hbdl : (-(1 / w) - 3 * (u + η)) * d ≤ b * d - t := by
    have := mul_le_mul_of_nonneg_right hbl (le_of_lt hd)
    rwa [hbd] at this
  have hdw : 1 / w * d = d / w := by rw [one_div, inv_mul_eq_div]
  have hexp1 : 3 * (u + η) * d = d * (3 * u + 3 * η) := by ring
  have hexp2 : (-(1 / w) - 3 * (u + η)) * d = -(1 / w * d) - d * (3 * u + 3 * η) := by ring
  have hexp3 : d * (4 * u + 3 * η) = d * u + d * (3 * u + 3 * η) := by ring
  rw [hexp1] at hbdu
  rw [hexp2, hdw] at hbdl
  rw [abs_le, hexp3]
  have hdw0 : 0 ≤ d / w := div_nonneg (le_of_lt hd) (le_of_lt hw0)
  constructor
  · linarith
  · linarith

/-- C15 (counterexample): the `double` nearest to 0.6 s in a 3 s recording shown 960 pixels
wide maps to pixel 191 (the position computed in `double` is just below 192), and pixel 191
maps back to a time that is more than one pixel resolution `3 / 960` below it. -/
theorem pixel_round_trip_exceeds_resolution :
    (0 : ℚ) ≤ roundDouble (6/10) ∧ roundDouble (6/10) ≤ 3 ∧
    timeToPixel (roundDouble (6/10)) 960 3 = 191 ∧
    pixelToTime 191 960 3 = Fp.fin (5376172055173529/9007199254740992) ∧
    (3 : ℚ) / 960 < |5376172055173529/9007199254740992 - roundDouble (6/10)| := by
  refine ⟨?_, ?_, ?_, ?_, ?_⟩ <;> decide!

/-- C15 (amended): for every width `w > 0`, finite duration `d > 0` and time `0 <= t <= d`,
`timeToPixel` returns a pixel `x` of `[0, w]`, and `pixelToTime(x, w, d)`, computed as
`(x / w) * d` in `double`, is a finite time that differs from `t` by at most one pixel
resolution `d / w` plus the rounding error of the four `double` operations, at most
`d * 2^-50 + 2^-1074`; and `pixelToTime` is 0 when `w <= 0` or `d <= 0`. -/
theorem pixel_time_round_trip (t : ℚ) (w : Int) (d : ℚ)
    (hw : 0 < w) (hwmax : w ≤ INT_MAX) (hd : 0 < d) (hdfin : roundDouble d < 2 ^ 1024)
    (ht0 : 0 ≤ t) (htd : t ≤ d) :
    (0 ≤ timeToPixel t w d ∧ timeToPixel t w d ≤ w ∧
      ∃ y, pixelToTime (timeToPixel t w d) w d = Fp.fin y ∧
        y = roundDouble (roundDouble ((timeToPixel t w d : ℚ) / (w : ℚ)) * d) ∧
        |y - t| ≤ d / (w : ℚ) + d * (2 : ℚ) ^ (-50 : Int) + (2 : ℚ) ^ (-1074 : Int)) ∧
    (∀ (y w' : Int) (d' : ℚ), w' ≤ 0 ∨ d' ≤ 0 → pixelToTime y w' d' = Fp.fin 0) := by
  have hwq : (1 : ℚ) ≤ (w : ℚ) := by exact_mod_cast hw
  have hwq0 : (0 : ℚ) < (w : ℚ) := by linarith
  have hbig : (1 : ℚ) < 2 ^ 1024 := by norm_num
  have hr0 : 0 ≤ t / d := div_nonneg ht0 (le_of_lt hd)
  have hr1 : t / d ≤ 1 := (div_le_one hd).mpr htd
  -- the quotient
  have ha0 : 0 ≤ roundDouble (t / d) := roundDouble_nonneg hr0
  have ha1 : roundDouble (t / d) ≤ 1 := by
    have := roundDouble_mono hr1
    rwa [roundDouble_one] at this
  have hae := roundDouble_rel_error (t / d)
  rw [abs_of_nonneg hr0] at hae
  -- the pixel position
  have hw53 : |w| < 2 ^ 53 := by
    simp only [INT_MAX] at hwmax
    rw [abs_of_pos hw]
    omega
  have hP0 : 0 ≤ pixelPosition t w d :=
    roundDouble_nonneg (mul_nonneg ha0 (le_of_lt hwq0))
  have hPw : pixelPosition t w d ≤ (w : ℚ) := by
    have h1 : roundDouble (t / d) * (w : ℚ) ≤ (w : ℚ) := by nlinarith
    have h2 := roundDouble_mono h1
    rwa [roundDouble_intCast w hw53] at h2
  have hPe : |pixelPosition t w d - roundDouble (t / d) * w|
      ≤ roundDouble (t / d) * w * (2 : ℚ) ^ (-53 : Int) + (2 : ℚ) ^ (-1075 : Int) := by
    have := roundDouble_rel_error (roundDouble (t / d) * w)
    rwa [abs_of_nonneg (mul_nonneg ha0 (le_of_lt hwq0))] at this
  have hwmaxq : (w : ℚ) ≤ (INT_MAX : ℚ) := by exact_mod_cast hwmax
  have hminq : (INT_MIN : ℚ) - 1 < 0 := by norm_num [INT_MIN]
  have hpix : timeToPixel t w d = ⌊pixelPosition t w d⌋ := by
    rw [timeToPixel_eq t w hd (Or.inr (by omega)),
      toInt_fin_of_range (lt_of_lt_of_le hminq hP0) (by linarith), truncate_of_nonneg hP0]
  have hx0 : 0 ≤ ⌊pixelPosition t w d⌋ := Int.floor_nonneg.mpr hP0
  have hxw : ⌊pixelPosition t w d⌋ ≤ w := by
    have h1 : ⌊pixelPosition t w d⌋ < w + 1 := Int.floor_lt.mpr (by push_cast; linarith)
    omega
  have hxle : ((⌊pixelPosition t w d⌋ : Int) : ℚ) ≤ pixelPosition t w d := Int.floor_le _
  have hxlt : pixelPosition t w d - 1 < ((⌊pixelPosition t w d⌋ : Int) : ℚ) := by
    have := Int.lt_floor_add_one (pixelPosition t w d)
    linarith
  have hx0q : (0 : ℚ) ≤ ((⌊pixelPosition t w d⌋ : Int) : ℚ) := by exact_mod_cast hx0
  have hxwq : ((⌊pixelPosition t w d⌋ : Int) : ℚ) ≤ (w : ℚ) := by exact_mod_cast hxw
  -- the way back
  have hc0 : 0 ≤ ((⌊pixelPosition t w d⌋ : Int) : ℚ) / (w : ℚ) := div_nonneg hx0q (le_of_lt hwq0)
  have hc1 : ((⌊pixelPosition t w d⌋ : Int) : ℚ) / (w : ℚ) ≤ 1 := (div_le_one hwq0).mpr hxwq
  have hb0 : 0 ≤ roundDouble (((⌊pixelPosition t w d⌋ : Int) : ℚ) / (w : ℚ)) :=
    roundDouble_nonneg hc0
  have hb1 : roundDouble (((⌊pixelPosition t w d⌋ : Int) : ℚ) / (w : ℚ)) ≤ 1 := by
    have := roundDouble_mono hc1
    rwa [roundDouble_one] at this
  have hbe := roundDouble_rel_error (((⌊pixelPosition t w d⌋ : Int) : ℚ) / (w : ℚ))
  rw [abs_of_nonneg hc0] at hbe
  have hbd0 : 0 ≤ roundDouble (((⌊pixelPosition t w d⌋ : Int) : ℚ) / (w : ℚ)) * d :=
    mul_nonneg hb0 (le_of_lt hd)
  have hy0 : 0 ≤ roundDouble (roundDouble (((⌊pixelPosition t w d⌋ : Int) : ℚ) / (w : ℚ)) * d) :=
    roundDouble_nonneg hbd0
  have hyd : roundDouble (roundDouble (((⌊pixelPosition t w d⌋ : Int) : ℚ) / (w : ℚ)) * d)
      < 2 ^ 1024 := by
    have h1 : roundDouble (((⌊pixelPosition t w d⌋ : Int) : ℚ) / (w : ℚ)) * d ≤ d := by nlinarith
    exact lt_of_le_of_lt (roundDouble_mono h1) hdfin
  have hye := roundDouble_rel_error
    (roundDouble (((⌊pixelPosition t w d⌋ : Int) : ℚ) / (w : ℚ)) * d)
  rw [abs_of_nonneg hbd0] at hye
  have hback : pixelToTime ⌊pixelPosition t w d⌋ w d
      = Fp.fin (roundDouble (roundDouble (((⌊pixelPosition t w d⌋ : Int) : ℚ) / (w : ℚ)) * d)) :=
    pixelToTime_eq _ hw hd (by rw [abs_of_nonneg hb0]; linarith)
      (by rw [abs_of_nonneg hy0]; exact hyd)
  have hu0 : (0 : ℚ) ≤ (2 : ℚ) ^ (-53 : Int) := le_of_lt (zpow_pos (by norm_num) _)
  have hη0 : (0 : ℚ) ≤ (2 : ℚ) ^ (-1075 : Int) := le_of_lt (zpow_pos (by norm_num) _)
  have hmain := round_trip_arith hd ht0 htd hwq hu0 hη0 ha1 hae hPe hxlt hxle hx0q hxwq
    hb1 hbe hye
  have hconst : 4 * (2 : ℚ) ^ (-53 : Int) + 3 * (2 : ℚ) ^ (-1075 : Int) ≤ (2 : ℚ) ^ (-50 : Int) := by
    have h1 : (2 : ℚ) ^ (-1075 : Int) ≤ (2 : ℚ) ^ (-53 : Int) :=
      (zpow_le_zpow_iff_right₀ (by norm_num : (1 : ℚ) < 2)).mpr (by norm_num)
    have h2 : (2 : ℚ) ^ (-50 : Int) = 8 * (2 : ℚ) ^ (-53 : Int) := by
      rw [show (-50 : Int) = 3 + (-53) from rfl, zpow_add₀ (by norm_num : (2 : ℚ) ≠ 0)]
      norm_num
    linarith
  have hconst2 : (2 : ℚ) ^ (-1075 : Int) ≤ (2 : ℚ) ^ (-1074 : Int) :=
    (zpow_le_zpow_iff_right₀ (by norm_num : (1 : ℚ) < 2)).mpr (by norm_num)
  refine ⟨⟨by rw [hpix]; exact hx0, by rw [hpix]; exact hxw, _, by rw [hpix]; exact hback,
    by rw [hpix], ?_⟩, ?_⟩
  · have := mul_le_mul_of_nonneg_left hconst (le_of_lt hd)
    linarith
  · intro y w' d' h
    simp [pixelToTime, h]

/-- C15 (witness): the `double` nearest to 0.7 s in a 2 s recording shown 960 pixels wide
maps to pixel 336 and back to the `double` nearest to 0.7 s. -/
theorem pixel_time_round_trip_witness :
    timeToPixel (roundDouble (7/10)) 960 2 = 336 ∧
    pixelToTime 336 960 2 = Fp.fin (roundDouble (7/10)) ∧
    0 ≤ timeToPixel (roundDouble (7/10)) 960 2 ∧ timeToPixel (roundDouble (7/10)) 960 2 ≤ 960 ∧
    ∃ y, pixelToTime (timeToPixel (roundDouble (7/10)) 960 2) 960 2 = Fp.fin y ∧
      y = roundDouble (roundDouble
        ((timeToPixel (roundDouble (7/10)) 960 2 : ℚ) / ((960 : Int) : ℚ)) * 2) ∧
      |y - roundDouble (7/10)|
        ≤ 2 / ((960 : Int) : ℚ) + 2 * (2 : ℚ) ^ (-50 : Int) + (2 : ℚ) ^ (-1074 : Int) :=
  ⟨by decide!, by decide!,
    (pixel_time_round_trip (roundDouble (7/10)) 960 2 (by decide) (by decide) (by norm_num)
      (by decide!) (by decide!) (by decide!)).1⟩
theorem sizeDivInt_of_pos (a : Nat) {c : Int} (h0 : 0 < c) (h1 : c ≤ INT_MAX) :
    sizeDivInt a c = some (a / c.toNat) := by
  have hc : sizeOfInt c = c.toNat := sizeOfInt_of_range (le_of_lt h0) h1
  have hne : c.toNat ≠ 0 := by omega
  simp [sizeDivInt, hc, hne]

theorem play_of_defined (p : AudioPlayer) (pa : PortAudio) (data : List Fp)
    (sampleRate channels : Int) (startPosition : ℚ) (a T : Nat) (hne : data ≠ [])
    (ha : toSizeT (doubleMul (.fin startPosition) (.fin (sampleRate : ℚ))) = some a)
    (hT : sizeDivInt data.length channels = some T)
    (hdev : pa.deviceAvailable = true) (hopen : pa.openOk = true)
    (hstart : pa.startOk = true) :
    p.play pa data sampleRate channels startPosition
      = some (true, { p.stop with
          audioData := data, currentSampleRate := sampleRate, currentChannels := channels,
          currentFrame := min a T, playing := true, paused := false, stream := true,
          positionUpdateThread := true }) := by
  have he : data.isEmpty = false := by
    cases data with
    | nil => exact absurd rfl hne
    | cons x xs => rfl
  simp [AudioPlayer.play, he, ha, hT, hdev, hopen, hstart]

theorem play_eq_some_true {p q : AudioPlayer} {pa : PortAudio} {data : List Fp}
    {sampleRate channels : Int} {startPosition : ℚ}
    (h : p.play pa data sampleRate channels startPosition = some (true, q)) :
    ∃ a T, toSizeT (doubleMul (.fin startPosition) (.fin (sampleRate : ℚ))) = some a ∧
      sizeDivInt data.length channels = some T ∧
      q = { p.stop with
          audioData := data, currentSampleRate := sampleRate, currentChannels := channels,
          currentFrame := min a T, playing := true, paused := false, stream := true,
          positionUpdateThread := true } := by
  unfold AudioPlayer.play at h
  by_cases he : data.isEmpty = true
  · simp [he] at h
  · cases ha : toSizeT (doubleMul (.fin startPosition) (.fin (sampleRate : ℚ))) with
    | none => simp [he, ha] at h
    | some a =>
      cases hT : sizeDivInt data.length channels with
      | none => simp [he, ha, hT] at h
      | some T =>
        refine ⟨a, T, rfl, rfl, ?_⟩
        cases hdev : pa.deviceAvailable <;> cases hopen : pa.openOk <;>
          cases hstart : pa.startOk <;>
          simp [he, ha, hT, hdev, hopen, hstart] at h
        exact h.symm

theorem playCallback_of_playing (p : AudioPlayer) (output : List Fp) (n : Nat)
    (hplay : p.playing = true) (hpause : p.paused = false)
    (hch : 0 < p.currentChannels) (hchmax : p.currentChannels ≤ INT_MAX)
    (hsize : p.audioData.length ≤ SIZE_MAX)
    (hc : p.currentFrame ≤ p.audioData.length / p.currentChannels.toNat)
    (hout : output.length = n * p.currentChannels.toNat)
    (houtmax : output.length ≤ SIZE_MAX) :
    p.playCallback output n =
      some (if min n (p.audioData.length / p.currentChannels.toNat - p.currentFrame) = 0 then
          (PaStreamCallbackResult.paComplete, output, { p with playing := false })
        else
          (PaStreamCallbackResult.paContinue,
            (p.audioData.drop (p.currentFrame * p.currentChannels.toNat)).take
                (min n (p.audioData.length / p.currentChannels.toNat - p.currentFrame)
                  * p.currentChannels.toNat)
              ++ List.replicate
                ((n - min n (p.audioData.length / p.currentChannels.toNat - p.currentFrame))
                  * p.currentChannels.toNat) (Fp.fin 0),
            { p with currentFrame := p.currentFrame
                + min n (p.audioData.length / p.currentChannels.toNat - p.currentFrame) })) := by
  have hK : sizeOfInt p.currentChannels = p.currentChannels.toNat :=
    sizeOfInt_of_range (le_of_lt hch) hchmax
  generalize hKdef : p.currentChannels.toNat = K at *
  generalize hTdef : p.audioData.length / K = T at *
  generalize hcdef : p.currentFrame = c at *
  have hK1 : 1 ≤ K := by omega
  have hTK : T * K ≤ p.audioData.length := by
    rw [← hTdef]; exact Nat.div_mul_le_self _ _
  have hM : SIZE_MAX + 1 = 2 ^ 64 := by decide
  have hS : SIZE_MAX = 2 ^ 64 - 1 := rfl
  have hTle : T ≤ p.audioData.length := by
    calc T = T * 1 := (Nat.mul_one T).symm
      _ ≤ T * K := Nat.mul_le_mul_left T hK1
      _ ≤ p.audioData.length := hTK
  have havail : (T + (SIZE_MAX + 1) - c) % (SIZE_MAX + 1) = T - c := by
    rw [hM]; rw [hS] at hsize; omega
  generalize hfdef : min n (T - c) = f at *
  have hfn : f ≤ n := by omega
  have hcf : c + f ≤ T := by omega
  have hfK : f * K ≤ n * K := Nat.mul_le_mul_right K hfn
  have hcfK : c * K + f * K ≤ p.audioData.length := by
    calc c * K + f * K = (c + f) * K := (Nat.add_mul c f K).symm
      _ ≤ T * K := Nat.mul_le_mul_right K hcf
      _ ≤ p.audioData.length := hTK
  have hmod1 : (f * K) % (SIZE_MAX + 1) = f * K :=
    Nat.mod_eq_of_lt (by rw [hM]; rw [hS] at hsize; omega)
  have hmod2 : (c * K) % (SIZE_MAX + 1) = c * K :=
    Nat.mod_eq_of_lt (by rw [hM]; rw [hS] at hsize; omega)
  have hmod3 : (n * K) % (SIZE_MAX + 1) = n * K :=
    Nat.mod_eq_of_lt (by rw [hM]; rw [hS] at houtmax; omega)
  have hmod4 : (c + f) % (SIZE_MAX + 1) = c + f :=
    Nat.mod_eq_of_lt (by rw [hM]; rw [hS] at hsize; omega)
  have hT : sizeDivInt p.audioData.length p.currentChannels = some T := by
    rw [sizeDivInt_of_pos _ hch hchmax, hKdef, hTdef]
  have hcopylen : ((p.audioData.drop (c * K)).take (f * K)).length = f * K := by
    rw [List.length_take, List.length_drop]; omega
  unfold AudioPlayer.playCallback
  simp only [hplay, hpause, hT, hK, hKdef, hcdef, havail, hfdef, hmod1, hmod2, hmod3, hmod4,
    Bool.not_true, Bool.or_self, Bool.false_eq_true, if_false, Option.bind_eq_bind,
    Option.some_bind]
  by_cases hf0 : f = 0
  · simp [hf0]
  · have hcopy : copyToOutput p.audioData (c * K) (f * K) output
        = some ((p.audioData.drop (c * K)).take (f * K) ++ output.drop (f * K)) := by
      rw [copyToOutput, if_pos ⟨hcfK, by omega⟩]
    simp only [hf0, if_false, hcopy, Option.some_bind]
    by_cases hlt : f < n
    · have hfill : fillZero ((p.audioData.drop (c * K)).take (f * K) ++ output.drop (f * K))
          (f * K) (n * K)
          = some ((p.audioData.drop (c * K)).take (f * K)
              ++ List.replicate ((n - f) * K) (Fp.fin 0)) := by
        have hlen1 : ((p.audioData.drop (c * K)).take (f * K)
            ++ output.drop (f * K)).length = n * K := by
          rw [List.length_append, hcopylen, List.length_drop]; omega
        have hnil : ((p.audioData.drop (c * K)).take (f * K)
            ++ output.drop (f * K)).drop (n * K) = [] :=
          List.drop_eq_nil_of_le (by rw [hlen1])
        rw [fillZero, if_pos ⟨hfK, by rw [hlen1]⟩, List.take_left' hcopylen, hnil,
          List.append_nil, Nat.sub_mul]
      simp only [hlt, if_true, hfill, Option.some_bind]
    · have hfeq : f = n := by omega
      subst hfeq
      have hdrop : output.drop (f * K) = [] := List.drop_eq_nil_of_le (by omega)
      simp [hdrop]

theorem callbackOutput_length (data : List Fp) (c f n K : Nat) (hfn : f ≤ n)
    (hcf : c * K + f * K ≤ data.length) :
    ((data.drop (c * K)).take (f * K) ++ List.replicate ((n - f) * K) (Fp.fin 0)).length
      = n * K := by
  have hfK : f * K ≤ n * K := Nat.mul_le_mul_right K hfn
  rw [List.length_append, List.length_take, List.length_drop, List.length_replicate,
    Nat.sub_mul]
  omega

theorem callbackOutput_data (data : List Fp) (c f n K k : Nat)
    (hcf : c * K + f * K ≤ data.length) (hk : k < f * K) :
    ((data.drop (c * K)).take (f * K) ++ List.replicate ((n - f) * K) (Fp.fin 0))[k]?
      = data[c * K + k]? := by
  have hlen : ((data.drop (c * K)).take (f * K)).length = f * K := by
    rw [List.length_take, List.length_drop]; omega
  rw [List.getElem?_append_left (by omega), List.getElem?_take_of_lt hk, List.getElem?_drop]

theorem callbackOutput_zero (data : List Fp) (c f n K k : Nat)
    (hcf : c * K + f * K ≤ data.length) (hk0 : f * K ≤ k) (hk1 : k < n * K) :
    ((data.drop (c * K)).take (f * K) ++ List.replicate ((n - f) * K) (Fp.fin 0))[k]?
      = some (Fp.fin 0) := by
  have hlen : ((data.drop (c * K)).take (f * K)).length = f * K := by
    rw [List.length_take, List.length_drop]; omega
  have hsub : k - f * K < (n - f) * K := by
    rw [Nat.sub_mul]; omega
  rw [List.getElem?_append_right (by omega), hlen, List.getElem?_replicate, if_pos hsub]

theorem specStartFrame_eq (T : Nat) (sampleRate : Int) (startPosition : ℚ)
    (hsr : 0 < sampleRate) (hlo : -1 < startPosition * sampleRate) :
    specStartFrame T sampleRate startPosition
      = ((min (truncate (startPosition * sampleRate)).toNat T : Nat) : Int) := by
  have hsrq : (0 : ℚ) < (sampleRate : ℚ) := by exact_mod_cast hsr
  have hdur : ((T : ℚ) / (sampleRate : ℚ)) * (sampleRate : ℚ) = (T : ℚ) := by
    field_simp
  have hdur0 : (0 : ℚ) ≤ (T : ℚ) / (sampleRate : ℚ) :=
    div_nonneg (Nat.cast_nonneg T) (le_of_lt hsrq)
  rw [truncate_eq_max_floor hlo]
  unfold specStartFrame
  simp only
  by_cases hneg : startPosition < 0
  · have hcl : max 0 (min startPosition ((T : ℚ) / (sampleRate : ℚ))) = 0 :=
      max_eq_left (le_trans (min_le_left _ _) (le_of_lt hneg))
    have hfl : ⌊startPosition * (sampleRate : ℚ)⌋ < 0 :=
      Int.floor_lt.mpr (by push_cast; exact mul_neg_of_neg_of_pos hneg hsrq)
    rw [hcl, zero_mul, Int.floor_zero]
    omega
  · have hsp0 : 0 ≤ startPosition := not_lt.mp hneg
    by_cases hin : startPosition ≤ (T : ℚ) / (sampleRate : ℚ)
    · have hcl : max 0 (min startPosition ((T : ℚ) / (sampleRate : ℚ))) = startPosition := by
        rw [min_eq_left hin, max_eq_right hsp0]
      have hfl : 0 ≤ ⌊startPosition * (sampleRate : ℚ)⌋ :=
        Int.floor_nonneg.mpr (mul_nonneg hsp0 (le_of_lt hsrq))
      rw [hcl]
      omega
    · have hgt : (T : ℚ) / (sampleRate : ℚ) < startPosition := not_le.mp hin
      have hcl : max 0 (min startPosition ((T : ℚ) / (sampleRate : ℚ)))
          = (T : ℚ) / (sampleRate : ℚ) := by
        rw [min_eq_right (le_of_lt hgt), max_eq_right hdur0]
      have hprod : (T : ℚ) < startPosition * (sampleRate : ℚ) := by
        rw [← hdur]
        exact mul_lt_mul_of_pos_right hgt hsrq
      have hfl : (T : Int) ≤ ⌊startPosition * (sampleRate : ℚ)⌋ :=
        Int.le_floor.mpr (by push_cast; exact le_of_lt hprod)
      have hT : ⌊((T : Int) : ℚ)⌋ = (T : Int) := Int.floor_intCast _
      rw [hcl, hdur]
      push_cast at hT
      rw [hT]
      omega


theorem toSizeT_startFrame (startPosition : ℚ) (sampleRate : Int) :
    toSizeT (doubleMul (.fin startPosition) (.fin (sampleRate : ℚ)))
      = toSizeT (.fin (roundDouble (startPosition * sampleRate))) :=
  toSizeT_toDouble _

theorem toSizeT_fin_defined {x : ℚ} (hhi : x < 2 ^ 64) :
    ∃ a, toSizeT (.fin x) = some a ∧ (-1 < x → a = (truncate x).toNat) ∧
      (x ≤ -1 → 2 ^ 63 ≤ a) := by
  by_cases hlo : -1 < x
  · exact ⟨_, toSizeT_fin_of_range hlo hhi, fun _ => rfl, fun h => absurd hlo (not_lt.mpr h)⟩
  · obtain ⟨k, hk, hk2⟩ := toSizeT_fin_of_le_neg_one (not_lt.mp hlo)
    exact ⟨k, hk, fun h => absurd h hlo, fun _ => hk2⟩

/-- C16 (counterexample): `play` on 4 mono samples at 2 Hz from `startPosition = -1`: the
product -2.0 converts to `2 ^ 64 - 2` and is clamped from above, so the play succeeds with the
cursor at frame 4, the end of the buffer, where the specification clamps the position to 0
and starts at frame 0. And on 5 mono samples at 10 Hz from the `double` nearest to 0.3 the
`double` product is 3.0 and the cursor is 3, where the floor of the exact product is 2;
likewise at 44100 Hz from the time of pixel 272 of 960 in a 3 s recording the converted start
frame is 37485, where the floor of the exact product is 37484. -/
theorem play_negative_start_at_end :
    (AudioPlayer.init.play ⟨true, true, true⟩ [Fp.fin 0, Fp.fin 1, Fp.fin 2, Fp.fin 3] 2 1
        (-1)).map (fun r => (r.1, r.2.currentFrame)) = some (true, 4) ∧
    specStartFrame 4 2 (-1) = 0 ∧
    (AudioPlayer.init.play ⟨true, true, true⟩
        [Fp.fin 0, Fp.fin 1, Fp.fin 2, Fp.fin 3, Fp.fin 4] 10 1
        (roundDouble (3/10))).map (fun r => (r.1, r.2.currentFrame)) = some (true, 3) ∧
    specStartFrame 5 10 (roundDouble (3/10)) = 2 ∧
    pixelToTime 272 960 3 = Fp.fin (roundDouble (roundDouble (272/960) * 3)) ∧
    toSizeT (doubleMul (.fin (roundDouble (roundDouble (272/960) * 3))) (.fin 44100))
      = some 37485 ∧
    ⌊roundDouble (roundDouble (272/960) * 3) * 44100⌋ = 37484 := by
  refine ⟨?_, ?_, ?_, ?_, ?_, ?_, ?_⟩ <;> decide!

/-- C16 (amended): for every non-empty buffer, positive sampleRate and channels and every
`startPosition` whose `double` product with `sampleRate` is below 2^64 (so also beyond the
duration), a play that finds a device and opens and starts the stream returns true with the
cursor at most the total frame count: for `startPosition >= 0` it is the floor of the `double`
product `startPosition * sampleRate`, clamped to the total frame count, which is
`floor(clamp(startPosition, 0, duration) * sampleRate)` clamped to the total frame count
when the product is exact; when the product is -1 or less (a negative start position) the
cursor is the total frame count, not 0: the conversion wraps and there is no clamp from
below. -/
theorem play_start_cursor (p : AudioPlayer) (pa : PortAudio) (data : List Fp)
    (sampleRate channels : Int) (startPosition : ℚ) (hne : data ≠ [])
    (hsize : data.length ≤ VECTOR_MAX)
    (hsr : 0 < sampleRate) (hch : 0 < channels) (hchmax : channels ≤ INT_MAX)
    (hhi : roundDouble (startPosition * sampleRate) < 2 ^ 64)
    (hdev : pa.deviceAvailable = true) (hopen : pa.openOk = true)
    (hstart : pa.startOk = true) :
    ∃ q, p.play pa data sampleRate channels startPosition = some (true, q) ∧
      (0 ≤ startPosition →
        (q.currentFrame : Int) = min ⌊roundDouble (startPosition * sampleRate)⌋
          ((data.length / channels.toNat : Nat) : Int)) ∧
      (0 ≤ startPosition →
        roundDouble (startPosition * sampleRate) = startPosition * sampleRate →
        (q.currentFrame : Int)
          = specStartFrame (data.length / channels.toNat) sampleRate startPosition) ∧
      (-1 < roundDouble (startPosition * sampleRate) →
        q.currentFrame = min (truncate (roundDouble (startPosition * sampleRate))).toNat
          (data.length / channels.toNat)) ∧
      (roundDouble (startPosition * sampleRate) ≤ -1 →
        q.currentFrame = data.length / channels.toNat) ∧
      q.currentFrame ≤ data.length / channels.toNat ∧
      q.playing = true ∧ q.paused = false ∧ q.audioData = data := by
  obtain ⟨a, ha, ha1, ha2⟩ := toSizeT_fin_defined hhi
  have hsrq : (0 : ℚ) ≤ (sampleRate : ℚ) := by exact_mod_cast le_of_lt hsr
  refine ⟨_, play_of_defined p pa data sampleRate channels startPosition a _ hne
    (by rw [toSizeT_startFrame]; exact ha) (sizeDivInt_of_pos _ hch hchmax) hdev hopen hstart,
    ?_, ?_, ?_, ?_, Nat.min_le_right _ _, rfl, rfl, rfl⟩
  · intro h0
    have hR : 0 ≤ roundDouble (startPosition * sampleRate) :=
      roundDouble_nonneg (mul_nonneg h0 hsrq)
    have hfl : 0 ≤ ⌊roundDouble (startPosition * sampleRate)⌋ := Int.floor_nonneg.mpr hR
    have := ha1 (lt_of_lt_of_le (by norm_num) hR)
    rw [truncate_of_nonneg hR] at this
    show ((min a (data.length / channels.toNat) : Nat) : Int) = _
    omega
  · intro h0 hexact
    have hR : 0 ≤ startPosition * sampleRate := mul_nonneg h0 hsrq
    have := ha1 (by rw [hexact]; exact lt_of_lt_of_le (by norm_num) hR)
    rw [hexact] at this
    rw [specStartFrame_eq _ _ _ hsr (lt_of_lt_of_le (by norm_num) hR), ← this]
  · intro hlo
    show min a (data.length / channels.toNat) = _
    rw [ha1 hlo]
  · intro hneg
    have hk := ha2 hneg
    have hT : data.length / channels.toNat ≤ data.length := Nat.div_le_self _ _
    show min a (data.length / channels.toNat) = _
    simp only [VECTOR_MAX] at hsize
    omega

/-- C16 (witness): `startPosition = 0.5` on a 44100-frame mono buffer at 44100 Hz gives the
cursor 22050. -/
theorem play_start_cursor_witness :
    roundDouble ((1/2 : ℚ) * ((44100 : Int) : ℚ)) < 2 ^ 64 ∧
    ∃ q, AudioPlayer.init.play ⟨true, true, true⟩ (List.replicate 44100 (Fp.fin 0))
        44100 1 (1/2) = some (true, q) ∧ q.currentFrame = 22050 := by
  have hlen : (List.replicate 44100 (Fp.fin 0)).length = 44100 := List.length_replicate _ _
  have hne : List.replicate 44100 (Fp.fin 0) ≠ [] := by
    intro h
    rw [h] at hlen
    exact absurd hlen (by decide)
  have hhi : roundDouble ((1/2 : ℚ) * ((44100 : Int) : ℚ)) < 2 ^ 64 := by decide!
  obtain ⟨q, hq, hcur, -, -, -, -, -, -, -⟩ :=
    play_start_cursor AudioPlayer.init ⟨true, true, true⟩ (List.replicate 44100 (Fp.fin 0))
      44100 1 (1/2) hne (by rw [hlen]; decide) (by decide) (by decide) (by decide) hhi
      rfl rfl rfl
  rw [hlen] at hcur
  have hval : min ⌊roundDouble ((1/2 : ℚ) * ((44100 : Int) : ℚ))⌋
      (((44100 / (1 : Int).toNat : Nat)) : Int) = 22050 := by decide!
  have hcur2 := hcur (by norm_num)
  rw [hval] at hcur2
  exact ⟨hhi, q, hq, by exact_mod_cast hcur2⟩

/-- C17 (counterexample): a playing session on 4 mono samples with the cursor at frame 1
receives a request of 0 frames: `framesToWrite` is 0, the callback sets `playing` to false
and returns `paComplete` instead of `paContinue`. -/
theorem playCallback_zero_request_completes :
    (AudioPlayer.sessionAt [Fp.fin 0, Fp.fin 1, Fp.fin 2, Fp.fin 3] 2 1 1).playCallback [] 0
      = some (PaStreamCallbackResult.paComplete, [],
          { AudioPlayer.sessionAt [Fp.fin 0, Fp.fin 1, Fp.fin 2, Fp.fin 3] 2 1 1 with
            playing := false }) := by
  decide!

/-- C17 (amended): for every playing, non-paused session with positive channels and cursor
`c < totalFrames` and every request of `n >= 1` frames on an output block of `n * channels`
samples, the callback returns `paContinue`; with `framesToWrite = min(n, totalFrames - c)`
the first `framesToWrite * channels` output samples are the buffer's samples from offset
`c * channels`, the cursor becomes `c + framesToWrite`, and the buffer and the other fields
are unchanged. -/
theorem playCallback_writes_frames (p : AudioPlayer) (output : List Fp) (n : Nat)
    (hplay : p.playing = true) (hpause : p.paused = false)
    (hch : 0 < p.currentChannels) (hchmax : p.currentChannels ≤ INT_MAX)
    (hsize : p.audioData.length ≤ SIZE_MAX)
    (hc : p.currentFrame < p.audioData.length / p.currentChannels.toNat) (hn : 0 < n)
    (hout : output.length = n * p.currentChannels.toNat)
    (houtmax : output.length ≤ SIZE_MAX) :
    ∃ out q, p.playCallback output n = some (PaStreamCallbackResult.paContinue, out, q) ∧
      out.length = output.length ∧
      (∀ k, k < min n (p.audioData.length / p.currentChannels.toNat - p.currentFrame)
            * p.currentChannels.toNat →
        out[k]? = p.audioData[p.currentFrame * p.currentChannels.toNat + k]? ∧
        p.currentFrame * p.currentChannels.toNat + k < p.audioData.length) ∧
      q.currentFrame = p.currentFrame
        + min n (p.audioData.length / p.currentChannels.toNat - p.currentFrame) ∧
      q.audioData = p.audioData ∧
      q = { p with currentFrame := q.currentFrame } := by
  have hres := playCallback_of_playing p output n hplay hpause hch hchmax hsize
    (le_of_lt hc) hout houtmax
  have hf0 : ¬ min n (p.audioData.length / p.currentChannels.toNat - p.currentFrame) = 0 := by
    omega
  rw [if_neg hf0] at hres
  have hTK : p.audioData.length / p.currentChannels.toNat * p.currentChannels.toNat
      ≤ p.audioData.length := Nat.div_mul_le_self _ _
  have hcf : p.currentFrame * p.currentChannels.toNat
      + min n (p.audioData.length / p.currentChannels.toNat - p.currentFrame)
        * p.currentChannels.toNat ≤ p.audioData.length := by
    calc p.currentFrame * p.currentChannels.toNat
          + min n (p.audioData.length / p.currentChannels.toNat - p.currentFrame)
            * p.currentChannels.toNat
        = (p.currentFrame
            + min n (p.audioData.length / p.currentChannels.toNat - p.currentFrame))
            * p.currentChannels.toNat := (Nat.add_mul _ _ _).symm
      _ ≤ p.audioData.length / p.currentChannels.toNat * p.currentChannels.toNat :=
          Nat.mul_le_mul_right _ (by omega)
      _ ≤ p.audioData.length := hTK
  refine ⟨_, _, hres, ?_, ?_, rfl, rfl, rfl⟩
  · rw [callbackOutput_length _ _ _ _ _ (Nat.min_le_left _ _) hcf, hout]
  · intro k hk
    exact ⟨callbackOutput_data _ _ _ _ _ _ hcf hk, by omega⟩

theorem sessionAt_audioData (data : List Fp) (sampleRate channels : Int) (cursor : Nat) :
    (AudioPlayer.sessionAt data sampleRate channels cursor).audioData = data := rfl

theorem rampBuffer_length (n : Nat) : (rampBuffer n).length = n := by
  rw [rampBuffer, List.length_map, List.length_range]

theorem rampBuffer_getElem? {n k : Nat} (hk : k < n) :
    (rampBuffer n)[k]? = some (Fp.fin (k : ℚ)) := by
  rw [rampBuffer, List.getElem?_map, List.getElem?_range hk]
  rfl

/-- C17 (witness): on 44100 mono frames numbered from 0, with the cursor at 22050, a request
of 1024 frames yields the frames 22050 to 23073 and moves the cursor to 23074. -/
theorem playCallback_writes_frames_witness :
    ∃ out q,
      (AudioPlayer.sessionAt (rampBuffer 44100) 44100 1
          22050).playCallback (List.replicate 1024 Fp.nan) 1024
        = some (PaStreamCallbackResult.paContinue, out, q) ∧
      out.length = 1024 ∧ out[0]? = some (Fp.fin 22050) ∧ out[1023]? = some (Fp.fin 23073) ∧
      q.currentFrame = 23074 := by
  have hlen : (AudioPlayer.sessionAt (rampBuffer 44100) 44100 1
      22050).audioData.length = 44100 := by
    rw [sessionAt_audioData, rampBuffer_length]
  have hK : (AudioPlayer.sessionAt (rampBuffer 44100) 44100 1
      22050).currentChannels.toNat = 1 := rfl
  have hcur : (AudioPlayer.sessionAt (rampBuffer 44100) 44100 1
      22050).currentFrame = 22050 := rfl
  have hdata : ∀ k : Nat, k < 44100 →
      (AudioPlayer.sessionAt (rampBuffer 44100) 44100 1
        22050).audioData[k]? = some (Fp.fin (k : ℚ)) := by
    intro k hk
    rw [sessionAt_audioData]
    exact rampBuffer_getElem? hk
  obtain ⟨out, q, hres, hol, hget, hq, -, -⟩ :=
    playCallback_writes_frames
      (AudioPlayer.sessionAt (rampBuffer 44100) 44100 1 22050)
      (List.replicate 1024 Fp.nan) 1024 rfl rfl (by decide) (by decide)
      (by rw [hlen]; decide) (by rw [hlen, hK]; decide) (by decide)
      (by rw [List.length_replicate, hK]) (by rw [List.length_replicate]; decide)
  rw [hlen, hK, hcur] at hget hq
  refine ⟨out, q, hres, ?_, ?_, ?_, ?_⟩
  · rw [hol, List.length_replicate]
  · have h0 := (hget 0 (by decide)).1
    rw [h0, hdata _ (by decide)]
    norm_num
  · have h1 := (hget 1023 (by decide)).1
    rw [h1, hdata _ (by decide)]
    norm_num
  · rw [hq]
    decide

/-- C18: for every playing session (`isPlaying`) with positive channels in which fewer than
`n` frames remain (`0 < totalFrames - cursor < n`), the callback on an output block of
`n * channels` samples returns `paContinue` and an output block of `n * channels` samples
that starts with the remaining `(totalFrames - cursor) * channels` buffer samples and holds
`0.0` at every offset from there up to `n * channels`, whatever the block held before. -/
theorem playCallback_zero_fills (p : AudioPlayer) (output : List Fp) (n : Nat)
    (hplaying : p.isPlaying = true)
    (hch : 0 < p.currentChannels) (hchmax : p.currentChannels ≤ INT_MAX)
    (hsize : p.audioData.length ≤ SIZE_MAX)
    (hrem : 0 < p.audioData.length / p.currentChannels.toNat - p.currentFrame)
    (hlt : p.audioData.length / p.currentChannels.toNat - p.currentFrame < n)
    (hout : output.length = n * p.currentChannels.toNat)
    (houtmax : output.length ≤ SIZE_MAX) :
    ∃ out q, p.playCallback output n = some (PaStreamCallbackResult.paContinue, out, q) ∧
      out.length = n * p.currentChannels.toNat ∧
      (∀ k, k < (p.audioData.length / p.currentChannels.toNat - p.currentFrame)
            * p.currentChannels.toNat →
        out[k]? = p.audioData[p.currentFrame * p.currentChannels.toNat + k]?) ∧
      (∀ k, (p.audioData.length / p.currentChannels.toNat - p.currentFrame)
            * p.currentChannels.toNat ≤ k →
        k < n * p.currentChannels.toNat → out[k]? = some (Fp.fin 0)) ∧
      q.currentFrame = p.audioData.length / p.currentChannels.toNat := by
  have hpp : p.playing = true ∧ p.paused = false := by
    simpa [AudioPlayer.isPlaying] using hplaying
  have hres := playCallback_of_playing p output n hpp.1 hpp.2 hch hchmax hsize
    (by omega) hout houtmax
  have hmin : min n (p.audioData.length / p.currentChannels.toNat - p.currentFrame)
      = p.audioData.length / p.currentChannels.toNat - p.currentFrame :=
    Nat.min_eq_right (le_of_lt hlt)
  rw [hmin, if_neg (by omega)] at hres
  have hTK : p.audioData.length / p.currentChannels.toNat * p.currentChannels.toNat
      ≤ p.audioData.length := Nat.div_mul_le_self _ _
  have hcf : p.currentFrame * p.currentChannels.toNat
      + (p.audioData.length / p.currentChannels.toNat - p.currentFrame)
        * p.currentChannels.toNat ≤ p.audioData.length := by
    calc p.currentFrame * p.currentChannels.toNat
          + (p.audioData.length / p.currentChannels.toNat - p.currentFrame)
            * p.currentChannels.toNat
        = (p.currentFrame
            + (p.audioData.length / p.currentChannels.toNat - p.currentFrame))
            * p.currentChannels.toNat := (Nat.add_mul _ _ _).symm
      _ ≤ p.audioData.length / p.currentChannels.toNat * p.currentChannels.toNat :=
          Nat.mul_le_mul_right _ (by omega)
      _ ≤ p.audioData.length := hTK
  refine ⟨_, _, hres, ?_, ?_, ?_, ?_⟩
  · exact callbackOutput_length _ _ _ _ _ (le_of_lt hlt) hcf
  · intro k hk
    exact callbackOutput_data _ _ _ _ _ _ hcf hk
  · intro k hk0 hk1
    exact callbackOutput_zero _ _ _ _ _ _ hcf hk0 hk1
  · show p.currentFrame
      + (p.audioData.length / p.currentChannels.toNat - p.currentFrame) = _
    omega

/-- C18 (witness): four stereo frames with the cursor at frame 3 and a request of 3 frames on
a block of NaN: the block becomes the last frame followed by four zeros. -/
theorem playCallback_zero_fills_witness :
    (AudioPlayer.sessionAt (rampBuffer 8) 4 2 3).playCallback
        (List.replicate 6 Fp.nan) 3
      = some (PaStreamCallbackResult.paContinue,
          [Fp.fin 6, Fp.fin 7, Fp.fin 0, Fp.fin 0, Fp.fin 0, Fp.fin 0],
          AudioPlayer.sessionAt (rampBuffer 8) 4 2 4) ∧
    ∃ out q,
      (AudioPlayer.sessionAt (rampBuffer 8) 4 2 3).playCallback
          (List.replicate 6 Fp.nan) 3
        = some (PaStreamCallbackResult.paContinue, out, q) ∧
      out.length = 3 * 2 ∧
      (∀ k, k < (8 / 2 - 3) * 2 →
        out[k]? = (rampBuffer 8)[3 * 2 + k]?) ∧
      (∀ k, (8 / 2 - 3) * 2 ≤ k → k < 3 * 2 → out[k]? = some (Fp.fin 0)) ∧
      q.currentFrame = 8 / 2 :=
  ⟨by decide!,
    playCallback_zero_fills
      (AudioPlayer.sessionAt (rampBuffer 8) 4 2 3)
      (List.replicate 6 Fp.nan) 3 rfl (by decide) (by decide) (by decide) (by decide)
      (by decide) (by decide) (by decide)⟩

theorem playCallback_step (p : AudioPlayer) (output : List Fp) (n : Nat)
    (hch : 0 < p.currentChannels) (hchmax : p.currentChannels ≤ INT_MAX)
    (hsize : p.audioData.length ≤ SIZE_MAX)
    (hc : p.currentFrame ≤ p.audioData.length / p.currentChannels.toNat)
    (hout : output.length = n * p.currentChannels.toNat)
    (houtmax : output.length ≤ SIZE_MAX) :
    ∃ res out q, p.playCallback output n = some (res, out, q) ∧
      q.audioData = p.audioData ∧ q.currentChannels = p.currentChannels ∧
      p.currentFrame ≤ q.currentFrame ∧
      q.currentFrame ≤ p.audioData.length / p.currentChannels.toNat := by
  by_cases hplay : p.playing = true
  · by_cases hpause : p.paused = false
    · have hres := playCallback_of_playing p output n hplay hpause hch hchmax hsize hc
        hout houtmax
      by_cases hf : min n (p.audioData.length / p.currentChannels.toNat - p.currentFrame) = 0
      · rw [if_pos hf] at hres
        exact ⟨_, _, _, hres, rfl, rfl, le_refl _, hc⟩
      · rw [if_neg hf] at hres
        refine ⟨_, _, _, hres, rfl, rfl, ?_, ?_⟩
        · exact Nat.le_add_right _ _
        · show p.currentFrame
            + min n (p.audioData.length / p.currentChannels.toNat - p.currentFrame) ≤ _
          omega
    · have hp : p.paused = true := by
        cases h : p.paused
        · exact absurd h hpause
        · rfl
      refine ⟨PaStreamCallbackResult.paComplete, output, p, ?_, rfl, rfl, le_refl _, hc⟩
      simp [AudioPlayer.playCallback, hp]
  · have hp : p.playing = false := by
      cases h : p.playing
      · rfl
      · exact absurd h hplay
    refine ⟨PaStreamCallbackResult.paComplete, output, p, ?_, rfl, rfl, le_refl _, hc⟩
    simp [AudioPlayer.playCallback, hp]

theorem runCallbacks_invariant (data : List Fp) (channels : Int)
    (hch : 0 < channels) (hchmax : channels ≤ INT_MAX) (hsize : data.length ≤ SIZE_MAX) :
    ∀ (reqs : List (List Fp × Nat)) (p : AudioPlayer),
      p.audioData = data → p.currentChannels = channels →
      p.currentFrame ≤ data.length / channels.toNat →
      (∀ r ∈ reqs, r.1.length = r.2 * channels.toNat ∧ r.1.length ≤ SIZE_MAX) →
      ∃ q, p.runCallbacks reqs = some q ∧ q.audioData = data ∧
        q.currentChannels = channels ∧ p.currentFrame ≤ q.currentFrame ∧
        q.currentFrame ≤ data.length / channels.toNat := by
  intro reqs
  induction reqs with
  | nil =>
    intro p hd hc hcur _
    exact ⟨p, rfl, hd, hc, le_refl _, hcur⟩
  | cons r rest ih =>
    intro p hd hc hcur hwf
    obtain ⟨output, n⟩ := r
    have hr := hwf (output, n) (List.mem_cons_self _ _)
    obtain ⟨res, out, q, hstep, hqd, hqc, hmono, hle⟩ :=
      playCallback_step p output n (by rw [hc]; exact hch) (by rw [hc]; exact hchmax)
        (by rw [hd]; exact hsize) (by rw [hd, hc]; exact hcur)
        (by rw [hc]; exact hr.1) hr.2
    rw [hd, hc] at hle
    obtain ⟨q', hrun, hd', hc', hmono', hle'⟩ :=
      ih q (hqd.trans hd) (hqc.trans hc) hle
        (fun r hr => hwf r (List.mem_cons_of_mem _ hr))
    refine ⟨q', ?_, hd', hc', le_trans hmono hmono', hle'⟩
    simp only [AudioPlayer.runCallbacks, hstep]
    exact hrun

theorem runCallbacks_append (p : AudioPlayer) (before after : List (List Fp × Nat)) :
    p.runCallbacks (before ++ after)
      = (p.runCallbacks before).bind fun q => q.runCallbacks after := by
  induction before generalizing p with
  | nil => rfl
  | cons r rest ih =>
    obtain ⟨output, n⟩ := r
    simp only [List.cons_append, AudioPlayer.runCallbacks]
    cases h : p.playCallback output n with
    | none => rfl
    | some t =>
      obtain ⟨res, out, q⟩ := t
      exact ih q

/-- C19: after a successful `play` (positive channels) the cursor is at most the total frame
count, and it stays so after any number of playback callbacks on well-formed output blocks,
each of which returns; every later cursor is at least every earlier one, so no callback
decreases it. -/
theorem playback_cursor_invariant (p q : AudioPlayer) (pa : PortAudio) (data : List Fp)
    (sampleRate channels : Int) (startPosition : ℚ)
    (before after : List (List Fp × Nat))
    (hch : 0 < channels) (hchmax : channels ≤ INT_MAX) (hsize : data.length ≤ SIZE_MAX)
    (hplay : p.play pa data sampleRate channels startPosition = some (true, q))
    (hwf : ∀ r ∈ before ++ after,
      r.1.length = r.2 * channels.toNat ∧ r.1.length ≤ SIZE_MAX) :
    q.currentFrame ≤ data.length / channels.toNat ∧
    ∃ q₁ q₂, q.runCallbacks before = some q₁ ∧ q₁.runCallbacks after = some q₂ ∧
      q.runCallbacks (before ++ after) = some q₂ ∧
      q.currentFrame ≤ q₁.currentFrame ∧ q₁.currentFrame ≤ q₂.currentFrame ∧
      q₁.currentFrame ≤ data.length / channels.toNat ∧
      q₂.currentFrame ≤ data.length / channels.toNat := by
  obtain ⟨a, T, -, hT, hq⟩ := play_eq_some_true hplay
  rw [sizeDivInt_of_pos _ hch hchmax] at hT
  have hTeq : data.length / channels.toNat = T := Option.some.inj hT
  have hqd : q.audioData = data := by rw [hq]
  have hqc : q.currentChannels = channels := by rw [hq]
  have hqf : q.currentFrame ≤ data.length / channels.toNat := by
    rw [hq, hTeq]
    exact Nat.min_le_right _ _
  obtain ⟨q₁, h1, hd1, hc1, hm1, hl1⟩ :=
    runCallbacks_invariant data channels hch hchmax hsize before q hqd hqc hqf
      (fun r hr => hwf r (List.mem_append_left _ hr))
  obtain ⟨q₂, h2, -, -, hm2, hl2⟩ :=
    runCallbacks_invariant data channels hch hchmax hsize after q₁ hd1 hc1 hl1
      (fun r hr => hwf r (List.mem_append_right _ hr))
  refine ⟨hqf, q₁, q₂, h1, h2, ?_, hm1, hm2, hl1, hl2⟩
  rw [runCallbacks_append, h1]
  exact h2

/-- C19 (witness): four stereo frames played from 0.5 s at 4 Hz start at frame 2; a request of
1 frame and then one of 3 frames move the cursor to 3 and to 4, never beyond 4. -/
theorem playback_cursor_invariant_witness :
    AudioPlayer.init.play ⟨true, true, true⟩ (rampBuffer 8) 4 2 (1/2)
      = some (true, AudioPlayer.sessionAt (rampBuffer 8) 4 2 2) ∧
    (AudioPlayer.sessionAt (rampBuffer 8) 4 2 2).runCallbacks [(List.replicate 2 Fp.nan, 1)]
      = some (AudioPlayer.sessionAt (rampBuffer 8) 4 2 3) ∧
    (AudioPlayer.sessionAt (rampBuffer 8) 4 2 2).currentFrame ≤ (rampBuffer 8).length / 2 ∧
    ∃ q₁ q₂,
      (AudioPlayer.sessionAt (rampBuffer 8) 4 2 2).runCallbacks [(List.replicate 2 Fp.nan, 1)]
        = some q₁ ∧
      q₁.runCallbacks [(List.replicate 6 Fp.nan, 3)] = some q₂ ∧
      (AudioPlayer.sessionAt (rampBuffer 8) 4 2 2).runCallbacks
        ([(List.replicate 2 Fp.nan, 1)] ++ [(List.replicate 6 Fp.nan, 3)]) = some q₂ ∧
      (AudioPlayer.sessionAt (rampBuffer 8) 4 2 2).currentFrame ≤ q₁.currentFrame ∧
      q₁.currentFrame ≤ q₂.currentFrame ∧
      q₁.currentFrame ≤ (rampBuffer 8).length / 2 ∧
      q₂.currentFrame ≤ (rampBuffer 8).length / 2 := by
  have hplay : AudioPlayer.init.play ⟨true, true, true⟩ (rampBuffer 8) 4 2 (1/2)
      = some (true, AudioPlayer.sessionAt (rampBuffer 8) 4 2 2) := by decide!
  have hwf : ∀ r ∈ [(List.replicate 2 Fp.nan, 1)] ++ [(List.replicate 6 Fp.nan, 3)],
      r.1.length = r.2 * (2 : Int).toNat ∧ r.1.length ≤ SIZE_MAX := by
    intro r hr
    simp only [List.singleton_append, List.mem_cons, List.mem_singleton,
      List.not_mem_nil, or_false] at hr
    rcases hr with rfl | rfl <;> exact ⟨by decide, by decide⟩
  have h := playback_cursor_invariant AudioPlayer.init
    (AudioPlayer.sessionAt (rampBuffer 8) 4 2 2) ⟨true, true, true⟩ (rampBuffer 8) 4 2 (1/2)
    [(List.replicate 2 Fp.nan, 1)] [(List.replicate 6 Fp.nan, 3)]
    (by decide) (by decide) (by decide) hplay hwf
  exact ⟨hplay, by decide!, h.1, h.2⟩

/-- C20: for every player state, sampleRate, channels and startPosition, `play` on an empty
buffer returns false, and the state it leaves is the one of the implicit `stop`: not playing,
not paused, no stream open, no position thread running, the held buffer, sample rate and
channel count as before; from a stopped player without a finished callback nothing changes
at all. -/
theorem play_empty_buffer (p : AudioPlayer) (pa : PortAudio) (sampleRate channels : Int)
    (startPosition : ℚ) :
    p.play pa [] sampleRate channels startPosition = some (false, p.stop) ∧
    p.stop.playing = false ∧ p.stop.paused = false ∧ p.stop.isPlaying = false ∧
    p.stop.stream = false ∧ p.stop.positionUpdateThread = false ∧
    p.stop.audioData = p.audioData ∧ p.stop.currentSampleRate = p.currentSampleRate ∧
    p.stop.currentChannels = p.currentChannels ∧
    (p.playing = false → p.paused = false → p.stream = false →
      p.positionUpdateThread = false → p.currentFrame = 0 → p.finishedCallback = false →
      p.stop = p) := by
  obtain ⟨stream, playing, paused, audioData, currentFrame, sr, ch, thread, cb, calls⟩ := p
  refine ⟨by simp [AudioPlayer.play], ?_, ?_, ?_, ?_, ?_, ?_, ?_, ?_, ?_⟩
  all_goals
    cases stream <;> cases thread <;> cases cb <;>
      simp [AudioPlayer.stop, AudioPlayer.isPlaying]
  all_goals
    intro h1 h2 h3
    exact ⟨h1, h2, h3.symm⟩

theorem stop_eq (p : AudioPlayer) :
    p.stop = { p with
      playing := false, paused := false, stream := false, positionUpdateThread := false,
      currentFrame := 0,
      finishedCalls := if p.finishedCallback then p.finishedCalls + 1 else p.finishedCalls } := by
  obtain ⟨stream, playing, paused, audioData, currentFrame, sr, ch, thread, cb, calls⟩ := p
  cases stream <;> cases thread <;> cases cb <;> simp [AudioPlayer.stop]

/-- C21 (counterexample): a player that was never started, with a finished callback
registered, is stopped: the callback is invoked (once), and a second stop invokes it again. -/
theorem stop_fires_without_session :
    (AudioPlayer.init.setFinishedCallback true).finishedCalls = 0 ∧
    (AudioPlayer.init.setFinishedCallback true).stop.finishedCalls = 1 ∧
    (AudioPlayer.init.setFinishedCallback true).stop.stop.finishedCalls = 2 := by
  refine ⟨by decide, by decide, by decide⟩

/-- C21 (amended): from every player state `stop()` completes, leaving the player stopped, and
invokes the finished callback exactly once if one is registered and not at all otherwise,
whether or not a session had been started since the last stop. -/
theorem stop_fires_iff_registered (p : AudioPlayer) :
    p.stop.playing = false ∧ p.stop.paused = false ∧ p.stop.stream = false ∧
    (p.finishedCallback = true → p.stop.finishedCalls = p.finishedCalls + 1) ∧
    (p.finishedCallback = false → p.stop.finishedCalls = p.finishedCalls) := by
  rw [stop_eq]
  refine ⟨rfl, rfl, rfl, ?_, ?_⟩
  · intro h; simp [h]
  · intro h; simp [h]

/-- C22 (counterexample): with a finished callback registered, a successful play followed by
one stop has invoked the callback twice, not once (the first time in the stop that `play`
runs before it starts); and a callback that finds the buffer exhausted sets `playing` to
false and returns `paComplete` without invoking it. -/
theorem finished_callback_not_once_per_pairing :
    ((AudioPlayer.init.setFinishedCallback true).play ⟨true, true, true⟩ (rampBuffer 8) 4 2 0).map
        (fun r => (r.1, r.2.isPlaying, r.2.finishedCalls, r.2.stop.finishedCalls))
      = some (true, true, 1, 2) ∧
    (((AudioPlayer.sessionAt (rampBuffer 8) 4 2 4).setFinishedCallback true).playCallback
        (List.replicate 2 Fp.nan) 1).map
        (fun r => (r.1, r.2.2.playing, r.2.2.finishedCalls))
      = some (PaStreamCallbackResult.paComplete, false, 0) := by
  constructor <;> decide!

/-- C22 (amended): with a finished callback registered, every `stop()` invokes it exactly
once, whatever the state, and `play` runs such a stop before it starts; so a successful play
leaves a playing session with one more invocation, and the stop that follows it ends the
session with one more again: two invocations in total. -/
theorem play_then_stop_fires_twice (p q : AudioPlayer) (pa : PortAudio) (data : List Fp)
    (sampleRate channels : Int) (startPosition : ℚ)
    (hcb : p.finishedCallback = true)
    (hplay : p.play pa data sampleRate channels startPosition = some (true, q)) :
    (∀ s : AudioPlayer, s.finishedCallback = true →
      s.stop.finishedCalls = s.finishedCalls + 1) ∧
    q.isPlaying = true ∧ q.finishedCalls = p.finishedCalls + 1 ∧
    q.stop.isPlaying = false ∧ q.stop.finishedCalls = p.finishedCalls + 2 := by
  obtain ⟨a, T, -, -, hq⟩ := play_eq_some_true hplay
  have hstop : ∀ s : AudioPlayer, s.finishedCallback = true →
      s.stop.finishedCalls = s.finishedCalls + 1 := by
    intro s hs
    rw [stop_eq]
    simp [hs]
  have hqcb : q.finishedCallback = true := by
    rw [hq, stop_eq]
    exact hcb
  have hqcalls : q.finishedCalls = p.finishedCalls + 1 := by
    rw [hq, stop_eq]
    simp [hcb]
  refine ⟨hstop, ?_, hqcalls, ?_, ?_⟩
  · rw [hq]
    rfl
  · rw [stop_eq]
    rfl
  · rw [hstop q hqcb, hqcalls]

/-- C22 (witness): four stereo frames played from 0.5 s with a finished callback registered:
one invocation after `play`, two after the stop. -/
theorem play_then_stop_fires_twice_witness :
    (AudioPlayer.init.setFinishedCallback true).play ⟨true, true, true⟩ (rampBuffer 8) 4 2 (1/2)
      = some (true, { AudioPlayer.sessionAt (rampBuffer 8) 4 2 2 with
          finishedCallback := true, finishedCalls := 1 }) ∧
    ({ AudioPlayer.sessionAt (rampBuffer 8) 4 2 2 with
        finishedCallback := true, finishedCalls := 1 } : AudioPlayer).stop.finishedCalls
      = (AudioPlayer.init.setFinishedCallback true).finishedCalls + 2 := by
  have hplay : (AudioPlayer.init.setFinishedCallback true).play ⟨true, true, true⟩
      (rampBuffer 8) 4 2 (1/2)
      = some (true, { AudioPlayer.sessionAt (rampBuffer 8) 4 2 2 with
          finishedCallback := true, finishedCalls := 1 }) := by decide!
  exact ⟨hplay,
    (play_then_stop_fires_twice _ _ ⟨true, true, true⟩ (rampBuffer 8) 4 2 (1/2) rfl
      hplay).2.2.2.2⟩

/-- C23: from every state `stop()` leaves the player not playing, not paused, with no open
stream, no position thread and the cursor at zero, so `getCurrentPosition` returns 0; a
second `stop()` leaves every field of the player as the first one did (only the count of
invocations of the finished callback can differ). -/
theorem stop_idempotent (p : AudioPlayer) :
    p.stop.playing = false ∧ p.stop.paused = false ∧ p.stop.isPlaying = false ∧
    p.stop.stream = false ∧ p.stop.positionUpdateThread = false ∧
    p.stop.currentFrame = 0 ∧ p.stop.getCurrentPosition = 0 ∧
    p.stop.stop = { p.stop with finishedCalls := p.stop.stop.finishedCalls } ∧
    (p.finishedCallback = false → p.stop.stop = p.stop) := by
  refine ⟨?_, ?_, ?_, ?_, ?_, ?_, ?_, ?_, ?_⟩
  · rw [stop_eq]
  · rw [stop_eq]
  · rw [stop_eq]; rfl
  · rw [stop_eq]
  · rw [stop_eq]
  · rw [stop_eq]
  · rw [stop_eq]
    simp [AudioPlayer.getCurrentPosition, roundDouble_zero]
  · rw [stop_eq p.stop, stop_eq p]
  · intro h
    rw [stop_eq p.stop, stop_eq p]
    simp [h]

/-- C24: when the player is not playing `pause()` changes nothing; when it is playing,
`pause()` sets `paused`, so `isPlaying()` is false, and leaves every other field as it was:
the cursor, the held buffer, the sample rate, the channel count and the count of invocations
of the finished callback. -/
theorem pause_only_while_playing (p : AudioPlayer) :
    (p.playing = false → p.pause = p) ∧
    (p.playing = true →
      p.pause = { p with paused := true } ∧ p.pause.paused = true ∧
      p.pause.isPlaying = false ∧ p.pause.currentFrame = p.currentFrame ∧
      p.pause.audioData = p.audioData ∧
      p.pause.currentSampleRate = p.currentSampleRate ∧
      p.pause.currentChannels = p.currentChannels ∧
      p.pause.finishedCalls = p.finishedCalls) := by
  constructor
  · intro h
    simp [AudioPlayer.pause, h]
  · intro h
    have hp : p.pause = { p with paused := true } := by
      simp [AudioPlayer.pause, h]
    rw [hp]
    refine ⟨rfl, rfl, ?_, rfl, rfl, rfl, rfl, rfl⟩
    simp [AudioPlayer.isPlaying]

theorem play_of_failure (p : AudioPlayer) (pa : PortAudio) (data : List Fp)
    (sampleRate channels : Int) (startPosition : ℚ) (a T : Nat) (hne : data ≠ [])
    (ha : toSizeT (doubleMul (.fin startPosition) (.fin (sampleRate : ℚ))) = some a)
    (hT : sizeDivInt data.length channels = some T)
    (hfail : pa.deviceAvailable = false ∨ pa.openOk = false ∨ pa.startOk = false) :
    p.play pa data sampleRate channels startPosition
      = some (false, { p.stop with
          audioData := data, currentSampleRate := sampleRate, currentChannels := channels,
          currentFrame := min a T }) := by
  have he : data.isEmpty = false := by
    cases data with
    | nil => exact absurd rfl hne
    | cons x xs => rfl
  have hs := stop_eq p
  obtain ⟨dev, op, st⟩ := pa
  cases dev <;> cases op <;> cases st <;>
    simp_all [AudioPlayer.play]

/-- C25 (counterexample): a new player (empty buffer, 44100 Hz, 1 channel, cursor 0) is asked
to play four stereo frames at 4 Hz from 0.5 s while no output device is available: `play`
returns false, but the player now holds the 8 samples, the rate 4 and 2 channels, and the
cursor is at frame 2. -/
theorem play_failure_keeps_new_buffer :
    (AudioPlayer.init.audioData.length, AudioPlayer.init.currentSampleRate,
      AudioPlayer.init.currentChannels, AudioPlayer.init.currentFrame) = (0, 44100, 1, 0) ∧
    (AudioPlayer.init.play ⟨false, true, true⟩ (rampBuffer 8) 4 2 (1/2)).map
        (fun r => (r.1, r.2.isPlaying, r.2.audioData.length, r.2.currentSampleRate,
          r.2.currentChannels, r.2.currentFrame))
      = some (false, false, 8, 4, 2, 2) := by
  constructor <;> decide!

/-- C25 (amended): when `play` is given a non-empty buffer for which the start frame is
defined, but no output device is available or the stream cannot be opened or started, it
returns false and the player is not playing, not paused, with no open stream and no position
thread; the held buffer, sample rate and channel count are those of the failed call, and the
cursor is the start frame computed for it. -/
theorem play_failure_state (p : AudioPlayer) (pa : PortAudio) (data : List Fp)
    (sampleRate channels : Int) (startPosition : ℚ) (a T : Nat) (hne : data ≠ [])
    (ha : toSizeT (doubleMul (.fin startPosition) (.fin (sampleRate : ℚ))) = some a)
    (hT : sizeDivInt data.length channels = some T)
    (hfail : pa.deviceAvailable = false ∨ pa.openOk = false ∨ pa.startOk = false) :
    ∃ q, p.play pa data sampleRate channels startPosition = some (false, q) ∧
      q.playing = false ∧ q.paused = false ∧ q.isPlaying = false ∧ q.stream = false ∧
      q.positionUpdateThread = false ∧
      q.audioData = data ∧ q.currentSampleRate = sampleRate ∧
      q.currentChannels = channels ∧ q.currentFrame = min a T := by
  refine ⟨_, play_of_failure p pa data sampleRate channels startPosition a T hne ha hT hfail,
    ?_, ?_, ?_, ?_, ?_, rfl, rfl, rfl, rfl⟩
  all_goals rw [stop_eq]
  all_goals rfl

/-- C25 (witness): the stream of four stereo frames at 4 Hz cannot be started: `play` from
0.5 s returns false with the cursor at frame 2 and the new buffer held. -/
theorem play_failure_state_witness :
    toSizeT (doubleMul (.fin (1/2)) (.fin ((4 : Int) : ℚ))) = some 2 ∧
    sizeDivInt (rampBuffer 8).length 2 = some 4 ∧
    ∃ q, AudioPlayer.init.play ⟨true, true, false⟩ (rampBuffer 8) 4 2 (1/2) = some (false, q) ∧
      q.playing = false ∧ q.paused = false ∧ q.isPlaying = false ∧ q.stream = false ∧
      q.positionUpdateThread = false ∧
      q.audioData = rampBuffer 8 ∧ q.currentSampleRate = 4 ∧
      q.currentChannels = 2 ∧ q.currentFrame = min 2 4 :=
  have ha : toSizeT (doubleMul (.fin (1/2)) (.fin ((4 : Int) : ℚ))) = some 2 := by decide!
  have hT : sizeDivInt (rampBuffer 8).length 2 = some 4 := by decide!
  ⟨ha, hT, play_failure_state AudioPlayer.init ⟨true, true, false⟩ (rampBuffer 8) 4 2 (1/2)
    2 4 (by decide) ha hT (Or.inr (Or.inr rfl))⟩

theorem stopRecording_of_not_recording (r : AudioRecorder) (h : r.recording = false) :
    r.stopRecording = r := by
  simp [AudioRecorder.stopRecording, h]

/-- C26 (counterexample): a recorder that is not recording and still holds two samples of an
earlier take at 44100 Hz mono is started at 48000 Hz stereo while no input device is
available: `startRecording` returns false, but the stored rate and channel count are now
48000 and 2 and the accumulated samples are gone. -/
theorem startRecording_failure_changes_state :
    ({ AudioRecorder.init with recordedData := [Fp.fin 1, Fp.fin 2] } : AudioRecorder).startRecording
        ⟨false, true, true⟩ 48000 2
      = (false, { AudioRecorder.init with currentSampleRate := 48000, currentChannels := 2 }) ∧
    AudioRecorder.init.startRecording ⟨true, false, true⟩ 48000 2
      = (false, { AudioRecorder.init with currentSampleRate := 48000, currentChannels := 2 }) := by
  constructor <;> decide

/-- C26 (amended): whenever `startRecording` returns false, either the recorder was already
recording, and then the call is rejected and the whole state is unchanged (it is still
recording); or it was not recording (no input device, or the stream fails to open or start),
and then the recording flag is false as before, the registered callback and what was
delivered are unchanged, but the stored sample rate and channel count are those of the
failed call and the accumulated samples are cleared. -/
theorem startRecording_failure_state (r : AudioRecorder) (pa : PortAudio)
    (sampleRate channels : Int)
    (hfail : (r.startRecording pa sampleRate channels).1 = false) :
    (r.recording = true → r.startRecording pa sampleRate channels = (false, r)) ∧
    (r.recording = false →
      (r.startRecording pa sampleRate channels).2.recording = false ∧
      (r.startRecording pa sampleRate channels).2.currentSampleRate = sampleRate ∧
      (r.startRecording pa sampleRate channels).2.currentChannels = channels ∧
      (r.startRecording pa sampleRate channels).2.recordedData = [] ∧
      (r.startRecording pa sampleRate channels).2.callback = r.callback ∧
      (r.startRecording pa sampleRate channels).2.delivered = r.delivered) := by
  constructor
  · intro h
    simp [AudioRecorder.startRecording, h]
  · intro h
    obtain ⟨dev, op, st⟩ := pa
    cases dev <;> cases op <;> cases st <;>
      simp_all [AudioRecorder.startRecording, stopRecording_of_not_recording]

/-- C26 (witness): a recording recorder rejects `startRecording` and stays as it is. -/
theorem startRecording_failure_state_witness :
    (({ AudioRecorder.init with recording := true, stream := true } :
        AudioRecorder).startRecording ⟨true, true, true⟩ 48000 2).1 = false ∧
    ({ AudioRecorder.init with recording := true, stream := true } :
        AudioRecorder).startRecording ⟨true, true, true⟩ 48000 2
      = (false, { AudioRecorder.init with recording := true, stream := true }) :=
  ⟨rfl, (startRecording_failure_state
    { AudioRecorder.init with recording := true, stream := true } ⟨true, true, true⟩ 48000 2
    rfl).1 rfl⟩

/-- C27: when not recording `stopRecording` changes nothing and invokes no callback; when
recording it clears the recording flag, closes the stream, keeps the accumulated samples and
invokes the completion callback exactly once, with the accumulated samples, the sample rate
and the channel count, if a callback is registered and samples were captured, and not at all
otherwise; a second `stopRecording` then changes nothing. -/
theorem stopRecording_idempotent (r : AudioRecorder) :
    (r.recording = false → r.stopRecording = r) ∧
    (r.recording = true →
      r.stopRecording.recording = false ∧ r.stopRecording.stream = false ∧
      r.stopRecording.recordedData = r.recordedData ∧
      r.stopRecording.currentSampleRate = r.currentSampleRate ∧
      r.stopRecording.currentChannels = r.currentChannels ∧
      (r.callback = true → r.recordedData ≠ [] →
        r.stopRecording.delivered
          = r.delivered ++ [(r.recordedData, r.currentSampleRate, r.currentChannels)]) ∧
      (r.callback = false ∨ r.recordedData = [] →
        r.stopRecording.delivered = r.delivered)) ∧
    r.stopRecording.stopRecording = r.stopRecording := by
  obtain ⟨stream, recording, data, sr, ch, cb, delivered⟩ := r
  refine ⟨?_, ?_, ?_⟩
  · intro h
    exact stopRecording_of_not_recording _ h
  · intro h
    simp only at h
    subst h
    cases stream <;> cases cb <;> cases data <;>
      simp [AudioRecorder.stopRecording]
  · cases recording
    · simp [AudioRecorder.stopRecording]
    · apply stopRecording_of_not_recording
      cases stream <;> cases cb <;> cases data <;>
        simp [AudioRecorder.stopRecording]

theorem playToCompletion_spec (data : List Fp) (channels : Int) (K T n : Nat)
    (output : List Fp) (hch : 0 < channels) (hchmax : channels ≤ INT_MAX)
    (hK : channels.toNat = K) (hT : data.length / K = T) (hsize : data.length ≤ SIZE_MAX)
    (hn : 0 < n) (hout : output.length = n * K) (houtmax : output.length ≤ SIZE_MAX) :
    ∀ (fuel : Nat) (p : AudioPlayer), p.audioData = data → p.currentChannels = channels →
      p.playing = true → p.paused = false → p.currentFrame ≤ T → T - p.currentFrame < fuel →
      ∃ blocks, p.playToCompletion output n fuel
          = some (blocks, output, { p with currentFrame := T, playing := false }) ∧
        T - p.currentFrame ≤ blocks.length * n ∧
        blocks.length * n < T - p.currentFrame + n ∧
        blocks.flatten = (data.drop (p.currentFrame * K)).take ((T - p.currentFrame) * K)
          ++ List.replicate ((blocks.length * n - (T - p.currentFrame)) * K) (Fp.fin 0) := by
  intro fuel
  induction fuel with
  | zero => intro p _ _ _ _ _ h; omega
  | succ fuel ih =>
    intro p hd hc hplay hpause hcur hfuel
    subst hd
    subst hc
    have hres := playCallback_of_playing p output n hplay hpause hch hchmax hsize
      (by rw [hK, hT]; exact hcur) (by rw [hK]; exact hout) houtmax
    rw [hK, hT] at hres
    generalize hcdef : p.currentFrame = c at hres hcur hfuel ⊢
    by_cases hf : min n (T - c) = 0
    · have hcT : c = T := by omega
      rw [if_pos hf] at hres
      subst hcT
      refine ⟨[], ?_, ?_, ?_, ?_⟩
      · simp only [AudioPlayer.playToCompletion, hres]
      · simp
      · simp; omega
      · simp
    · rw [if_neg hf] at hres
      have hf1 : 1 ≤ min n (T - c) := by omega
      obtain ⟨blocks, hrun, hlo, hhi, hflat⟩ :=
        ih { p with currentFrame := c + min n (T - c) } rfl rfl hplay hpause
          (by show c + min n (T - c) ≤ T; omega)
          (by show T - (c + min n (T - c)) < fuel; omega)
      have hrun' : ({ p with currentFrame := c + min n (T - c) } : AudioPlayer).playToCompletion
          output n fuel = some (blocks, output, { p with currentFrame := T, playing := false }) :=
        hrun
      have hlo' : T - (c + min n (T - c)) ≤ blocks.length * n := hlo
      have hhi' : blocks.length * n < T - (c + min n (T - c)) + n := hhi
      have hflat' : blocks.flatten
          = (p.audioData.drop ((c + min n (T - c)) * K)).take
              ((T - (c + min n (T - c))) * K)
            ++ List.replicate ((blocks.length * n - (T - (c + min n (T - c)))) * K)
              (Fp.fin 0) := hflat
      refine ⟨((p.audioData.drop (c * K)).take (min n (T - c) * K)
          ++ List.replicate ((n - min n (T - c)) * K) (Fp.fin 0)) :: blocks, ?_, ?_, ?_, ?_⟩
      · simp only [AudioPlayer.playToCompletion, hres, hrun']
      · simp only [List.length_cons, Nat.succ_mul]
        omega
      · simp only [List.length_cons, Nat.succ_mul]
        by_cases hfull : n ≤ T - c
        · omega
        · have hzero : blocks.length = 0 := by
            by_contra h
            have := Nat.le_mul_of_pos_left n (Nat.pos_of_ne_zero h)
            omega
          rw [hzero]
          omega
      · rw [List.flatten_cons, hflat']
        by_cases hfull : n ≤ T - c
        · have hmin : min n (T - c) = n := Nat.min_eq_left hfull
          rw [hmin]
          have h1 : (n - n) * K = 0 := by simp
          have h2 : (c + n) * K = c * K + n * K := Nat.add_mul _ _ _
          have h3 : (T - c) * K = n * K + (T - (c + n)) * K := by
            rw [← Nat.add_mul]
            congr 1
            omega
          have h4 : ((blocks.length + 1) * n - (T - c)) = blocks.length * n - (T - (c + n)) := by
            rw [Nat.succ_mul]
            omega
          rw [h1, List.replicate_zero, List.append_nil, h2, ← List.drop_drop, h3,
            List.take_add, List.length_cons, h4, List.append_assoc]
        · have hmin : min n (T - c) = T - c := Nat.min_eq_right (by omega)
          rw [hmin] at hhi' hlo' ⊢
          have hzero : blocks.length = 0 := by
            by_contra h
            have := Nat.le_mul_of_pos_left n (Nat.pos_of_ne_zero h)
            omega
          have h5 : T - (c + (T - c)) = 0 := by omega
          simp [hzero, h5]

/-- C28: for every playing session with positive channels, cursor `c <= totalFrames` and a
request size `n > 0`, the stream runs to completion (given enough calls): the blocks of the
callbacks that return `paContinue`, concatenated, are the buffer's samples from offset
`c * channels` to `totalFrames * channels` followed only by zeros; there are exactly
`ceil((totalFrames - c) / n)` of them; and the next callback leaves its block as it was,
sets `playing` to false, leaves the cursor at `totalFrames` and returns `paComplete`. -/
theorem playback_reproduces_buffer (p : AudioPlayer) (output : List Fp) (n fuel : Nat)
    (hplaying : p.isPlaying = true)
    (hch : 0 < p.currentChannels) (hchmax : p.currentChannels ≤ INT_MAX)
    (hsize : p.audioData.length ≤ SIZE_MAX)
    (hc : p.currentFrame ≤ p.audioData.length / p.currentChannels.toNat) (hn : 0 < n)
    (hout : output.length = n * p.currentChannels.toNat)
    (houtmax : output.length ≤ SIZE_MAX)
    (hfuel : p.audioData.length / p.currentChannels.toNat - p.currentFrame < fuel) :
    ∃ blocks q, p.playToCompletion output n fuel = some (blocks, output, q) ∧
      blocks.length
        = (p.audioData.length / p.currentChannels.toNat - p.currentFrame + n - 1) / n ∧
      blocks.flatten
        = (p.audioData.drop (p.currentFrame * p.currentChannels.toNat)).take
            ((p.audioData.length / p.currentChannels.toNat - p.currentFrame)
              * p.currentChannels.toNat)
          ++ List.replicate
            ((blocks.length * n
                - (p.audioData.length / p.currentChannels.toNat - p.currentFrame))
              * p.currentChannels.toNat) (Fp.fin 0) ∧
      q.playing = false ∧
      q.currentFrame = p.audioData.length / p.currentChannels.toNat ∧
      q.audioData = p.audioData := by
  have hpp : p.playing = true ∧ p.paused = false := by
    simpa [AudioPlayer.isPlaying] using hplaying
  obtain ⟨blocks, hrun, hlo, hhi, hflat⟩ :=
    playToCompletion_spec p.audioData p.currentChannels p.currentChannels.toNat
      (p.audioData.length / p.currentChannels.toNat) n output hch hchmax rfl rfl hsize hn
      hout houtmax fuel p rfl rfl hpp.1 hpp.2 hc hfuel
  refine ⟨blocks, _, hrun, ?_, hflat, rfl, rfl, rfl⟩
  symm
  apply Nat.div_eq_of_lt_le
  · omega
  · rw [Nat.succ_mul]
    omega

/-- C28 (witness): four stereo frames numbered from 0, cursor at frame 1, requests of 2
frames: two blocks are played, frames 1 and 2, then frame 3 and a frame of zeros, and the
third callback completes with the cursor at frame 4. -/
theorem playback_reproduces_buffer_witness :
    (AudioPlayer.sessionAt (rampBuffer 8) 4 2 1).playToCompletion (List.replicate 4 Fp.nan) 2 10
      = some ([[Fp.fin 2, Fp.fin 3, Fp.fin 4, Fp.fin 5], [Fp.fin 6, Fp.fin 7, Fp.fin 0, Fp.fin 0]],
          List.replicate 4 Fp.nan,
          { AudioPlayer.sessionAt (rampBuffer 8) 4 2 4 with playing := false }) ∧
    ∃ blocks q,
      (AudioPlayer.sessionAt (rampBuffer 8) 4 2 1).playToCompletion (List.replicate 4 Fp.nan) 2 10
        = some (blocks, List.replicate 4 Fp.nan, q) ∧
      blocks.length = ((rampBuffer 8).length / 2 - 1 + 2 - 1) / 2 ∧
      blocks.flatten
        = ((rampBuffer 8).drop (1 * 2)).take (((rampBuffer 8).length / 2 - 1) * 2)
          ++ List.replicate ((blocks.length * 2 - ((rampBuffer 8).length / 2 - 1)) * 2)
            (Fp.fin 0) ∧
      q.playing = false ∧ q.currentFrame = (rampBuffer 8).length / 2 ∧
      q.audioData = rampBuffer 8 :=
  ⟨by decide!,
    playback_reproduces_buffer (AudioPlayer.sessionAt (rampBuffer 8) 4 2 1)
      (List.replicate 4 Fp.nan) 2 10 rfl (by decide) (by decide) (by decide) (by decide)
      (by decide) (by decide) (by decide) (by decide)⟩

theorem copyRange_of_cursor (p : AudioPlayer) (n : Nat)
    (hch : 0 < p.currentChannels) (hchmax : p.currentChannels ≤ INT_MAX)
    (hsize : p.audioData.length ≤ SIZE_MAX)
    (hc : p.currentFrame ≤ p.audioData.length / p.currentChannels.toNat) :
    p.copyRange n
      = some (p.currentFrame * p.currentChannels.toNat,
          min n (p.audioData.length / p.currentChannels.toNat - p.currentFrame)
            * p.currentChannels.toNat) ∧
    (p.audioData.length / p.currentChannels.toNat + (SIZE_MAX + 1) - p.currentFrame)
        % (SIZE_MAX + 1)
      = p.audioData.length / p.currentChannels.toNat - p.currentFrame ∧
    p.currentFrame * p.currentChannels.toNat
      + min n (p.audioData.length / p.currentChannels.toNat - p.currentFrame)
        * p.currentChannels.toNat ≤ p.audioData.length := by
  have hK : sizeOfInt p.currentChannels = p.currentChannels.toNat :=
    sizeOfInt_of_range (le_of_lt hch) hchmax
  have hT : sizeDivInt p.audioData.length p.currentChannels
      = some (p.audioData.length / p.currentChannels.toNat) :=
    sizeDivInt_of_pos _ hch hchmax
  generalize hKdef : p.currentChannels.toNat = K at *
  generalize hTdef : p.audioData.length / K = T at *
  generalize hcdef : p.currentFrame = c at *
  have hK1 : 1 ≤ K := by omega
  have hTK : T * K ≤ p.audioData.length := by
    rw [← hTdef]; exact Nat.div_mul_le_self _ _
  have hM : SIZE_MAX + 1 = 2 ^ 64 := by decide
  have hS : SIZE_MAX = 2 ^ 64 - 1 := rfl
  have hTle : T ≤ p.audioData.length := by
    calc T = T * 1 := (Nat.mul_one T).symm
      _ ≤ T * K := Nat.mul_le_mul_left T hK1
      _ ≤ p.audioData.length := hTK
  have havail : (T + (SIZE_MAX + 1) - c) % (SIZE_MAX + 1) = T - c := by
    rw [hM]; rw [hS] at hsize; omega
  generalize hfdef : min n (T - c) = f at *
  have hcf : c + f ≤ T := by omega
  have hcfK : c * K + f * K ≤ p.audioData.length := by
    calc c * K + f * K = (c + f) * K := (Nat.add_mul c f K).symm
      _ ≤ T * K := Nat.mul_le_mul_right K hcf
      _ ≤ p.audioData.length := hTK
  have hmod1 : (f * K) % (SIZE_MAX + 1) = f * K :=
    Nat.mod_eq_of_lt (by rw [hM]; rw [hS] at hsize; omega)
  have hmod2 : (c * K) % (SIZE_MAX + 1) = c * K :=
    Nat.mod_eq_of_lt (by rw [hM]; rw [hS] at hsize; omega)
  refine ⟨?_, havail, hcfK⟩
  simp only [AudioPlayer.copyRange, hT, hK, hcdef, havail, hfdef, hmod1, hmod2,
    Option.bind_eq_bind, Option.some_bind]

/-- C29: in every state reached from a successful `play` (positive channels) by playback
callbacks on well-formed output blocks, and for every requested frame count `n` on a block of
`n * channels` samples: the cursor is at most `totalFrames`, so `totalFrames - cursor` does
not wrap; the copy reads the offsets `startSample + k` for `k < samplesToWrite`, all below the
buffer size, and writes the offsets `k`, all below `n * channels`, as are the offsets of the
zero fill; and the callback returns (no access leaves a buffer). -/
theorem playCallback_bounds_safe (p q : AudioPlayer) (pa : PortAudio) (data : List Fp)
    (sampleRate channels : Int) (startPosition : ℚ) (reqs : List (List Fp × Nat))
    (output : List Fp) (n : Nat)
    (hch : 0 < channels) (hchmax : channels ≤ INT_MAX) (hsize : data.length ≤ SIZE_MAX)
    (hplay : p.play pa data sampleRate channels startPosition = some (true, q))
    (hwf : ∀ r ∈ reqs, r.1.length = r.2 * channels.toNat ∧ r.1.length ≤ SIZE_MAX)
    (hout : output.length = n * channels.toNat) (houtmax : output.length ≤ SIZE_MAX) :
    ∃ q', q.runCallbacks reqs = some q' ∧
      q'.totalFrames = some (data.length / channels.toNat) ∧
      q'.currentFrame ≤ data.length / channels.toNat ∧
      (data.length / channels.toNat + (SIZE_MAX + 1) - q'.currentFrame) % (SIZE_MAX + 1)
        = data.length / channels.toNat - q'.currentFrame ∧
      (∃ startSample samplesToWrite, q'.copyRange n = some (startSample, samplesToWrite) ∧
        startSample + samplesToWrite ≤ data.length ∧
        (∀ k, k < samplesToWrite → startSample + k < data.length ∧ k < n * channels.toNat) ∧
        (∀ k, samplesToWrite ≤ k → k < n * channels.toNat → k < output.length)) ∧
      ∃ res, q'.playCallback output n = some res := by
  obtain ⟨a, T, -, hT, hq⟩ := play_eq_some_true hplay
  rw [sizeDivInt_of_pos _ hch hchmax] at hT
  have hTeq : data.length / channels.toNat = T := Option.some.inj hT
  have hqd : q.audioData = data := by rw [hq]
  have hqc : q.currentChannels = channels := by rw [hq]
  have hqf : q.currentFrame ≤ data.length / channels.toNat := by
    rw [hq, hTeq]
    exact Nat.min_le_right _ _
  obtain ⟨q', hrun, hd', hc', -, hle⟩ :=
    runCallbacks_invariant data channels hch hchmax hsize reqs q hqd hqc hqf hwf
  have hch' : 0 < q'.currentChannels := by rw [hc']; exact hch
  have hchmax' : q'.currentChannels ≤ INT_MAX := by rw [hc']; exact hchmax
  have hsize' : q'.audioData.length ≤ SIZE_MAX := by rw [hd']; exact hsize
  have hle' : q'.currentFrame ≤ q'.audioData.length / q'.currentChannels.toNat := by
    rw [hd', hc']; exact hle
  obtain ⟨hrange, hsub, hbound⟩ := copyRange_of_cursor q' n hch' hchmax' hsize' hle'
  obtain ⟨res, out, q'', hstep, -, -, -, -⟩ :=
    playCallback_step q' output n hch' hchmax' hsize' hle' (by rw [hc']; exact hout) houtmax
  rw [hd', hc'] at hrange hsub hbound
  refine ⟨q', hrun, ?_, hle, hsub, ⟨_, _, hrange, hbound, ?_, ?_⟩, _, hstep⟩
  · rw [AudioPlayer.totalFrames, hd', hc', sizeDivInt_of_pos _ hch hchmax]
  · intro k hk
    have hmin : min n (data.length / channels.toNat - q'.currentFrame) * channels.toNat
        ≤ n * channels.toNat := Nat.mul_le_mul_right _ (Nat.min_le_left _ _)
    constructor <;> omega
  · intro k _ hk
    rw [hout]
    exact hk

/-- C29 (witness): four stereo frames played from 0.5 s at 4 Hz; after a request of 1 frame
the cursor is at frame 3 of 4, and a request of 3 frames reads the offsets 6 and 7 of the 8
samples and returns. -/
theorem playCallback_bounds_safe_witness :
    AudioPlayer.init.play ⟨true, true, true⟩ (rampBuffer 8) 4 2 (1/2)
      = some (true, AudioPlayer.sessionAt (rampBuffer 8) 4 2 2) ∧
    (AudioPlayer.sessionAt (rampBuffer 8) 4 2 3).copyRange 3 = some (6, 2) ∧
    ∃ q', (AudioPlayer.sessionAt (rampBuffer 8) 4 2 2).runCallbacks
          [(List.replicate 2 Fp.nan, 1)] = some q' ∧
      q'.totalFrames = some ((rampBuffer 8).length / (2 : Int).toNat) ∧
      q'.currentFrame ≤ (rampBuffer 8).length / (2 : Int).toNat ∧
      ((rampBuffer 8).length / (2 : Int).toNat + (SIZE_MAX + 1) - q'.currentFrame)
          % (SIZE_MAX + 1)
        = (rampBuffer 8).length / (2 : Int).toNat - q'.currentFrame ∧
      (∃ startSample samplesToWrite, q'.copyRange 3 = some (startSample, samplesToWrite) ∧
        startSample + samplesToWrite ≤ (rampBuffer 8).length ∧
        (∀ k, k < samplesToWrite →
          startSample + k < (rampBuffer 8).length ∧ k < 3 * (2 : Int).toNat) ∧
        (∀ k, samplesToWrite ≤ k → k < 3 * (2 : Int).toNat →
          k < (List.replicate 6 Fp.nan).length)) ∧
      ∃ res, q'.playCallback (List.replicate 6 Fp.nan) 3 = some res := by
  have hplay : AudioPlayer.init.play ⟨true, true, true⟩ (rampBuffer 8) 4 2 (1/2)
      = some (true, AudioPlayer.sessionAt (rampBuffer 8) 4 2 2) := by decide!
  have hwf : ∀ r ∈ [(List.replicate 2 Fp.nan, 1)],
      r.1.length = r.2 * (2 : Int).toNat ∧ r.1.length ≤ SIZE_MAX := by
    intro r hr
    simp only [List.mem_singleton] at hr
    subst hr
    exact ⟨by decide, by decide⟩
  exact ⟨hplay, by decide!,
    playCallback_bounds_safe AudioPlayer.init (AudioPlayer.sessionAt (rampBuffer 8) 4 2 2)
      ⟨true, true, true⟩ (rampBuffer 8) 4 2 (1/2) [(List.replicate 2 Fp.nan, 1)]
      (List.replicate 6 Fp.nan) 3 (by decide) (by decide) (by decide) hplay hwf
      (by decide) (by decide)⟩

end AudioClipper
